import Mathlib

/-!
# Project-ASCII: the model loader and the line rasteriser

A shallow embedding of `src/model_loader.cpp` (loader, rotation, projection,
rasteriser, one frame of the render loop) and, in the namespace `Cube`, of the
parts of `src/cube.cpp` that differ from it.  The viewport test and the shade
character of `drawLine` are parameters of the loop, so that the `drawLine` of both
files are instances of the same definitions.  Coordinates and depths are exact
rationals (reals for the rotation by an angle, whose cosine and sine are arguments),
`int` values are integers reduced modulo `2^32` into the range of `int` where the
source computes with them (in the loader and in the loop of `drawLine`),
containers are lists, and every way in which the C++ program can leave normal
execution is an explicit `Fault`.
-/

namespace ProjectASCII

/-! ## Data model -/

/-- Vertex of the model, `struct Point3D`, with coordinates in the numbers `R` in
place of `float`: the exact rationals in the loader and the projection, the reals
where angles and their cosine and sine are concerned. -/
structure Point3D (R : Type) where
  x : R
  y : R
  z : R
deriving DecidableEq

/-- Ways in which the program leaves normal execution. -/
inductive Fault where
  /-- `std::stoi` found no digits: `std::invalid_argument`, never caught. -/
  | invalidArgument
  /-- `std::stoi` read a number that is no `int`: `std::out_of_range`, never caught. -/
  | outOfRange
  /-- A `vector::operator[]` beyond the size of the vector. -/
  | indexOutOfBounds
  /-- A loop that was not finished within its allotted number of iterations. -/
  | diverged
deriving DecidableEq

/-- Edge of the model, `std::pair<int, int>`. -/
abbrev Edge := Int × Int

/-- The two globals `model_vertices` and `model_edges`. -/
structure Globals where
  model_vertices : List (Point3D ℚ)
  model_edges : List Edge
deriving DecidableEq

/-- Smallest value of `int`. -/
def INT_MIN : Int := -2147483648

/-- Largest value of `int`. -/
def INT_MAX : Int := 2147483647

/-- Result of an `int` operation: the exact value reduced modulo `2^32` into the
range of `int`.  Signed overflow, which C++ leaves undefined, is taken as the
wrap-around of two's complement arithmetic. -/
def wrapInt (v : Int) : Int :=
  (v + 2147483648) % 4294967296 - 2147483648

/-- Conversion `static_cast<int>(size_t)`. -/
def castInt (n : Nat) : Int := wrapInt (n : Int)

/-- The constant `cube_vertices`. -/
def cube_vertices : List (Point3D ℚ) :=
  [⟨-1, -1, -1⟩, ⟨1, -1, -1⟩, ⟨1, 1, -1⟩, ⟨-1, 1, -1⟩,
   ⟨-1, -1, 1⟩, ⟨1, -1, 1⟩, ⟨1, 1, 1⟩, ⟨-1, 1, 1⟩]

/-- The constant `cube_edges`. -/
def cube_edges : List Edge :=
  [(0, 1), (1, 2), (2, 3), (3, 0),
   (4, 5), (5, 6), (6, 7), (7, 4),
   (0, 4), (1, 5), (2, 6), (3, 7)]

/-! ## Reading text: `std::getline`, `operator>>` and `std::stoi` -/

/-- Whitespace of the "C" locale, skipped by `operator>>`. -/
def isspace (c : Char) : Bool :=
  c = ' ' || c = '\t' || c = '\n' || c = Char.ofNat 11 || c = Char.ofNat 12 || c = '\r'

/-- The successive results of `std::getline(file, line)` on the content of a file. -/
def getlines : List Char → List (List Char)
  | [] => []
  | c :: cs =>
    if c = '\n' then [] :: getlines cs
    else
      match getlines cs with
      | [] => [[c]]
      | l :: ls => (c :: l) :: ls

/-- The successive results of `iss >> word` on a line: its maximal runs of
non-whitespace characters. -/
def tokens : List Char → List (List Char)
  | [] => []
  | c :: cs =>
    if isspace c then tokens cs
    else
      match cs with
      | [] => [[c]]
      | d :: _ =>
        if isspace d then [c] :: tokens cs
        else
          match tokens cs with
          | [] => [[c]]
          | t :: ts => (c :: t) :: ts

/-- Decimal value of a run of digits, most significant first. -/
def digitsValue (ds : List Char) : Nat :=
  ds.foldl (fun acc d => 10 * acc + (d.toNat - 48)) 0

/-- The end of `std::stoi`: the number read is returned when it is an `int`. -/
def intResult (v : Int) : Except Fault Int :=
  if INT_MIN ≤ v ∧ v ≤ INT_MAX then .ok v else .error .outOfRange

/-- Function `std::stoi(s)` (base 10): leading whitespace, an optional sign, then
the longest run of digits; what follows the digits is ignored. -/
def stoi (s : List Char) : Except Fault Int :=
  let body := s.dropWhile isspace
  let signed : Bool × List Char :=
    match body with
    | '-' :: r => (true, r)
    | '+' :: r => (false, r)
    | r => (false, r)
  let ds := signed.2.takeWhile Char.isDigit
  if ds.isEmpty then .error .invalidArgument
  else
    intResult (if signed.1 then -(digitsValue ds : Int) else (digitsValue ds : Int))

/-! ## `loadObj` -/

/-- One turn of the loop `while (iss >> vertexData)` of an `f` or `l` line: the
vertex index stored for the token `vertexData` when `n` vertices have been read. -/
def storedIndex (n : Nat) (vertexData : List Char) : Except Fault Int := do
  let k ← stoi (vertexData.takeWhile (fun c => c != '/'))
  let vertexIndex := wrapInt (k - 1)
  if vertexIndex ≥ 0 then
    pure vertexIndex
  else
    pure (wrapInt (wrapInt (castInt n + vertexIndex) + 1))

/-- The whole loop `while (iss >> vertexData)`: the indices of a line, in order. -/
def readIndices (n : Nat) : List (List Char) → Except Fault (List Int)
  | [] => pure []
  | vertexData :: rest => do
    let index ← storedIndex n vertexData
    let indices ← readIndices n rest
    pure (index :: indices)

/-- Value of the `size_t` expression `line_vertices.size() - 1`: the unsigned
subtraction wraps around to `2^64 - 1` when the vector is empty. -/
def lineBound (size : Nat) : Nat :=
  if size = 0 then 18446744073709551615 else size - 1

/-- The loop `for (size_t i = 0; i < line_vertices.size() - 1; i++)` from counter
`i` on, given `fuel` iterations: each turn reads `line_vertices[i]` and
`line_vertices[i + 1]` and appends the pair to the edges. -/
def lineLoop (line_vertices : List Int) : Nat → Nat → List Edge → Except Fault (List Edge)
  | 0, _, _ => .error .diverged
  | fuel + 1, i, edges =>
    if i < lineBound line_vertices.length then
      match line_vertices.get? i, line_vertices.get? (i + 1) with
      | some a, some b => lineLoop line_vertices fuel (i + 1) (edges ++ [(a, b)])
      | _, _ => .error .indexOutOfBounds
    else .ok edges

/-- State of the parsing loop of `loadObj`: the two globals and the local `faces`. -/
structure LoadState where
  model_vertices : List (Point3D ℚ)
  model_edges : List Edge
  faces : List (List Int)

/-- Body of the loop `while (std::getline(file, line))`.  The extraction
`iss >> x >> y >> z` of three `float`s is the parameter `readVertex`, applied to
the words that follow the tag. -/
def processLine (readVertex : List (List Char) → Point3D ℚ) (st : LoadState)
    (line : List Char) : Except Fault LoadState :=
  if line.isEmpty || line.head? == some '#' then pure st
  else
    match tokens line with
    | [] => pure st
    | type :: rest =>
      if type = ['v'] then
        pure { st with model_vertices := st.model_vertices ++ [readVertex rest] }
      else if type = ['f'] then do
        let faceIndices ← readIndices st.model_vertices.length rest
        if faceIndices.length ≥ 3 then
          pure { st with faces := st.faces ++ [faceIndices] }
        else pure st
      else if type = ['l'] then do
        let line_vertices ← readIndices st.model_vertices.length rest
        let edges ← lineLoop line_vertices (line_vertices.length + 1) 0 st.model_edges
        pure { st with model_edges := edges }
      else pure st

/-- The parsing loop over all the lines of the file. -/
def parseLines (readVertex : List (List Char) → Point3D ℚ) (st : LoadState) :
    List (List Char) → Except Fault LoadState
  | [] => pure st
  | line :: rest => do
    let st1 ← processLine readVertex st line
    parseLines readVertex st1 rest

/-- Order of `std::pair<int, int>`, the order of `std::set<std::pair<int, int>>`. -/
def pairLt (a b : Edge) : Bool :=
  decide (a.1 < b.1) || (decide (a.1 = b.1) && decide (a.2 < b.2))

/-- Insertion `edgeSet.insert(e)` into a `std::set`, kept as its ascending list. -/
def setInsert (e : Edge) : List Edge → List Edge
  | [] => [e]
  | h :: t =>
    if pairLt e h then e :: h :: t
    else if pairLt h e then h :: setInsert e t
    else h :: t

/-- The loop `for (size_t i = 0; i < face.size(); i++)` over one face. -/
def faceLoop (face : List Int) (edgeSet : List Edge) : Except Fault (List Edge) :=
  (List.range face.length).foldlM
    (fun set i =>
      match face.get? i, face.get? ((i + 1) % face.length) with
      | some v1, some v2 =>
        if v1 > v2 then pure (setInsert (v2, v1) set) else pure (setInsert (v1, v2) set)
      | _, _ => .error .indexOutOfBounds)
    edgeSet

/-- The loop `for (const auto& face : faces)`: the final `edgeSet`, in the order of
iteration from `begin()` to `end()`. -/
def edgesFromFaces (faces : List (List Int)) : Except Fault (List Edge) :=
  faces.foldlM (fun set face => faceLoop face set) []

/-! ### Bounding-box normalisation -/

/-- Running minimum `min = std::min(min, v)` over the coordinates `cs`. -/
def foldMin (init : ℚ) (cs : List ℚ) : ℚ := cs.foldl min init

/-- Running maximum `max = std::max(max, v)` over the coordinates `cs`. -/
def foldMax (init : ℚ) (cs : List ℚ) : ℚ := cs.foldl max init

/-- Bounding box of an axis: `(min, max)`, both started at the first coordinate. -/
def axisBounds (cs : List ℚ) : ℚ × ℚ :=
  (foldMin (cs.headD 0) cs, foldMax (cs.headD 0) cs)

/-- The value `max_size`: the largest axis extent. -/
def maxSize (vs : List (Point3D ℚ)) : ℚ :=
  let bx := axisBounds (vs.map Point3D.x)
  let bY := axisBounds (vs.map Point3D.y)
  let bz := axisBounds (vs.map Point3D.z)
  max (max (bx.2 - bx.1) (bY.2 - bY.1)) (bz.2 - bz.1)

/-- The value `scale` after `scale *= 2`. -/
def normScale (vs : List (Point3D ℚ)) : ℚ :=
  (if maxSize vs > 0 then 2 / maxSize vs else 1) * 2

/-- The value `center`: the centre of the bounding box. -/
def center (vs : List (Point3D ℚ)) : Point3D ℚ :=
  let bx := axisBounds (vs.map Point3D.x)
  let bY := axisBounds (vs.map Point3D.y)
  let bz := axisBounds (vs.map Point3D.z)
  ⟨(bx.1 + bx.2) / 2, (bY.1 + bY.2) / 2, (bz.1 + bz.2) / 2⟩

/-- The block `if (!model_vertices.empty()) { ... }`: recentre and rescale. -/
def normalize (vs : List (Point3D ℚ)) : List (Point3D ℚ) :=
  if vs.isEmpty then vs
  else
    vs.map (fun v =>
      ⟨(v.x - (center vs).x) * normScale vs,
       (v.y - (center vs).y) * normScale vs,
       (v.z - (center vs).z) * normScale vs⟩)

/-- Function `loadObj`.  The file is `none` when it cannot be opened and its
content otherwise; the result is the returned `bool` and the globals. -/
def loadObj (readVertex : List (List Char) → Point3D ℚ) (file : Option (List Char))
    (g : Globals) : Except Fault (Bool × Globals) :=
  match file with
  | none => pure (false, g)
  | some content => do
    let st ← parseLines readVertex ⟨[], [], []⟩ (getlines content)
    if st.model_vertices.isEmpty then
      pure (false, ⟨st.model_vertices, st.model_edges⟩)
    else do
      let edges ←
        if st.model_edges.isEmpty then edgesFromFaces st.faces
        else pure st.model_edges
      pure (true, ⟨normalize st.model_vertices, edges⟩)

/-- The start of `main` up to the render loop: the globals are set to the cube and
`loadObj` runs when a file name was given (`arg` is `none` when `argc <= 1`). -/
def mainSetup (readVertex : List (List Char) → Point3D ℚ) (arg : Option (Option (List Char))) :
    Except Fault Globals :=
  match arg with
  | none => pure ⟨cube_vertices, cube_edges⟩
  | some file => do
    let r ← loadObj readVertex file ⟨cube_vertices, cube_edges⟩
    pure r.2

/-! ## The rasteriser: `drawLine` -/

/-- Screen point, `struct Point2d`, with an exact depth. -/
structure Point2d where
  x : Int
  y : Int
  depth : ℚ
deriving DecidableEq

/-- The constant `WIDTH`. -/
def WIDTH : Int := 80

/-- The constant `HEIGHT`. -/
def HEIGHT : Int := 40

/-- The constant `CAM_DIST`. -/
def CAM_DIST : ℚ := 3

/-- The array `SHADES`, a string literal: nine shade characters and the final NUL. -/
def SHADES : List Char :=
  ['.', ':', '-', '=', '+', '*', '#', '%', '@', Char.ofNat 0]

/-- The frame buffer `std::vector<std::vector<char>>`: rows of characters.  A
`char` is taken with its character code, which is its value for ASCII. -/
abbrev Screen := List (List Char)

/-- Conversion `static_cast<int>` of a number: rounding towards zero.  For a
value beyond the range of `int` the language defines no result; the conversion
instruction of x86-64 then yields `INT_MIN`, which is the value taken here. -/
def truncToInt (q : ℚ) : Int :=
  let t := Int.tdiv q.num q.den
  if INT_MIN ≤ t ∧ t ≤ INT_MAX then t else INT_MIN

/-- The integer part of a number, rounded towards zero, without a range. -/
def roundToZero (q : ℚ) : Int := Int.tdiv q.num q.den

/-- Function `std::clamp(v, lo, hi)`. -/
def clamp (v lo hi : Int) : Int :=
  if v < lo then lo else if hi < v then hi else v

/-- The value `shadeIdx` of `drawLine` in `model_loader.cpp`. -/
def shadeIdx (p1 p2 : Point2d) : Int :=
  let avgDepth := (p1.depth + p2.depth) / 2
  clamp (truncToInt ((avgDepth - CAM_DIST) * 2)) 0 ((SHADES.length : Int) - 2)

/-- The character `c = SHADES[shadeIdx]`. -/
def shadeChar (p1 p2 : Point2d) : Char :=
  SHADES.getD (shadeIdx p1 p2).toNat (Char.ofNat 0)

/-- The read `screen[y][x]`. -/
def cellAt (screen : Screen) (x y : Nat) : Option Char :=
  (screen.get? y).bind (fun row => row.get? x)

/-- The write `screen[y][x] = c`. -/
def setCell (screen : Screen) (x y : Nat) (c : Char) : Screen :=
  screen.set y ((screen.getD y []).set x c)

/-- The test `x >= 0 && x < WIDTH && y >= 0 && y < HEIGHT` of `model_loader.cpp`. -/
def inViewport (x y : Int) : Bool :=
  decide (x ≥ 0) && decide (x < WIDTH) && decide (y ≥ 0) && decide (y < HEIGHT)

/-- The first statement of the loop body of `drawLine`: the point `(x, y)` is
composited into the buffer when `view x y` holds. -/
def plot (view : Int → Int → Bool) (c : Char) (screen : Screen) (x y : Int) :
    Except Fault Screen :=
  if view x y then
    match cellAt screen x.toNat y.toNat with
    | none => .error .indexOutOfBounds
    | some cur =>
      if cur = ' ' ∨ c > cur then .ok (setCell screen x.toNat y.toNat c)
      else .ok screen
  else .ok screen

/-- The loop `while (true)` of `drawLine`, given `fuel` iterations, from the
current `x`, `y` and `err`.  The variables are `int`s: every sum and product is
taken in 32 bits, with two's-complement wrap-around. -/
def drawLoop (view : Int → Int → Bool) (c : Char) (p2 : Point2d) (dx dy sx sy : Int) :
    Nat → Screen → Int → Int → Int → Except Fault Screen
  | 0, _, _, _, _ => .error .diverged
  | fuel + 1, screen, x, y, err =>
    match plot view c screen x y with
    | .error e => .error e
    | .ok screen1 =>
      if x = p2.x ∧ y = p2.y then .ok screen1
      else
        let e2 := wrapInt (err * 2)
        let err1 := if e2 ≥ dy then wrapInt (err + dy) else err
        let x1 := if e2 ≥ dy then wrapInt (x + sx) else x
        let err2 := if e2 ≤ dx then wrapInt (err1 + dx) else err1
        let y1 := if e2 ≤ dx then wrapInt (y + sy) else y
        drawLoop view c p2 dx dy sx sy fuel screen1 x1 y1 err2

/-- The points at which the loop `while (true)` of `drawLine` runs its body, in
order: the same control as `drawLoop`, in the same 32-bit arithmetic, without
the buffer; `none` when the end point is not reached within `fuel` iterations. -/
def loopPoints (p2 : Point2d) (dx dy sx sy : Int) :
    Nat → Int → Int → Int → Option (List (Int × Int))
  | 0, _, _, _ => none
  | fuel + 1, x, y, err =>
    if x = p2.x ∧ y = p2.y then some [(x, y)]
    else
      let e2 := wrapInt (err * 2)
      let err1 := if e2 ≥ dy then wrapInt (err + dy) else err
      let x1 := if e2 ≥ dy then wrapInt (x + sx) else x
      let err2 := if e2 ≤ dx then wrapInt (err1 + dx) else err1
      let y1 := if e2 ≤ dx then wrapInt (y + sy) else y
      (loopPoints p2 dx dy sx sy fuel x1 y1 err2).map (fun ps => (x, y) :: ps)

/-- The control of the loop `while (true)` of `drawLine` over unbounded integers:
the points visited, in order, when no sum or product is cut to 32 bits. -/
def linePoints (p2 : Point2d) (dx dy sx sy : Int) :
    Nat → Int → Int → Int → Option (List (Int × Int))
  | 0, _, _, _ => none
  | fuel + 1, x, y, err =>
    if x = p2.x ∧ y = p2.y then some [(x, y)]
    else
      let e2 := err * 2
      let err1 := if e2 ≥ dy then err + dy else err
      let x1 := if e2 ≥ dy then x + sx else x
      let err2 := if e2 ≤ dx then err1 + dx else err1
      let y1 := if e2 ≤ dx then y + sy else y
      (linePoints p2 dx dy sx sy fuel x1 y1 err2).map (fun ps => (x, y) :: ps)

/-- Number of iterations allotted to the loop over unbounded integers. -/
def lineFuel (p1 p2 : Point2d) : Nat :=
  (p2.x - p1.x).natAbs + (p2.y - p1.y).natAbs + 1

/-- Number of iterations allotted to the loop of `drawLine`: `2^96`, the number
of states `(x, y, err)` of three `int`s.  The next state depends on the state
only, so a run that has not reached the end point within so many iterations has
passed twice through one state and never reaches it (`loopFuel_enough`). -/
def loopFuel : Nat := 79228162514264337593543950336

/-- Function `drawLine` with the viewport test `view` and the shade character
`c`; `dx`, `dy` and `err` are `int`s as well.  The result `Fault.diverged`
stands for a loop that does not end. -/
def drawLineWith (view : Int → Int → Bool) (c : Char) (screen : Screen)
    (p1 p2 : Point2d) : Except Fault Screen :=
  let dx : Int := wrapInt |wrapInt (p2.x - p1.x)|
  let dy : Int := wrapInt (-wrapInt |wrapInt (p2.y - p1.y)|)
  let sx : Int := if p1.x < p2.x then 1 else -1
  let sy : Int := if p1.y < p2.y then 1 else -1
  let err := wrapInt (dx + dy)
  drawLoop view c p2 dx dy sx sy loopFuel screen p1.x p1.y err

/-- Function `drawLine` of `model_loader.cpp`. -/
def drawLine (screen : Screen) (p1 p2 : Point2d) : Except Fault Screen :=
  drawLineWith inViewport (shadeChar p1 p2) screen p1 p2

/-- The points visited between two screen points by the loop of `drawLine` over
unbounded integers. -/
def visited (p1 p2 : Point2d) : Option (List (Int × Int)) :=
  linePoints p2 |p2.x - p1.x| (-|p2.y - p1.y|)
    (if p1.x < p2.x then 1 else -1) (if p1.y < p2.y then 1 else -1)
    (lineFuel p1 p2) p1.x p1.y (|p2.x - p1.x| + -|p2.y - p1.y|)

/-- The points at which `drawLine` runs the body of its loop, in order, in the
`int` arithmetic of the source; `none` when the loop does not end. -/
def traced (p1 p2 : Point2d) : Option (List (Int × Int)) :=
  loopPoints p2 (wrapInt |wrapInt (p2.x - p1.x)|) (wrapInt (-wrapInt |wrapInt (p2.y - p1.y)|))
    (if p1.x < p2.x then 1 else -1) (if p1.y < p2.y then 1 else -1)
    loopFuel p1.x p1.y
    (wrapInt (wrapInt |wrapInt (p2.x - p1.x)| + wrapInt (-wrapInt |wrapInt (p2.y - p1.y)|)))

/-- Two `int` screen points whose extents along x and along y are at most
`715827882`, a third of `INT_MAX`: between them no sum or product of `drawLine`
leaves the range of `int`. -/
def SmallExtent (p1 p2 : Point2d) : Prop :=
  (INT_MIN ≤ p1.x ∧ p1.x ≤ INT_MAX) ∧ (INT_MIN ≤ p1.y ∧ p1.y ≤ INT_MAX) ∧
  (INT_MIN ≤ p2.x ∧ p2.x ≤ INT_MAX) ∧ (INT_MIN ≤ p2.y ∧ p2.y ≤ INT_MAX) ∧
  |p2.x - p1.x| ≤ 715827882 ∧ |p2.y - p1.y| ≤ 715827882

/-- The buffer `screen(HEIGHT, std::vector<char>(WIDTH, ' '))` of `main`. -/
def blankScreen : Screen :=
  List.replicate HEIGHT.toNat (List.replicate WIDTH.toNat ' ')

/-- A buffer has the dimensions of the viewport. -/
def WellSized (screen : Screen) : Prop :=
  screen.length = HEIGHT.toNat ∧ ∀ row ∈ screen, row.length = WIDTH.toNat

/-! ## Notions used to state the properties of `loadObj` -/

/-- The tag of a line and the words after it; `none` for a line that the loop
skips (empty, a `#` comment) or that has no word. -/
def lineWords (line : List Char) : Option (List Char × List (List Char)) :=
  if line.isEmpty || line.head? == some '#' then none
  else
    match tokens line with
    | [] => none
    | type :: rest => some (type, rest)

/-- A line with tag `v`. -/
def isVertexLine (line : List Char) : Bool :=
  match lineWords line with
  | some (type, _) => decide (type = ['v'])
  | none => false

/-- A line with tag `l`. -/
def isLineDirective (line : List Char) : Bool :=
  match lineWords line with
  | some (type, _) => decide (type = ['l'])
  | none => false

/-- The index tokens of a line: the words after the tag of an `f` or `l` line. -/
def indexTokens (line : List Char) : List (List Char) :=
  match lineWords line with
  | some (type, rest) => if type = ['f'] ∨ type = ['l'] then rest else []
  | none => []

/-- Number of `v` lines. -/
def vertexLines (lines : List (List Char)) : Nat :=
  (lines.filter isVertexLine).length

/-- The integer that an index token denotes: its part before any `/`. -/
def tokenValue (tok : List Char) : Except Fault Int :=
  stoi (tok.takeWhile (fun c => c != '/'))

/-- Every index token of every `f` and `l` line is read by `std::stoi` without an
exception. -/
def IndexTokensNumeric (lines : List (List Char)) : Prop :=
  ∀ line ∈ lines, ∀ tok ∈ indexTokens line, ∃ k, tokenValue tok = .ok k

/-- A line with tag `f`. -/
def isFaceLine (line : List Char) : Bool :=
  match lineWords line with
  | some (type, _) => decide (type = ['f'])
  | none => false

/-- Some `l` line carries two or more indices, so that the `l` lines state an
edge. -/
def directivesGiveEdges (lines : List (List Char)) : Bool :=
  lines.any (fun line => isLineDirective line && decide (2 ≤ (indexTokens line).length))

/-- The lines whose indices make the edges: the `l` lines with two or more
indices when the `l` lines state an edge (`dir`), and the `f` lines with three or
more indices otherwise. -/
def contributes (dir : Bool) (line : List Char) : Bool :=
  if dir then isLineDirective line && decide (2 ≤ (indexTokens line).length)
  else isFaceLine line && decide (3 ≤ (indexTokens line).length)

/-- An index token of value `k`, on a line that is parsed when `n` vertices have
been read, in a file of `total` vertices, refers to a vertex of the file:
`1 <= k <= total` (the vertex `k`, counted from 1), or `-n <= k <= -1` (the vertex
`n + k` of those read so far, counted from 0), or `k = 0` and `n < total` (the
vertex that will be read next). -/
def RefersToVertex (total n : Nat) (k : Int) : Prop :=
  (1 ≤ k ∧ k ≤ (total : Int)) ∨ (-(n : Int) ≤ k ∧ k ≤ -1) ∨ (k = 0 ∧ n < total)

/-- Every index token of every line that contributes edges refers to a vertex of
the file; `n` is the number of vertices read before the first line. -/
def IndicesExist (total : Nat) (dir : Bool) : Nat → List (List Char) → Prop
  | _, [] => True
  | n, line :: rest =>
    (contributes dir line = true →
        ∀ tok ∈ indexTokens line, ∃ k, tokenValue tok = .ok k ∧ RefersToVertex total n k) ∧
      IndicesExist total dir (if isVertexLine line then n + 1 else n) rest

/-- An index is the index of a vertex of a model with `total` vertices. -/
def InRange (total : Nat) (i : Int) : Prop := 0 ≤ i ∧ i < (total : Int)

/-- The consecutive pairs of a list of indices. -/
def pairsOf (lv : List Int) : List Edge := lv.zip lv.tail

/-- The edges that the `l` directives state, following the words of the
specification: each consecutive pair of indices of each `l` line, in the order of
the file, `n` being the number of vertices read before the first line. -/
def directiveEdges : Nat → List (List Char) → List Edge
  | _, [] => []
  | n, line :: rest =>
    (if isLineDirective line then
        match readIndices n (indexTokens line) with
        | .ok lv => pairsOf lv
        | .error _ => []
      else []) ++
      directiveEdges (if isVertexLine line then n + 1 else n) rest

/-- Two indices sit at cyclically adjacent positions of a face, in either order. -/
def AdjacentIn (face : List Int) (a b : Int) : Prop :=
  ∃ i, i < face.length ∧
    ((face.get? i = some a ∧ face.get? ((i + 1) % face.length) = some b) ∨
     (face.get? i = some b ∧ face.get? ((i + 1) % face.length) = some a))

/-- A reader of `v` lines that yields the origin, for closed examples. -/
def originReader : List (List Char) → Point3D ℚ := fun _ => ⟨0, 0, 0⟩

/-- The globals as `main` sets them before it calls `loadObj`. -/
def cubeGlobals : Globals := ⟨cube_vertices, cube_edges⟩


/-- What the body of the parsing loop does to the state, by the tag of the line:
the closed form of `processLine`. -/
def lineEffect (readVertex : List (List Char) → Point3D ℚ) (st : LoadState)
    (line : List Char) : Except Fault LoadState :=
  match lineWords line with
  | none => .ok st
  | some (type, rest) =>
    if type = ['v'] then
      .ok { st with model_vertices := st.model_vertices ++ [readVertex rest] }
    else if type = ['f'] then
      match readIndices st.model_vertices.length rest with
      | .error e => .error e
      | .ok fi => .ok (if 3 ≤ fi.length then { st with faces := st.faces ++ [fi] } else st)
    else if type = ['l'] then
      match readIndices st.model_vertices.length rest with
      | .error e => .error e
      | .ok lv =>
        if lv = [] then .error .indexOutOfBounds
        else .ok { st with model_edges := st.model_edges ++ pairsOf lv }
    else .ok st

/-- The pair that the loop over a face inserts for the entries `v1` and `v2`: the
smaller index first. -/
def normEdge (v1 v2 : Int) : Edge := if v1 > v2 then (v2, v1) else (v1, v2)

/-- Every edge of the globals refers to vertices of the globals. -/
def EdgesInRange (g : Globals) : Prop :=
  ∀ e ∈ g.model_edges,
    (0 ≤ e.1 ∧ e.1 < (g.model_vertices.length : Int)) ∧
      (0 ≤ e.2 ∧ e.2 < (g.model_vertices.length : Int))

/-- The state of the parsing loop when `loadObj` has cleared the globals. -/
def initialState : LoadState := ⟨[], [], []⟩

/-- The content of a cell after a point of shade `c` is composited onto the
content `cur`: the `if` of the loop body of `drawLine`, with the comparison of
`char` values that the source makes. -/
def composite (c cur : Char) : Char :=
  if cur = ' ' ∨ c > cur then c else cur

/-- The blank buffer with the faintest shade `.` in the cell of column 0, row 0. -/
def dotScreen : Screen := setCell blankScreen 0 0 '.'

/-- The blank buffer with `.` in the cell of column 0 and `#` in the cell of
column 1 of row 0. -/
def rampScreen : Screen := setCell (setCell blankScreen 0 0 '.') 1 0 '#'

/-! ## Rotation, projection and one frame -/

/-- Function `rotateX(p, a)`, given the values `cosA = cos(a)` and `sinA = sin(a)`. -/
def rotateX {R : Type} [Ring R] (p : Point3D R) (cosA sinA : R) : Point3D R :=
  ⟨p.x, p.y * cosA - p.z * sinA, p.y * sinA + p.z * cosA⟩

/-- Function `rotateY(p, a)`, given the values `cosA = cos(a)` and `sinA = sin(a)`. -/
def rotateY {R : Type} [Ring R] (p : Point3D R) (cosA sinA : R) : Point3D R :=
  ⟨p.x * cosA + p.z * sinA, p.y, -p.x * sinA + p.z * cosA⟩

/-- The constant `CUBE_SIZE`. -/
def CUBE_SIZE : ℚ := 20

/-- Function `project`.  The value of `fovScale`, for which the source has
`1.0f / tan(0.5f * FOV * 3.14159f / 180.0f)` (`cube.cpp` has `3.14128` in the
place of `3.14159f`), is a parameter, the tangent being no rational function;
both expressions have a value strictly between 1 and 21/20.  The source does not
guard the division by `z`: at `z = 0` the quotient is infinite or no number, and
the conversion of such a value to `int` yields `INT_MIN`, as for every value
beyond the range of `int`. -/
def project (fovScale : ℚ) (p : Point3D ℚ) : Point2d :=
  let aspect : ℚ := (WIDTH : ℚ) / (HEIGHT : ℚ)
  let z := p.z + CAM_DIST
  let scale := fovScale / z * CUBE_SIZE
  if z = 0 then ⟨INT_MIN, INT_MIN, z⟩
  else
    ⟨truncToInt (((WIDTH / 2 : Int) : ℚ) + p.x * scale * aspect),
     truncToInt (((HEIGHT / 2 : Int) : ℚ) - p.y * scale),
     z⟩

/-- The read `projected[i]` for an `int` index `i`. -/
def pointAt (projected : List Point2d) (i : Int) : Option Point2d :=
  if i < 0 then none else projected.get? i.toNat

/-- The loop `for (const auto& e : edges) drawLine(screen, projected[e.first],
projected[e.second])` of `main`, for the function `draw` in the place of `drawLine`. -/
def drawEdges (draw : Screen → Point2d → Point2d → Except Fault Screen)
    (projected : List Point2d) (edges : List Edge) (screen : Screen) : Except Fault Screen :=
  edges.foldlM
    (fun s e =>
      match pointAt projected e.1, pointAt projected e.2 with
      | some a, some b => draw s a b
      | _, _ => .error .indexOutOfBounds)
    screen

/-- The body of the render loop of `main` up to the drawing of the edges: the
vertices are rotated about X and then about Y, projected, and the edges are drawn
into a blank buffer.  The cosines and sines of the two angles are parameters. -/
def renderFrame (draw : Screen → Point2d → Point2d → Except Fault Screen)
    (fovScale cosX sinX cosY sinY : ℚ) (vertices : List (Point3D ℚ)) (edges : List Edge) :
    Except Fault Screen :=
  let rotated := vertices.map (fun v => rotateY (rotateX v cosX sinX) cosY sinY)
  let projected := rotated.map (project fovScale)
  drawEdges draw projected edges blankScreen

/-! ## The parts of `cube.cpp` that differ from `model_loader.cpp` -/

namespace Cube

/-- The constant `cube_vertices` of `cube.cpp`. -/
def cube_vertices : List (Point3D ℚ) :=
  [⟨-1, -1, -1⟩, ⟨1, -1, -1⟩, ⟨1, 1, -1⟩, ⟨-1, 1, -1⟩,
   ⟨-1, -1, 1⟩, ⟨1, -1, 1⟩, ⟨1, 1, 1⟩, ⟨-1, 1, 1⟩]

/-- The constant `cube_edges` of `cube.cpp`. -/
def cube_edges : List Edge :=
  [(0, 1), (1, 2), (2, 3), (3, 0),
   (4, 5), (5, 6), (6, 7), (7, 4),
   (0, 4), (1, 5), (2, 6), (3, 7)]

/-- The value `shadeIdx` of `drawLine` in `cube.cpp`:
`static_cast<int>(avgDepth - CAM_DIST*2) % sizeof(SHADES)`, where the `int` is
converted to `size_t` (modulo `2^64`) for the remainder, then clamped. -/
def shadeIdx (p1 p2 : Point2d) : Int :=
  let avgDepth := (p1.depth + p2.depth) / 2
  let asSize : Int := truncToInt (avgDepth - CAM_DIST * 2) % 18446744073709551616
  clamp (asSize % (SHADES.length : Int)) 0 ((SHADES.length : Int) - 2)

/-- The character `c = SHADES[shadeIdx]` of `cube.cpp`. -/
def shadeChar (p1 p2 : Point2d) : Char :=
  SHADES.getD (shadeIdx p1 p2).toNat (Char.ofNat 0)

/-- The test `x > 0 && x < WIDTH && y > 0 && y < HEIGHT` of `cube.cpp`. -/
def inViewport (x y : Int) : Bool :=
  decide (x > 0) && decide (x < WIDTH) && decide (y > 0) && decide (y < HEIGHT)

/-- Function `drawLine` of `cube.cpp`. -/
def drawLine (screen : Screen) (p1 p2 : Point2d) : Except Fault Screen :=
  drawLineWith inViewport (shadeChar p1 p2) screen p1 p2

end Cube

/-- The test `x >= 0 && x < WIDTH && y >= 0 && y < HEIGHT` on a visited point. -/
def inViewportPt (p : Int × Int) : Bool := inViewport p.1 p.2

/-- Number of coordinates in which two vertices differ. -/
def coordsDiffering (p q : Point3D ℚ) : Nat :=
  (if p.x = q.x then 0 else 1) + (if p.y = q.y then 0 else 1) + (if p.z = q.z then 0 else 1)

/-- The vertex `cube_vertices[i]`, the origin when there is none. -/
def cubeVertex (i : Nat) : Point3D ℚ := cube_vertices.getD i ⟨0, 0, 0⟩

/-- The unordered pair `{i, j}` of vertex indices is an edge of `cube_edges`. -/
def isCubeEdge (i j : Nat) : Bool :=
  cube_edges.contains ((i : Int), (j : Int)) || cube_edges.contains ((j : Int), (i : Int))

/-- Two points of the grid are the same or neighbours: their coordinates differ by
at most 1 in x and at most 1 in y. -/
def Adjacent (a b : Int × Int) : Prop :=
  |b.1 - a.1| ≤ 1 ∧ |b.2 - a.2| ≤ 1

/-- The eight screen points that the cube would have at the angles 0 with the
field-of-view scale 1: the face at depth 2 at x in {20, 60}, y in {10, 30}, the
face at depth 4 at x in {30, 50}, y in {15, 25}, in the order of `cube_vertices`. -/
def cubeProjected : List Point2d :=
  [⟨20, 30, 2⟩, ⟨60, 30, 2⟩, ⟨60, 10, 2⟩, ⟨20, 10, 2⟩,
   ⟨30, 25, 4⟩, ⟨50, 25, 4⟩, ⟨50, 15, 4⟩, ⟨30, 15, 4⟩]

/-- The eight screen points that the cube has at the angles 0 with a
field-of-view scale between 1 and 21/20, as the sources have it: the face at
depth 2 at x in {19, 60}, y in {9, 30}, the face at depth 4 at x in {29, 50}, y in
{14, 25}, in the order of `cube_vertices`. -/
def cubeFrame : List Point2d :=
  [⟨19, 30, 2⟩, ⟨60, 30, 2⟩, ⟨60, 9, 2⟩, ⟨19, 9, 2⟩,
   ⟨29, 25, 4⟩, ⟨50, 25, 4⟩, ⟨50, 14, 4⟩, ⟨29, 14, 4⟩]

/-- An index token that starts with an integer which fits in an `int`: an
optional sign, then decimal digits, at least one and as many as the token has in
a row, whose value with the sign lies in the range of `int`; what follows the
digits, such as a `/` and further fields, is free. -/
def IntegerToken (tok : List Char) : Prop :=
  ∃ sign digits rest : List Char,
    tok = sign ++ (digits ++ rest) ∧
    (sign = [] ∨ sign = ['-'] ∨ sign = ['+']) ∧
    digits ≠ [] ∧ (∀ d ∈ digits, d.isDigit = true) ∧
    (∀ c ∈ rest.head?, c.isDigit = false) ∧
    (if sign = ['-'] then (digitsValue digits : Int) ≤ 2147483648
      else (digitsValue digits : Int) ≤ 2147483647)

/-- Every index token of every `f` and `l` line starts with an integer that fits
in an `int`. -/
def IndexTokensInteger (lines : List (List Char)) : Prop :=
  ∀ line ∈ lines, ∀ tok ∈ indexTokens line, IntegerToken tok

/-- One turn of the loop of `drawLine` on the state `(x, y, err)`: the statements
after the test of the end point. -/
def loopStep (dx dy sx sy : Int) (s : Int × Int × Int) : Int × Int × Int :=
  let e2 := wrapInt (s.2.2 * 2)
  let err1 := if e2 ≥ dy then wrapInt (s.2.2 + dy) else s.2.2
  let x1 := if e2 ≥ dy then wrapInt (s.1 + sx) else s.1
  let err2 := if e2 ≤ dx then wrapInt (err1 + dx) else err1
  let y1 := if e2 ≤ dx then wrapInt (s.2.1 + sy) else s.2.1
  (x1, y1, err2)

/-- The three variables of a state of the loop are `int`s. -/
def IntState (s : Int × Int × Int) : Prop :=
  (INT_MIN ≤ s.1 ∧ s.1 ≤ INT_MAX) ∧ (INT_MIN ≤ s.2.1 ∧ s.2.1 ≤ INT_MAX) ∧
    (INT_MIN ≤ s.2.2 ∧ s.2.2 ≤ INT_MAX)

/-- The states of the loop whose three variables are `int`s. -/
@[irreducible]
def intStates : Finset (Int × Int × Int) :=
  Finset.Icc INT_MIN INT_MAX ×ˢ (Finset.Icc INT_MIN INT_MAX ×ˢ Finset.Icc INT_MIN INT_MAX)

/-! # Properties -/

/-! ## The loop over the indices of an `l` line -/

theorem lineLoop_from (lv : List Int) :
    ∀ (fuel i : Nat) (edges : List Edge), i < lv.length → lv.length - i ≤ fuel →
      lineLoop lv fuel i edges = .ok (edges ++ (lv.drop i).zip (lv.drop (i + 1))) := by
  intro fuel
  induction fuel with
  | zero => intro i edges hi hf; omega
  | succ fuel ih =>
    intro i edges hi hf
    have hne : lv.length ≠ 0 := by omega
    unfold lineLoop
    simp only [lineBound, hne, if_false]
    by_cases hlt : i < lv.length - 1
    · have h1 : i + 1 < lv.length := by omega
      rw [if_pos hlt]
      rw [List.get?_eq_get hi, List.get?_eq_get h1]
      simp only
      rw [ih (i + 1) _ h1 (by omega)]
      congr 1
      rw [List.append_assoc]
      congr 1
      have e1 := List.drop_eq_getElem_cons hi
      have e2 := List.drop_eq_getElem_cons h1
      rw [e1]
      conv_rhs => arg 2; rw [e2]
      rfl
    · rw [if_neg hlt]
      have h1 : lv.length ≤ i + 1 := by omega
      rw [List.drop_eq_nil_of_le h1]
      simp

theorem lineLoop_spec (lv : List Int) (edges : List Edge) :
    lineLoop lv (lv.length + 1) 0 edges =
      if lv = [] then .error .indexOutOfBounds else .ok (edges ++ pairsOf lv) := by
  cases lv with
  | nil => rfl
  | cons a t =>
    rw [lineLoop_from (a :: t) _ 0 edges (by simp) (by simp)]
    simp [pairsOf]

/-! ## One line of the file -/

theorem processLine_eq (rv : List (List Char) → Point3D ℚ) (st : LoadState) (line : List Char) :
    processLine rv st line = lineEffect rv st line := by
  unfold processLine lineEffect lineWords
  by_cases h : (line.isEmpty || line.head? == some '#') = true
  · simp [h]; rfl
  · simp only [h, if_false, Bool.false_eq_true]
    cases htk : tokens line with
    | nil => rfl
    | cons type rest =>
      simp only
      by_cases hv : type = ['v']
      · simp [hv]; rfl
      · simp only [hv, if_false]
        by_cases hf : type = ['f']
        · simp only [hf, if_true]
          cases hr : readIndices st.model_vertices.length rest with
          | error e => rfl
          | ok fi =>
            simp only [bind, Except.bind, ge_iff_le]
            by_cases h3 : 3 ≤ fi.length <;> simp [h3] <;> rfl
        · simp only [hf, if_false]
          by_cases hl : type = ['l']
          · simp only [hl, if_true]
            cases hr : readIndices st.model_vertices.length rest with
            | error e => rfl
            | ok lv =>
              simp only [bind, Except.bind, lineLoop_spec]
              by_cases hnil : lv = []
              · simp [hnil]
              · simp [hnil]
                rfl
          · simp only [hl, if_false]; rfl

/-! ## Index tokens -/

theorem ok_bind {α β : Type} (a : α) (f : α → Except Fault β) :
    ((Except.ok a : Except Fault α) >>= f) = f a := rfl

theorem error_bind {α β : Type} (e : Fault) (f : α → Except Fault β) :
    ((Except.error e : Except Fault α) >>= f) = .error e := rfl

theorem INT_MIN_eq : INT_MIN = -2147483648 := rfl

theorem INT_MAX_eq : INT_MAX = 2147483647 := rfl

theorem intResult_range {v k : Int} (h : intResult v = .ok k) :
    k = v ∧ INT_MIN ≤ k ∧ k ≤ INT_MAX := by
  unfold intResult at h
  by_cases hv : INT_MIN ≤ v ∧ v ≤ INT_MAX
  · rw [if_pos hv] at h
    injection h with h
    subst h
    exact ⟨rfl, hv⟩
  · rw [if_neg hv] at h
    cases h

theorem intResult_error {v : Int} {e : Fault} (h : intResult v = .error e) :
    e = .outOfRange := by
  unfold intResult at h
  by_cases hv : INT_MIN ≤ v ∧ v ≤ INT_MAX
  · rw [if_pos hv] at h
    cases h
  · rw [if_neg hv] at h
    injection h with h
    exact h.symm

theorem stoi_range {s : List Char} {k : Int} (h : stoi s = .ok k) :
    INT_MIN ≤ k ∧ k ≤ INT_MAX := by
  unfold stoi at h
  simp only at h
  split at h
  · cases h
  · exact (intResult_range h).2

theorem stoi_error {s : List Char} {e : Fault} (h : stoi s = .error e) :
    e = .invalidArgument ∨ e = .outOfRange := by
  unfold stoi at h
  simp only at h
  split at h
  · injection h with h; exact Or.inl h.symm
  · exact Or.inr (intResult_error h)

theorem wrapInt_of_range {v : Int} (h1 : INT_MIN ≤ v) (h2 : v ≤ INT_MAX) : wrapInt v = v := by
  have hmin := INT_MIN_eq
  have hmax := INT_MAX_eq
  unfold wrapInt
  omega

theorem storedIndex_of_positive {n : Nat} {tok : List Char} {k : Int}
    (h : tokenValue tok = .ok k) (hk : 1 ≤ k) : storedIndex n tok = .ok (k - 1) := by
  have hr := stoi_range h
  have hmin := INT_MIN_eq
  have hmax := INT_MAX_eq
  unfold tokenValue at h
  unfold storedIndex
  rw [h, ok_bind, wrapInt_of_range (by omega) (by omega)]
  have h2 : k - 1 ≥ 0 := by omega
  rw [if_pos h2]
  rfl

theorem storedIndex_of_nonpositive {n : Nat} {tok : List Char} {k : Int}
    (h : tokenValue tok = .ok k) (hk : k ≤ 0) (hlow : INT_MIN < k) (hn : n < 2147483648) :
    storedIndex n tok = .ok ((n : Int) + k) := by
  have hr := stoi_range h
  have hmin := INT_MIN_eq
  have hmax := INT_MAX_eq
  unfold tokenValue at h
  unfold storedIndex
  rw [h, ok_bind, wrapInt_of_range (by omega) (by omega)]
  have h2 : ¬ (k - 1 ≥ 0) := by omega
  rw [if_neg h2]
  have hc : castInt n = (n : Int) := by
    unfold castInt
    exact wrapInt_of_range (by omega) (by omega)
  rw [hc, @wrapInt_of_range ((n : Int) + (k - 1)) (by omega) (by omega),
    @wrapInt_of_range ((n : Int) + (k - 1) + 1) (by omega) (by omega)]
  have e : (n : Int) + (k - 1) + 1 = (n : Int) + k := by omega
  rw [e]
  rfl

theorem tokenValue_suffix (s suffix : List Char) (hs : '/' ∉ s) :
    tokenValue (s ++ '/' :: suffix) = tokenValue s := by
  unfold tokenValue
  congr 1
  induction s with
  | nil => simp [List.takeWhile]
  | cons c cs ih =>
    have hc : c ≠ '/' := fun hc => hs (by simp [hc])
    have hcs : '/' ∉ cs := fun hcs => hs (by simp [hcs])
    simp [List.takeWhile, hc, ih hcs]

theorem storedIndex_error {n : Nat} {tok : List Char} {e : Fault}
    (h : storedIndex n tok = .error e) :
    tokenValue tok = .error e ∧ (e = .invalidArgument ∨ e = .outOfRange) := by
  unfold storedIndex at h
  unfold tokenValue
  cases hs : stoi (List.takeWhile (fun c => c != '/') tok) with
  | error e1 =>
    rw [hs, error_bind] at h
    injection h with h
    subst h
    exact ⟨rfl, stoi_error hs⟩
  | ok k =>
    rw [hs, ok_bind] at h
    by_cases hv : wrapInt (k - 1) ≥ 0
    · rw [if_pos hv] at h
      cases h
    · rw [if_neg hv] at h
      cases h

/-! ## The indices of a line -/

theorem readIndices_ok {n : Nat} :
    ∀ {toks : List (List Char)} {is : List Int}, readIndices n toks = .ok is →
      List.Forall₂ (fun tok i => storedIndex n tok = .ok i) toks is := by
  intro toks
  induction toks with
  | nil =>
    intro is h
    have e : is = [] := by
      unfold readIndices at h
      injection h with h
      exact h.symm
    subst e
    exact List.Forall₂.nil
  | cons tok rest ih =>
    intro is h
    unfold readIndices at h
    cases h1 : storedIndex n tok with
    | error e => rw [h1, error_bind] at h; cases h
    | ok i =>
      rw [h1, ok_bind] at h
      cases h2 : readIndices n rest with
      | error e => rw [h2, error_bind] at h; cases h
      | ok js =>
        rw [h2, ok_bind] at h
        have e : is = i :: js := by
          injection h with h
          exact h.symm
        subst e
        exact List.Forall₂.cons h1 (ih h2)

theorem readIndices_error {n : Nat} {e : Fault} :
    ∀ {toks : List (List Char)}, readIndices n toks = .error e →
      ∃ tok ∈ toks, storedIndex n tok = .error e := by
  intro toks
  induction toks with
  | nil =>
    intro h
    unfold readIndices at h
    cases h
  | cons tok rest ih =>
    intro h
    unfold readIndices at h
    cases h1 : storedIndex n tok with
    | error e1 =>
      rw [h1, error_bind] at h
      have e2 : e1 = e := by injection h
      subst e2
      exact ⟨tok, List.mem_cons_self _ _, h1⟩
    | ok i =>
      rw [h1, ok_bind] at h
      cases h2 : readIndices n rest with
      | error e1 =>
        rw [h2, error_bind] at h
        have e2 : e1 = e := by injection h
        subst e2
        obtain ⟨t, ht, hs⟩ := ih h2
        exact ⟨t, List.mem_cons_of_mem _ ht, hs⟩
      | ok js => rw [h2, ok_bind] at h; cases h

theorem readIndices_length {n : Nat} {toks : List (List Char)} {is : List Int}
    (h : readIndices n toks = .ok is) : is.length = toks.length :=
  (readIndices_ok h).length_eq.symm

/-! ## The effect of one line -/

theorem lineEffect_ok {rv : List (List Char) → Point3D ℚ} {st st1 : LoadState}
    {line : List Char} (h : lineEffect rv st line = .ok st1) :
    (isVertexLine line = true ∧ isLineDirective line = false ∧ indexTokens line = [] ∧
        ∃ p, st1 = ⟨st.model_vertices ++ [p], st.model_edges, st.faces⟩) ∨
    (isVertexLine line = false ∧ isLineDirective line = false ∧ st1 = st) ∨
    (isVertexLine line = false ∧ isLineDirective line = false ∧
        ∃ fi, readIndices st.model_vertices.length (indexTokens line) = .ok fi ∧
          3 ≤ fi.length ∧ st1 = ⟨st.model_vertices, st.model_edges, st.faces ++ [fi]⟩) ∨
    (isVertexLine line = false ∧ isLineDirective line = true ∧
        ∃ lv, readIndices st.model_vertices.length (indexTokens line) = .ok lv ∧
          lv ≠ [] ∧ st1 = ⟨st.model_vertices, st.model_edges ++ pairsOf lv, st.faces⟩) := by
  unfold lineEffect at h
  unfold isVertexLine isLineDirective indexTokens
  cases hw : lineWords line with
  | none =>
    rw [hw] at h
    injection h with h
    exact Or.inr (Or.inl ⟨rfl, rfl, h.symm⟩)
  | some tr =>
    obtain ⟨type, rest⟩ := tr
    rw [hw] at h
    simp only at h ⊢
    by_cases hv : type = ['v']
    · rw [if_pos hv] at h
      injection h with h
      refine Or.inl ⟨by simp [hv], by simp [hv], by simp [hv], _, h.symm⟩
    · rw [if_neg hv] at h
      by_cases hf : type = ['f']
      · rw [if_pos hf] at h
        cases hr : readIndices st.model_vertices.length rest with
        | error e => rw [hr] at h; cases h
        | ok fi =>
          rw [hr] at h
          simp only at h
          injection h with h
          by_cases h3 : 3 ≤ fi.length
          · rw [if_pos h3] at h
            refine Or.inr (Or.inr (Or.inl ⟨by simp [hf], by simp [hf], fi, ?_, h3, h.symm⟩))
            simp [hf, hr]
          · rw [if_neg h3] at h
            exact Or.inr (Or.inl ⟨by simp [hf], by simp [hf], h.symm⟩)
      · rw [if_neg hf] at h
        by_cases hl : type = ['l']
        · rw [if_pos hl] at h
          cases hr : readIndices st.model_vertices.length rest with
          | error e => rw [hr] at h; cases h
          | ok lv =>
            rw [hr] at h
            simp only at h
            by_cases hnil : lv = []
            · rw [if_pos hnil] at h; cases h
            · rw [if_neg hnil] at h
              injection h with h
              refine Or.inr (Or.inr (Or.inr ⟨by simp [hl], by simp [hl], lv, ?_, hnil, h.symm⟩))
              simp [hl, hr]
        · rw [if_neg hl] at h
          injection h with h
          exact Or.inr (Or.inl ⟨by simp [hv], by simp [hl], h.symm⟩)

theorem lineEffect_error {rv : List (List Char) → Point3D ℚ} {st : LoadState}
    {line : List Char} {e : Fault} (h : lineEffect rv st line = .error e) :
    (∃ tok ∈ indexTokens line, storedIndex st.model_vertices.length tok = .error e) ∨
    (e = .indexOutOfBounds ∧ isLineDirective line = true ∧ indexTokens line = []) := by
  unfold lineEffect at h
  unfold isLineDirective indexTokens
  cases hw : lineWords line with
  | none => rw [hw] at h; cases h
  | some tr =>
    obtain ⟨type, rest⟩ := tr
    rw [hw] at h
    simp only at h ⊢
    by_cases hv : type = ['v']
    · rw [if_pos hv] at h; cases h
    · rw [if_neg hv] at h
      by_cases hf : type = ['f']
      · rw [if_pos hf] at h
        cases hr : readIndices st.model_vertices.length rest with
        | error e1 =>
          rw [hr] at h
          have e2 : e1 = e := by injection h
          subst e2
          left
          simpa [hf] using readIndices_error hr
        | ok fi => rw [hr] at h; cases h
      · rw [if_neg hf] at h
        by_cases hl : type = ['l']
        · rw [if_pos hl] at h
          cases hr : readIndices st.model_vertices.length rest with
          | error e1 =>
            rw [hr] at h
            have e2 : e1 = e := by injection h
            subst e2
            left
            simpa [hl] using readIndices_error hr
          | ok lv =>
            rw [hr] at h
            simp only at h
            by_cases hnil : lv = []
            · rw [if_pos hnil] at h
              have e2 : Fault.indexOutOfBounds = e := by injection h
              subst hnil
              have hlen := readIndices_length hr
              have hrest : rest = [] := List.length_eq_zero.mp (by simpa using hlen.symm)
              right
              exact ⟨e2.symm, by simp [hl], by simp [hl, hrest]⟩
            · rw [if_neg hnil] at h; cases h
        · rw [if_neg hl] at h; cases h

/-! ## The set of edges: `std::set` insertion -/

theorem pairLt_iff (a b : Edge) :
    pairLt a b = true ↔ a.1 < b.1 ∨ (a.1 = b.1 ∧ a.2 < b.2) := by
  unfold pairLt
  simp

theorem pairLt_irrefl (a : Edge) : ¬ pairLt a a = true := by
  rw [pairLt_iff]
  omega

theorem pairLt_trans {a b c : Edge} (h1 : pairLt a b = true) (h2 : pairLt b c = true) :
    pairLt a c = true := by
  rw [pairLt_iff] at *
  omega

theorem eq_of_not_pairLt {a b : Edge} (h1 : ¬ pairLt a b = true) (h2 : ¬ pairLt b a = true) :
    a = b := by
  rw [pairLt_iff] at *
  have e1 : a.1 = b.1 := by omega
  have e2 : a.2 = b.2 := by omega
  exact Prod.ext e1 e2

theorem mem_setInsert (e x : Edge) : ∀ l : List Edge, x ∈ setInsert e l ↔ x = e ∨ x ∈ l := by
  intro l
  induction l with
  | nil => simp [setInsert]
  | cons h t ih =>
    unfold setInsert
    by_cases h1 : pairLt e h = true
    · rw [if_pos h1]
      simp
    · rw [if_neg h1]
      by_cases h2 : pairLt h e = true
      · rw [if_pos h2]
        simp only [List.mem_cons, ih]
        tauto
      · rw [if_neg h2]
        have e1 : e = h := eq_of_not_pairLt h1 h2
        subst e1
        simp

theorem sorted_setInsert (e : Edge) :
    ∀ l : List Edge, l.Pairwise (fun a b => pairLt a b = true) →
      (setInsert e l).Pairwise (fun a b => pairLt a b = true) := by
  intro l
  induction l with
  | nil => intro _; simp [setInsert]
  | cons h t ih =>
    intro hs
    unfold setInsert
    rw [List.pairwise_cons] at hs
    by_cases h1 : pairLt e h = true
    · rw [if_pos h1]
      refine List.Pairwise.cons ?_ (List.Pairwise.cons hs.1 hs.2)
      intro x hx
      rcases List.mem_cons.mp hx with hx | hx
      · subst hx; exact h1
      · exact pairLt_trans h1 (hs.1 x hx)
    · rw [if_neg h1]
      by_cases h2 : pairLt h e = true
      · rw [if_pos h2]
        refine List.Pairwise.cons ?_ (ih hs.2)
        intro x hx
        rcases (mem_setInsert e x t).mp hx with hx | hx
        · subst hx; exact h2
        · exact hs.1 x hx
      · rw [if_neg h2]
        exact List.Pairwise.cons hs.1 hs.2

theorem nodup_of_sorted {l : List Edge} (h : l.Pairwise (fun a b => pairLt a b = true)) :
    l.Nodup := by
  unfold List.Nodup
  refine List.Pairwise.imp ?_ h
  intro a b hab e
  subst e
  exact pairLt_irrefl a hab

/-! ## Edges from faces -/

theorem face_next_lt (face : List Int) (i : Nat) (hi : i < face.length) :
    (i + 1) % face.length < face.length :=
  Nat.mod_lt _ (by omega)

theorem faceLoop_steps (face : List Int) :
    ∀ (l : List Nat) (set : List Edge), (∀ i ∈ l, i < face.length) →
      ∃ set1,
        l.foldlM
          (fun set i =>
            match face.get? i, face.get? ((i + 1) % face.length) with
            | some v1, some v2 =>
              if v1 > v2 then (pure (setInsert (v2, v1) set) : Except Fault (List Edge))
              else pure (setInsert (v1, v2) set)
            | _, _ => .error .indexOutOfBounds)
          set = .ok set1 ∧
        (set.Pairwise (fun a b => pairLt a b = true) →
          set1.Pairwise (fun a b => pairLt a b = true)) ∧
        ∀ x, x ∈ set1 ↔ x ∈ set ∨ ∃ i ∈ l, ∃ v1 v2, face.get? i = some v1 ∧
          face.get? ((i + 1) % face.length) = some v2 ∧ x = normEdge v1 v2 := by
  intro l
  induction l with
  | nil =>
    intro set _
    exact ⟨set, rfl, id, by simp⟩
  | cons i rest ih =>
    intro set hl
    have hi : i < face.length := hl i (List.mem_cons_self _ _)
    have hn := face_next_lt face i hi
    have g1 : face.get? i = some (face.get ⟨i, hi⟩) := List.get?_eq_get hi
    have g2 : face.get? ((i + 1) % face.length) = some (face.get ⟨_, hn⟩) :=
      List.get?_eq_get hn
    obtain ⟨set1, h1, h2, h3⟩ :=
      ih (setInsert (normEdge (face.get ⟨i, hi⟩) (face.get ⟨_, hn⟩)) set)
        (fun j hj => hl j (List.mem_cons_of_mem _ hj))
    refine ⟨set1, ?_, ?_, ?_⟩
    · rw [List.foldlM_cons, g1, g2]
      simp only
      by_cases hgt : face.get ⟨i, hi⟩ > face.get ⟨_, hn⟩
      · rw [if_pos hgt]
        simp only [normEdge, if_pos hgt] at h1
        exact h1
      · rw [if_neg hgt]
        simp only [normEdge, if_neg hgt] at h1
        exact h1
    · intro hs
      exact h2 (sorted_setInsert _ _ hs)
    · intro x
      rw [h3, mem_setInsert]
      constructor
      · rintro ((hx | hx) | ⟨j, hj, v1, v2, e1, e2, e3⟩)
        · exact Or.inr ⟨i, List.mem_cons_self _ _, _, _, g1, g2, hx⟩
        · exact Or.inl hx
        · exact Or.inr ⟨j, List.mem_cons_of_mem _ hj, v1, v2, e1, e2, e3⟩
      · rintro (hx | ⟨j, hj, v1, v2, e1, e2, e3⟩)
        · exact Or.inl (Or.inr hx)
        · rcases List.mem_cons.mp hj with hj | hj
          · subst hj
            rw [g1] at e1
            rw [g2] at e2
            injection e1 with e1
            injection e2 with e2
            subst e1 e2
            exact Or.inl (Or.inl e3)
          · exact Or.inr ⟨j, hj, v1, v2, e1, e2, e3⟩

theorem normEdge_iff (v1 v2 a b : Int) :
    (a, b) = normEdge v1 v2 ↔ a ≤ b ∧ ((v1 = a ∧ v2 = b) ∨ (v1 = b ∧ v2 = a)) := by
  unfold normEdge
  by_cases h : v1 > v2
  · rw [if_pos h]
    simp only [Prod.mk.injEq]
    omega
  · rw [if_neg h]
    simp only [Prod.mk.injEq]
    omega

theorem faceLoop_spec (face : List Int) (set : List Edge) :
    ∃ set1, faceLoop face set = .ok set1 ∧
      (set.Pairwise (fun a b => pairLt a b = true) →
        set1.Pairwise (fun a b => pairLt a b = true)) ∧
      ∀ a b, (a, b) ∈ set1 ↔ (a, b) ∈ set ∨ (a ≤ b ∧ AdjacentIn face a b) := by
  obtain ⟨set1, h1, h2, h3⟩ :=
    faceLoop_steps face (List.range face.length) set (fun i hi => List.mem_range.mp hi)
  refine ⟨set1, h1, h2, ?_⟩
  intro a b
  rw [h3]
  constructor
  · rintro (hx | ⟨i, hi, v1, v2, e1, e2, e3⟩)
    · exact Or.inl hx
    · rw [normEdge_iff] at e3
      refine Or.inr ⟨e3.1, i, List.mem_range.mp hi, ?_⟩
      rcases e3.2 with ⟨p, q⟩ | ⟨p, q⟩
      · subst p q; exact Or.inl ⟨e1, e2⟩
      · subst p q; exact Or.inr ⟨e1, e2⟩
  · rintro (hx | ⟨hab, i, hi, hadj⟩)
    · exact Or.inl hx
    · refine Or.inr ⟨i, List.mem_range.mpr hi, ?_⟩
      rcases hadj with ⟨p, q⟩ | ⟨p, q⟩
      · exact ⟨a, b, p, q, (normEdge_iff _ _ _ _).mpr ⟨hab, Or.inl ⟨rfl, rfl⟩⟩⟩
      · exact ⟨b, a, p, q, (normEdge_iff _ _ _ _).mpr ⟨hab, Or.inr ⟨rfl, rfl⟩⟩⟩

theorem facesLoop_spec :
    ∀ (faces : List (List Int)) (set : List Edge),
      ∃ set1, faces.foldlM (fun set face => faceLoop face set) set = .ok set1 ∧
        (set.Pairwise (fun a b => pairLt a b = true) →
          set1.Pairwise (fun a b => pairLt a b = true)) ∧
        ∀ a b, (a, b) ∈ set1 ↔
          (a, b) ∈ set ∨ (a ≤ b ∧ ∃ face ∈ faces, AdjacentIn face a b) := by
  intro faces
  induction faces with
  | nil =>
    intro set
    exact ⟨set, rfl, id, by simp⟩
  | cons face rest ih =>
    intro set
    obtain ⟨set1, h1, h2, h3⟩ := faceLoop_spec face set
    obtain ⟨set2, k1, k2, k3⟩ := ih set1
    refine ⟨set2, ?_, fun hs => k2 (h2 hs), ?_⟩
    · rw [List.foldlM_cons, h1]
      exact k1
    · intro a b
      rw [k3, h3]
      constructor
      · rintro ((hx | ⟨hab, hadj⟩) | ⟨hab, f, hf, hadj⟩)
        · exact Or.inl hx
        · exact Or.inr ⟨hab, face, List.mem_cons_self _ _, hadj⟩
        · exact Or.inr ⟨hab, f, List.mem_cons_of_mem _ hf, hadj⟩
      · rintro (hx | ⟨hab, f, hf, hadj⟩)
        · exact Or.inl (Or.inl hx)
        · rcases List.mem_cons.mp hf with hf | hf
          · subst hf
            exact Or.inl (Or.inr ⟨hab, hadj⟩)
          · exact Or.inr ⟨hab, f, hf, hadj⟩

/-- The edges derived from any list of faces: the loop ends without a fault, its
result is ascending (so without repetition), and it holds exactly the normalised
cyclic boundary pairs. -/
theorem edgesFromFaces_spec (faces : List (List Int)) :
    ∃ es, edgesFromFaces faces = .ok es ∧
      es.Pairwise (fun a b => pairLt a b = true) ∧ es.Nodup ∧
      ∀ a b, (a, b) ∈ es ↔ a ≤ b ∧ ∃ face ∈ faces, AdjacentIn face a b := by
  obtain ⟨es, h1, h2, h3⟩ := facesLoop_spec faces []
  have hs := h2 List.Pairwise.nil
  refine ⟨es, h1, hs, nodup_of_sorted hs, ?_⟩
  intro a b
  rw [h3]
  simp

/-! ## The parsing loop -/

theorem parseLines_cons (rv : List (List Char) → Point3D ℚ) (st : LoadState)
    (line : List Char) (rest : List (List Char)) :
    parseLines rv st (line :: rest) =
      match lineEffect rv st line with
      | .error e => .error e
      | .ok st1 => parseLines rv st1 rest := by
  rw [show parseLines rv st (line :: rest) =
    (processLine rv st line >>= fun st1 => parseLines rv st1 rest) from rfl, processLine_eq]
  cases lineEffect rv st line <;> rfl

theorem vertexLines_cons (line : List Char) (rest : List (List Char)) :
    vertexLines (line :: rest) = (if isVertexLine line then 1 else 0) + vertexLines rest := by
  unfold vertexLines
  by_cases h : isVertexLine line = true
  · simp [List.filter, h]; omega
  · simp [List.filter, h]

/-- What a completed parse has accumulated: the vertices counted by the `v` lines,
the edges of the `l` directives, and faces of three or more indices. -/
theorem parseLines_ok (rv : List (List Char) → Point3D ℚ) :
    ∀ (lines : List (List Char)) (st st2 : LoadState), parseLines rv st lines = .ok st2 →
      st2.model_vertices.length = st.model_vertices.length + vertexLines lines ∧
      st2.model_edges = st.model_edges ++ directiveEdges st.model_vertices.length lines ∧
      (∀ f ∈ st2.faces, f ∈ st.faces ∨ 3 ≤ f.length) := by
  intro lines
  induction lines with
  | nil =>
    intro st st2 h
    have e : st2 = st := by
      unfold parseLines at h
      injection h with h
      exact h.symm
    subst e
    exact ⟨by simp [vertexLines], by simp [directiveEdges], fun f hf => Or.inl hf⟩
  | cons line rest ih =>
    intro st st2 h
    rw [parseLines_cons] at h
    cases hl : lineEffect rv st line with
    | error e => rw [hl] at h; cases h
    | ok st1 =>
      rw [hl] at h
      simp only at h
      obtain ⟨i1, i2, i3⟩ := ih st1 st2 h
      rw [vertexLines_cons]
      unfold directiveEdges
      rcases lineEffect_ok hl with ⟨hv, hd, _, p, e⟩ | ⟨hv, hd, e⟩ | ⟨hv, hd, fi, hr, h3, e⟩ |
        ⟨hv, hd, lv, hr, hne, e⟩
      · subst e
        simp only [hv, hd, if_true, List.length_append, List.length_singleton] at i1 i2 i3 ⊢
        refine ⟨by omega, ?_, i3⟩
        simpa using i2
      · subst e
        simp only [hv, hd] at i1 i2 i3 ⊢
        refine ⟨by simpa using i1, by simpa using i2, i3⟩
      · subst e
        simp only [hv, hd] at i1 i2 i3 ⊢
        refine ⟨by simpa using i1, by simpa using i2, ?_⟩
        intro f hf
        rcases i3 f hf with h4 | h4
        · rcases List.mem_append.mp h4 with h5 | h5
          · exact Or.inl h5
          · have e5 : f = fi := by simpa using h5
            subst e5
            exact Or.inr h3
        · exact Or.inr h4
      · subst e
        simp only [hv, hd, hr, if_true] at i1 i2 i3 ⊢
        refine ⟨by simpa using i1, ?_, i3⟩
        rw [i2]
        simp

/-- A parse raises no `std::stoi` exception when every index token starts with an
integer of type `int`: what is left is the read beyond an empty index list. -/
theorem parseLines_error (rv : List (List Char) → Point3D ℚ) :
    ∀ (lines : List (List Char)) (st : LoadState) (e : Fault),
      IndexTokensNumeric lines → parseLines rv st lines = .error e →
      e = .indexOutOfBounds := by
  intro lines
  induction lines with
  | nil =>
    intro st e _ h
    unfold parseLines at h
    cases h
  | cons line rest ih =>
    intro st e hnum h
    rw [parseLines_cons] at h
    cases hl : lineEffect rv st line with
    | error e1 =>
      rw [hl] at h
      have e2 : e1 = e := by injection h
      subst e2
      rcases lineEffect_error hl with ⟨tok, htok, hs⟩ | ⟨he, _, _⟩
      · obtain ⟨hv, _⟩ := storedIndex_error hs
        obtain ⟨k, hk⟩ := hnum line (List.mem_cons_self _ _) tok htok
        rw [hk] at hv
        cases hv
      · exact he
    | ok st1 =>
      rw [hl] at h
      exact ih st1 e (fun l hl2 => hnum l (List.mem_cons_of_mem _ hl2)) h

/-! ## `loadObj` as a whole -/

theorem loadObj_some (rv : List (List Char) → Point3D ℚ) (content : List Char) (g : Globals) :
    loadObj rv (some content) g =
      match parseLines rv initialState (getlines content) with
      | .error e => .error e
      | .ok st =>
        if st.model_vertices.isEmpty then .ok (false, ⟨st.model_vertices, st.model_edges⟩)
        else
          match (if st.model_edges.isEmpty then edgesFromFaces st.faces
            else .ok st.model_edges) with
          | .error e => .error e
          | .ok edges => .ok (true, ⟨normalize st.model_vertices, edges⟩) := by
  unfold loadObj initialState
  dsimp only
  cases parseLines rv ⟨[], [], []⟩ (getlines content) with
  | error e => rfl
  | ok st =>
    rw [ok_bind]
    by_cases hv : st.model_vertices.isEmpty = true
    · simp only [hv, if_true]
      rfl
    · simp only [hv, if_false]
      by_cases he : st.model_edges.isEmpty = true
      · simp only [he, if_true]
        cases edgesFromFaces st.faces <;> rfl
      · simp only [he, if_false]
        rfl

theorem normalize_length (vs : List (Point3D ℚ)) : (normalize vs).length = vs.length := by
  unfold normalize
  split
  · rfl
  · simp

/-- The outcome of `loadObj` on a file that opens and is parsed to the end. -/
theorem loadObj_of_parse {rv : List (List Char) → Point3D ℚ} {content : List Char}
    {st : LoadState} (g : Globals)
    (hp : parseLines rv initialState (getlines content) = .ok st) :
    (st.model_vertices = [] ∧
        loadObj rv (some content) g = .ok (false, ⟨[], st.model_edges⟩)) ∨
    (st.model_vertices ≠ [] ∧ st.model_edges ≠ [] ∧
        loadObj rv (some content) g =
          .ok (true, ⟨normalize st.model_vertices, st.model_edges⟩)) ∨
    (st.model_vertices ≠ [] ∧ st.model_edges = [] ∧
        ∃ es, edgesFromFaces st.faces = .ok es ∧
          loadObj rv (some content) g = .ok (true, ⟨normalize st.model_vertices, es⟩)) := by
  rw [loadObj_some, hp]
  simp only
  by_cases hv : st.model_vertices = []
  · left
    simp [hv]
  · right
    have hv2 : ¬ st.model_vertices.isEmpty = true := by simpa using hv
    rw [if_neg hv2]
    by_cases he : st.model_edges = []
    · right
      obtain ⟨es, h1, _⟩ := edgesFromFaces_spec st.faces
      refine ⟨hv, he, es, h1, ?_⟩
      simp [he, h1]
    · left
      have he2 : ¬ st.model_edges.isEmpty = true := by simpa using he
      exact ⟨hv, he, by rw [if_neg he2]⟩

/-- A file that opens and is parsed to the end makes `loadObj` return `false`
exactly when it has no `v` line. -/
theorem loadObj_false_iff {rv : List (List Char) → Point3D ℚ} {content : List Char}
    {st : LoadState} (g : Globals)
    (hp : parseLines rv initialState (getlines content) = .ok st) :
    (∃ g1, loadObj rv (some content) g = .ok (false, g1)) ↔
      vertexLines (getlines content) = 0 := by
  have hc := (parseLines_ok rv _ _ _ hp).1
  simp only [initialState, List.length_nil, Nat.zero_add] at hc
  rcases loadObj_of_parse g hp with ⟨hv, h⟩ | ⟨hv, _, h⟩ | ⟨hv, _, es, _, h⟩
  · rw [h]
    constructor
    · intro _
      rw [← hc, hv]
      rfl
    · intro _
      exact ⟨_, rfl⟩
  · rw [h]
    constructor
    · rintro ⟨g1, h1⟩
      cases h1
    · intro h0
      rw [← hc] at h0
      exact absurd (List.length_eq_zero.mp h0) hv
  · rw [h]
    constructor
    · rintro ⟨g1, h1⟩
      cases h1
    · intro h0
      rw [← hc] at h0
      exact absurd (List.length_eq_zero.mp h0) hv

/-! ## Indices that refer to vertices of the file -/

/-- The effect of a line on the state, with the tag of the line. -/
theorem lineEffect_cases {rv : List (List Char) → Point3D ℚ} {st st1 : LoadState}
    {line : List Char} (h : lineEffect rv st line = .ok st1) :
    (isVertexLine line = true ∧ isFaceLine line = false ∧ isLineDirective line = false ∧
        ∃ p, st1 = ⟨st.model_vertices ++ [p], st.model_edges, st.faces⟩) ∨
    (isVertexLine line = false ∧ isFaceLine line = false ∧ isLineDirective line = false ∧
        st1 = st) ∨
    (isVertexLine line = false ∧ isFaceLine line = true ∧ isLineDirective line = false ∧
        ∃ fi, readIndices st.model_vertices.length (indexTokens line) = .ok fi ∧
          st1 = if 3 ≤ fi.length then ⟨st.model_vertices, st.model_edges, st.faces ++ [fi]⟩
            else st) ∨
    (isVertexLine line = false ∧ isFaceLine line = false ∧ isLineDirective line = true ∧
        ∃ lv, readIndices st.model_vertices.length (indexTokens line) = .ok lv ∧
          lv ≠ [] ∧ st1 = ⟨st.model_vertices, st.model_edges ++ pairsOf lv, st.faces⟩) := by
  unfold lineEffect at h
  unfold isVertexLine isLineDirective isFaceLine indexTokens
  cases hw : lineWords line with
  | none =>
    rw [hw] at h
    injection h with h
    exact Or.inr (Or.inl ⟨rfl, rfl, rfl, h.symm⟩)
  | some tr =>
    obtain ⟨type, rest⟩ := tr
    rw [hw] at h
    simp only at h ⊢
    by_cases hv : type = ['v']
    · rw [if_pos hv] at h
      injection h with h
      refine Or.inl ⟨by simp [hv], by simp [hv], by simp [hv], _, h.symm⟩
    · rw [if_neg hv] at h
      by_cases hf : type = ['f']
      · rw [if_pos hf] at h
        cases hr : readIndices st.model_vertices.length rest with
        | error e => rw [hr] at h; cases h
        | ok fi =>
          rw [hr] at h
          simp only at h
          injection h with h
          refine Or.inr (Or.inr (Or.inl ⟨by simp [hf], by simp [hf], by simp [hf], fi, ?_,
            h.symm⟩))
          simp [hf, hr]
      · rw [if_neg hf] at h
        by_cases hl : type = ['l']
        · rw [if_pos hl] at h
          cases hr : readIndices st.model_vertices.length rest with
          | error e => rw [hr] at h; cases h
          | ok lv =>
            rw [hr] at h
            simp only at h
            by_cases hnil : lv = []
            · rw [if_pos hnil] at h; cases h
            · rw [if_neg hnil] at h
              injection h with h
              refine Or.inr (Or.inr (Or.inr ⟨by simp [hl], by simp [hl], by simp [hl], lv, ?_,
                hnil, h.symm⟩))
              simp [hl, hr]
        · rw [if_neg hl] at h
          injection h with h
          exact Or.inr (Or.inl ⟨by simp [hv], by simp [hf], by simp [hl], h.symm⟩)

/-- The token that `storedIndex` has read denotes an integer. -/
theorem storedIndex_value {n : Nat} {tok : List Char} {i : Int}
    (h : storedIndex n tok = .ok i) : ∃ k, tokenValue tok = .ok k := by
  unfold storedIndex at h
  unfold tokenValue
  cases hs : stoi (List.takeWhile (fun c => c != '/') tok) with
  | error e =>
    rw [hs, error_bind] at h
    cases h
  | ok k => exact ⟨k, rfl⟩

/-- The index stored for a token is the index of a vertex of the file exactly
when the token refers to a vertex of the file. -/
theorem storedIndex_inRange_iff {total n : Nat} {tok : List Char} {i : Int}
    (hn : n ≤ total) (ht : total < 2147483648) (hs : storedIndex n tok = .ok i) :
    InRange total i ↔ ∃ k, tokenValue tok = .ok k ∧ RefersToVertex total n k := by
  obtain ⟨k, hk⟩ := storedIndex_value hs
  have hr := stoi_range hk
  have hmin := INT_MIN_eq
  have hmax := INT_MAX_eq
  have key : InRange total i ↔ RefersToVertex total n k := by
    unfold InRange RefersToVertex
    by_cases h1 : 1 ≤ k
    · rw [storedIndex_of_positive hk h1] at hs
      injection hs with hs
      omega
    · by_cases h2 : INT_MIN < k
      · rw [storedIndex_of_nonpositive hk (by omega) h2 (by omega)] at hs
        injection hs with hs
        omega
      · have e : k = -2147483648 := by omega
        subst e
        unfold tokenValue at hk
        unfold storedIndex at hs
        rw [hk, ok_bind] at hs
        have w : wrapInt (-2147483648 - 1) = 2147483647 := by decide
        rw [w] at hs
        simp only [ge_iff_le, Int.reduceLE, if_true] at hs
        injection hs with hs
        omega
  constructor
  · intro h
    exact ⟨k, hk, key.mp h⟩
  · rintro ⟨k2, hk2, h⟩
    rw [hk] at hk2
    injection hk2 with hk2
    subst hk2
    exact key.mpr h

/-- The indices stored for the tokens of a line are indices of vertices of the
file exactly when every token refers to a vertex of the file. -/
theorem readIndices_inRange_iff {total n : Nat} (hn : n ≤ total) (ht : total < 2147483648) :
    ∀ {toks : List (List Char)} {is : List Int}, readIndices n toks = .ok is →
      ((∀ i ∈ is, InRange total i) ↔
        ∀ tok ∈ toks, ∃ k, tokenValue tok = .ok k ∧ RefersToVertex total n k) := by
  intro toks is h
  have hf := readIndices_ok h
  clear h
  induction hf with
  | nil => simp
  | cons h1 _ ih =>
    simp only [List.forall_mem_cons, storedIndex_inRange_iff hn ht h1, ih]

/-- Every index of a list of two or more indices is in one of its consecutive
pairs. -/
theorem pairsOf_inRange_iff (total : Nat) :
    ∀ lv : List Int, 2 ≤ lv.length →
      ((∀ e ∈ pairsOf lv, InRange total e.1 ∧ InRange total e.2) ↔
        ∀ i ∈ lv, InRange total i) := by
  intro lv
  induction lv with
  | nil => intro h; simp at h
  | cons a rest ih =>
    intro h
    cases rest with
    | nil => simp at h
    | cons b rest2 =>
      have hp : pairsOf (a :: b :: rest2) = (a, b) :: pairsOf (b :: rest2) := rfl
      rw [hp]
      cases rest2 with
      | nil =>
        have hp2 : pairsOf [b] = [] := rfl
        rw [hp2]
        simp
      | cons c rest3 =>
        have ih2 := ih (by simp)
        simp only [List.forall_mem_cons] at ih2 ⊢
        rw [ih2]
        tauto

theorem pairsOf_short {lv : List Int} (h : lv.length < 2) : pairsOf lv = [] := by
  cases lv with
  | nil => rfl
  | cons a rest =>
    cases rest with
    | nil => rfl
    | cons b rest2 =>
      simp only [List.length_cons] at h
      omega

theorem pairsOf_ne_nil {lv : List Int} (h : 2 ≤ lv.length) : pairsOf lv ≠ [] := by
  cases lv with
  | nil => simp at h
  | cons a rest =>
    cases rest with
    | nil => simp at h
    | cons b rest2 =>
      have hp : pairsOf (a :: b :: rest2) = (a, b) :: pairsOf (b :: rest2) := rfl
      rw [hp]
      exact List.cons_ne_nil _ _

theorem mem_of_mem_pairsOf {lv : List Int} {e : Edge} (h : e ∈ pairsOf lv) :
    e.1 ∈ lv ∧ e.2 ∈ lv := by
  unfold pairsOf at h
  obtain ⟨a, b⟩ := e
  have h2 := List.of_mem_zip h
  exact ⟨h2.1, List.mem_of_mem_tail h2.2⟩

theorem mem_of_adjacentIn {face : List Int} {a b : Int} (h : AdjacentIn face a b) :
    a ∈ face ∧ b ∈ face := by
  obtain ⟨i, _, h1 | h1⟩ := h
  · exact ⟨List.get?_mem h1.1, List.get?_mem h1.2⟩
  · exact ⟨List.get?_mem h1.2, List.get?_mem h1.1⟩

/-- The edges derived from faces are in range exactly when every index of every
face is: each index of a face is joined to the next one. -/
theorem edgesFromFaces_inRange_iff (total : Nat) {faces : List (List Int)} {es : List Edge}
    (hes : edgesFromFaces faces = .ok es) :
    ((∀ e ∈ es, InRange total e.1 ∧ InRange total e.2) ↔
      ∀ f ∈ faces, ∀ i ∈ f, InRange total i) := by
  obtain ⟨es2, hes2, _, _, hiff⟩ := edgesFromFaces_spec faces
  rw [hes] at hes2
  injection hes2 with hes2
  subst hes2
  constructor
  · intro h f hf i hi
    obtain ⟨p, hp⟩ := List.mem_iff_get?.mp hi
    have hlen : p < f.length := by
      by_contra hcon
      rw [List.get?_eq_none.mpr (by omega)] at hp
      cases hp
    have hq : (p + 1) % f.length < f.length := Nat.mod_lt _ (by omega)
    obtain ⟨j, hj⟩ : ∃ j, f.get? ((p + 1) % f.length) = some j :=
      ⟨_, List.get?_eq_get hq⟩
    by_cases hij : i ≤ j
    · have hm : (i, j) ∈ es := (hiff i j).mpr ⟨hij, f, hf, p, hlen, Or.inl ⟨hp, hj⟩⟩
      exact (h _ hm).1
    · have hm : (j, i) ∈ es := (hiff j i).mpr ⟨by omega, f, hf, p, hlen, Or.inr ⟨hp, hj⟩⟩
      exact (h _ hm).2
  · intro h e he
    obtain ⟨a, b⟩ := e
    obtain ⟨_, face, hface, hadj⟩ := (hiff a b).mp he
    have hm := mem_of_adjacentIn hadj
    exact ⟨h face hface a hm.1, h face hface b hm.2⟩

theorem directivesGiveEdges_cons (line : List Char) (rest : List (List Char)) :
    directivesGiveEdges (line :: rest) =
      ((isLineDirective line && decide (2 ≤ (indexTokens line).length)) ||
        directivesGiveEdges rest) := rfl

/-- The parsing loop, for a file of `total` vertices: the edges of the `l` lines
are in range exactly when the tokens of the `l` lines with two or more indices
refer to vertices of the file, the faces kept hold indices in range exactly when
the tokens of the `f` lines with three or more indices do, and the `l` lines
state an edge exactly when one of them carries two or more indices. -/
theorem parseLines_inRange_iff (rv : List (List Char) → Point3D ℚ) (total : Nat)
    (ht : total < 2147483648) :
    ∀ (lines : List (List Char)) (st st2 : LoadState), parseLines rv st lines = .ok st2 →
      st.model_vertices.length + vertexLines lines = total →
      ((∀ e ∈ st2.model_edges, InRange total e.1 ∧ InRange total e.2) ↔
        (∀ e ∈ st.model_edges, InRange total e.1 ∧ InRange total e.2) ∧
          IndicesExist total true st.model_vertices.length lines) ∧
      ((∀ f ∈ st2.faces, ∀ i ∈ f, InRange total i) ↔
        (∀ f ∈ st.faces, ∀ i ∈ f, InRange total i) ∧
          IndicesExist total false st.model_vertices.length lines) ∧
      (st2.model_edges = [] ↔ st.model_edges = [] ∧ directivesGiveEdges lines = false) := by
  intro lines
  induction lines with
  | nil =>
    intro st st2 h _
    have e : st2 = st := by
      unfold parseLines at h
      injection h with h
      exact h.symm
    subst e
    simp [IndicesExist, directivesGiveEdges]
  | cons line rest ih =>
    intro st st2 h hcount
    rw [parseLines_cons] at h
    cases hl : lineEffect rv st line with
    | error e => rw [hl] at h; cases h
    | ok st1 =>
      rw [hl] at h
      simp only at h
      rw [vertexLines_cons] at hcount
      have hle : st.model_vertices.length ≤ total := by omega
      rw [directivesGiveEdges_cons]
      unfold IndicesExist
      rcases lineEffect_cases hl with ⟨hv, hf, hd, p, e⟩ | ⟨hv, hf, hd, e⟩ |
        ⟨hv, hf, hd, fi, hri, e⟩ | ⟨hv, hf, hd, lv, hri, hne, e⟩
      · subst e
        obtain ⟨i1, i2, i3⟩ := ih _ st2 h (by
          simp only [List.length_append, List.length_singleton]
          rw [hv] at hcount
          simp only [if_true] at hcount
          omega)
        simp only [List.length_append, List.length_singleton] at i1 i2 i3
        have c1 : contributes true line = false := by simp [contributes, hd]
        have c2 : contributes false line = false := by simp [contributes, hf]
        simp only [hv, hd, c1, c2, if_true, Bool.false_eq_true, false_implies, true_and,
          Bool.false_and, Bool.false_or]
        exact ⟨i1, i2, i3⟩
      · subst e
        obtain ⟨i1, i2, i3⟩ := ih _ st2 h (by
          rw [hv] at hcount
          simp only [Bool.false_eq_true, if_false] at hcount
          omega)
        have c1 : contributes true line = false := by simp [contributes, hd]
        have c2 : contributes false line = false := by simp [contributes, hf]
        simp only [hv, hd, c1, c2, Bool.false_eq_true, if_false, false_implies, true_and,
          Bool.false_and, Bool.false_or]
        exact ⟨i1, i2, i3⟩
      · have hlen := readIndices_length hri
        have htok := readIndices_inRange_iff hle ht hri
        have c1 : contributes true line = false := by simp [contributes, hd]
        by_cases h3 : 3 ≤ fi.length
        · rw [if_pos h3] at e
          subst e
          obtain ⟨i1, i2, i3⟩ := ih _ st2 h (by
            show st.model_vertices.length + vertexLines rest = total
            rw [hv] at hcount
            simp only [Bool.false_eq_true, if_false] at hcount
            omega)
          simp only at i1 i2 i3
          have c2 : contributes false line = true := by
            simp [contributes, hf, ← hlen, h3]
          simp only [hv, hd, c1, c2, Bool.false_eq_true, if_false, false_implies, true_and,
            Bool.false_and, Bool.false_or, forall_true_left]
          refine ⟨i1, ?_, i3⟩
          rw [i2, ← htok]
          constructor
          · rintro ⟨hA, hB⟩
            exact ⟨fun f hf2 => hA f (List.mem_append_left _ hf2),
              hA fi (List.mem_append_right _ (List.mem_singleton_self _)), hB⟩
          · rintro ⟨hA, hB, hC⟩
            refine ⟨?_, hC⟩
            intro f hf2
            rcases List.mem_append.mp hf2 with hf3 | hf3
            · exact hA f hf3
            · rw [List.mem_singleton.mp hf3]
              exact hB
        · rw [if_neg h3] at e
          subst e
          obtain ⟨i1, i2, i3⟩ := ih _ st2 h (by
            rw [hv] at hcount
            simp only [Bool.false_eq_true, if_false] at hcount
            omega)
          have c2 : contributes false line = false := by
            simp [contributes, hf, ← hlen]
            omega
          simp only [hv, hd, c1, c2, Bool.false_eq_true, if_false, false_implies, true_and,
            Bool.false_and, Bool.false_or]
          exact ⟨i1, i2, i3⟩
      · subst e
        have hlen := readIndices_length hri
        have htok := readIndices_inRange_iff hle ht hri
        obtain ⟨i1, i2, i3⟩ := ih _ st2 h (by
          show st.model_vertices.length + vertexLines rest = total
          rw [hv] at hcount
          simp only [Bool.false_eq_true, if_false] at hcount
          omega)
        simp only at i1 i2 i3
        have c2 : contributes false line = false := by simp [contributes, hf]
        by_cases h2 : 2 ≤ lv.length
        · have c1 : contributes true line = true := by
            simp [contributes, hd, ← hlen, h2]
          have hg : decide (2 ≤ (indexTokens line).length) = true := by
            simp [← hlen, h2]
          simp only [hv, hd, c1, c2, hg, Bool.false_eq_true, if_false, false_implies, true_and,
            Bool.true_and, Bool.true_or, forall_true_left, and_false, iff_false]
          refine ⟨?_, i2, ?_⟩
          · rw [i1, ← htok, ← pairsOf_inRange_iff total lv h2]
            constructor
            · rintro ⟨hA, hB⟩
              exact ⟨fun e he => hA e (List.mem_append_left _ he),
                fun e he => hA e (List.mem_append_right _ he), hB⟩
            · rintro ⟨hA, hB, hC⟩
              refine ⟨?_, hC⟩
              intro e he
              rcases List.mem_append.mp he with he2 | he2
              · exact hA e he2
              · exact hB e he2
          · constructor
            · intro hcon
              have := i3.mp hcon
              exact absurd (List.append_eq_nil.mp this.1).2 (pairsOf_ne_nil h2)
            · rintro ⟨_, hcon⟩
              cases hcon
        · have c1 : contributes true line = false := by
            simp [contributes, hd, ← hlen]
            omega
          have hg : decide (2 ≤ (indexTokens line).length) = false := by
            simp [← hlen]
            omega
          have hp := pairsOf_short (by omega : lv.length < 2)
          rw [hp, List.append_nil] at i1 i3
          simp only [hv, hd, c1, c2, hg, Bool.false_eq_true, if_false, false_implies, true_and,
            Bool.and_false, Bool.false_or]
          exact ⟨i1, i2, i3⟩

/-! ## C1: edges and the vertices they refer to -/

/-- C1, as stated, fails: the file with one `v` line followed by `f 1 2 3` is loaded
with success, and its edges `(0,1)`, `(0,2)`, `(1,2)` refer to vertices `1` and `2`
of a model that has one vertex; the file with one `v` line followed by `f 0 1 1`
is loaded with success as well, the index token `0` being stored as the index 1,
and its edge `(0,1)` refers to the vertex `1` of a model that has one vertex. -/
theorem loadObj_out_of_range_edge :
    (loadObj originReader (some "v 0 0 0\nf 1 2 3".toList) cubeGlobals).map
        (fun r => (r.1, r.2.model_vertices.length, r.2.model_edges)) =
      .ok (true, 1, [(0, 1), (0, 2), (1, 2)]) ∧
    (∃ g, loadObj originReader (some "v 0 0 0\nf 1 2 3".toList) cubeGlobals = .ok (true, g) ∧
      ¬ EdgesInRange g) ∧
    storedIndex 1 ['0'] = .ok 1 ∧
    (loadObj originReader (some "v 0 0 0\nf 0 1 1".toList) cubeGlobals).map
        (fun r => (r.1, r.2.model_vertices.length, r.2.model_edges)) =
      .ok (true, 1, [(0, 0), (0, 1)]) ∧
    (∃ g, loadObj originReader (some "v 0 0 0\nf 0 1 1".toList) cubeGlobals = .ok (true, g) ∧
      ¬ EdgesInRange g) := by
  refine ⟨rfl, ⟨⟨normalize [⟨0, 0, 0⟩], [(0, 1), (0, 2), (1, 2)]⟩, rfl, ?_⟩, rfl, rfl,
    ⟨⟨normalize [⟨0, 0, 0⟩], [(0, 0), (0, 1)]⟩, rfl, ?_⟩⟩
  · intro h
    have h1 := (h (0, 1) (by simp)).2.2
    rw [normalize_length] at h1
    simp at h1
  · intro h
    have h1 := (h (0, 1) (by simp)).2.2
    rw [normalize_length] at h1
    simp at h1

/-- C1, amended: `loadObj` checks no index.  When it succeeds on a file with
fewer than `2^31` `v` lines, the model has one vertex for each `v` line, and every
edge `(i, j)` of `model_edges` has `0 <= i, j < model_vertices.size()` if and only
if every index token of every line that contributes edges (the `l` lines with two
or more indices when there is such a line, and the `f` lines with three or more
indices otherwise) refers to a vertex of the file. -/
theorem loadObj_edges_in_range (rv : List (List Char) → Point3D ℚ) (content : List Char)
    (g g1 : Globals) (h : loadObj rv (some content) g = .ok (true, g1))
    (hn : vertexLines (getlines content) < 2147483648) :
    g1.model_vertices.length = vertexLines (getlines content) ∧
    (EdgesInRange g1 ↔
      IndicesExist (vertexLines (getlines content)) (directivesGiveEdges (getlines content)) 0
        (getlines content)) := by
  cases hp : parseLines rv initialState (getlines content) with
  | error e =>
    rw [loadObj_some, hp] at h
    cases h
  | ok st =>
    have hcount := (parseLines_ok rv _ initialState st hp).1
    have hc0 : st.model_vertices.length = vertexLines (getlines content) := by
      rw [hcount]
      simp [initialState]
    obtain ⟨i1, i2, i3⟩ := parseLines_inRange_iff rv _ hn _ initialState st hp
      (by simp [initialState])
    have j1 : (∀ e ∈ st.model_edges,
        InRange (vertexLines (getlines content)) e.1 ∧
          InRange (vertexLines (getlines content)) e.2) ↔
        IndicesExist (vertexLines (getlines content)) true 0 (getlines content) := by
      simpa [initialState] using i1
    have j2 : (∀ f ∈ st.faces, ∀ i ∈ f, InRange (vertexLines (getlines content)) i) ↔
        IndicesExist (vertexLines (getlines content)) false 0 (getlines content) := by
      simpa [initialState] using i2
    have j3 : st.model_edges = [] ↔ directivesGiveEdges (getlines content) = false := by
      simpa [initialState] using i3
    rcases loadObj_of_parse g hp with ⟨_, h1⟩ | ⟨_, hne, h1⟩ | ⟨_, he, es, hes, h1⟩
    · rw [h1] at h
      cases h
    · rw [h1] at h
      injection h with h
      injection h with _ h
      subst h
      have hdir : directivesGiveEdges (getlines content) = true := by
        by_contra hcon
        exact hne (j3.mpr (by simpa using hcon))
      refine ⟨by rw [normalize_length]; exact hc0, ?_⟩
      rw [hdir]
      refine Iff.trans ?_ j1
      unfold EdgesInRange InRange
      simp only [normalize_length, hc0]
    · rw [h1] at h
      injection h with h
      injection h with _ h
      subst h
      have hdir : directivesGiveEdges (getlines content) = false := j3.mp he
      refine ⟨by rw [normalize_length]; exact hc0, ?_⟩
      rw [hdir]
      refine Iff.trans ?_ (Iff.trans (edgesFromFaces_inRange_iff _ hes) j2)
      unfold EdgesInRange InRange
      simp only [normalize_length, hc0]

/-- C1, amended, at a file whose face line `f 1 2 3` comes before its three `v`
lines: it is loaded with success, its index tokens refer to vertices of the file,
and its edges `(0,1)`, `(0,2)`, `(1,2)` are in range. -/
theorem loadObj_edges_in_range_witness :
    loadObj originReader (some "f 1 2 3\nv 0 0 0\nv 1 0 0\nv 0 1 0".toList) cubeGlobals =
      .ok (true, ⟨normalize [⟨0, 0, 0⟩, ⟨0, 0, 0⟩, ⟨0, 0, 0⟩], [(0, 1), (0, 2), (1, 2)]⟩) ∧
    vertexLines (getlines "f 1 2 3\nv 0 0 0\nv 1 0 0\nv 0 1 0".toList) = 3 ∧
    IndicesExist 3 false 0 (getlines "f 1 2 3\nv 0 0 0\nv 1 0 0\nv 0 1 0".toList) ∧
    EdgesInRange ⟨normalize [⟨0, 0, 0⟩, ⟨0, 0, 0⟩, ⟨0, 0, 0⟩], [(0, 1), (0, 2), (1, 2)]⟩ := by
  have hl : getlines "f 1 2 3\nv 0 0 0\nv 1 0 0\nv 0 1 0".toList =
      ["f 1 2 3".toList, "v 0 0 0".toList, "v 1 0 0".toList, "v 0 1 0".toList] := rfl
  have hN : vertexLines (getlines "f 1 2 3\nv 0 0 0\nv 1 0 0\nv 0 1 0".toList) = 3 := rfl
  have hD : directivesGiveEdges (getlines "f 1 2 3\nv 0 0 0\nv 1 0 0\nv 0 1 0".toList) =
      false := rfl
  have hI : IndicesExist 3 false 0 (getlines "f 1 2 3\nv 0 0 0\nv 1 0 0\nv 0 1 0".toList) := by
    have l4 : indexTokens "f 1 2 3".toList = [['1'], ['2'], ['3']] := rfl
    have c1 : contributes false "v 0 0 0".toList = false := rfl
    have c2 : contributes false "v 1 0 0".toList = false := rfl
    have c3 : contributes false "v 0 1 0".toList = false := rfl
    rw [hl]
    simp only [IndicesExist, l4, c1, c2, c3, Bool.false_eq_true, false_implies, implies_true,
      true_and, and_true, List.forall_mem_cons, List.not_mem_nil]
    intro _
    refine ⟨⟨1, rfl, ?_⟩, ⟨2, rfl, ?_⟩, ⟨3, rfl, ?_⟩⟩ <;> simp [RefersToVertex]
  have h := loadObj_edges_in_range originReader "f 1 2 3\nv 0 0 0\nv 1 0 0\nv 0 1 0".toList
    cubeGlobals _ rfl (by rw [hN]; norm_num)
  refine ⟨rfl, hN, hI, h.2.mpr ?_⟩
  rw [hN, hD]
  exact hI

/-! ## C2: the globals after a failed load -/

/-- C2, evaluated: when the file cannot be opened the globals are still the cube,
but when the file opens and has no vertex (here the empty file) `loadObj` has
cleared the globals before it returns `false`, and `main` goes on with no vertex
and no edge instead of the cube. -/
theorem mainSetup_after_failed_load (rv : List (List Char) → Point3D ℚ) :
    mainSetup rv (some none) = .ok cubeGlobals ∧
    loadObj rv (some []) cubeGlobals = .ok (false, ⟨[], []⟩) ∧
    mainSetup rv (some (some [])) = .ok ⟨[], []⟩ ∧
    (⟨[], []⟩ : Globals) ≠ cubeGlobals := by
  refine ⟨rfl, rfl, rfl, ?_⟩
  intro h
  have h1 := congrArg (fun g => g.model_edges.length) h
  simp [cubeGlobals, cube_edges] at h1

/-! ## C3: when `loadObj` returns `false` -/

/-- C3, evaluated: the file that consists of the line `l` has no `v` line and no
numeric token at all, and `loadObj` does not return `false` on it: the loop over
the indices of the `l` line reads `line_vertices[0]` of an empty vector. -/
theorem loadObj_bare_line_directive (rv : List (List Char) → Point3D ℚ) (g : Globals) :
    vertexLines (getlines ['l']) = 0 ∧
    indexTokens ['l'] = [] ∧
    loadObj rv (some ['l']) g = .error .indexOutOfBounds :=
  ⟨rfl, rfl, rfl⟩

/-! ## Tokens that start with an integer -/

theorem isDigit_ne_slash {c : Char} (h : c.isDigit = true) : (c != '/') = true := by
  by_cases hc : c = '/'
  · subst hc
    exact absurd h (by decide)
  · simpa using hc

theorem isDigit_not_isspace {c : Char} (h : c.isDigit = true) : ¬ isspace c = true := by
  intro hs
  unfold isspace at hs
  simp only [Bool.or_eq_true, decide_eq_true_eq] at hs
  rcases hs with ((((hs | hs) | hs) | hs) | hs) | hs <;> (subst hs; exact absurd h (by decide))

theorem isDigit_ne_sign {c : Char} (h : c.isDigit = true) : c ≠ '-' ∧ c ≠ '+' := by
  constructor
  · intro hc
    subst hc
    exact absurd h (by decide)
  · intro hc
    subst hc
    exact absurd h (by decide)

/-- The digits that `std::stoi` reads from a run of digits followed by something
that starts with no digit: the run. -/
theorem takeWhile_digits {digits rest : List Char} (hdig : ∀ d ∈ digits, d.isDigit = true)
    (hrest : ∀ c ∈ rest.head?, c.isDigit = false) :
    (digits ++ rest.takeWhile (fun c => c != '/')).takeWhile Char.isDigit = digits := by
  rw [List.takeWhile_append_of_pos hdig]
  have hr : (rest.takeWhile (fun c => c != '/')).takeWhile Char.isDigit = [] := by
    cases rest with
    | nil => rfl
    | cons c cs =>
      have hc : c.isDigit = false := hrest c (by simp)
      by_cases hs : (c != '/') = true
      · simp only [List.takeWhile_cons, hs, hc, if_true, Bool.false_eq_true, if_false]
      · simp only [List.takeWhile_cons, hs, Bool.false_eq_true, if_false, List.takeWhile_nil]
  rw [hr, List.append_nil]

/-- A token that starts with an integer which fits in an `int` is read by
`std::stoi` without an exception, as the integer it starts with. -/
theorem tokenValue_of_integerToken {tok : List Char} (h : IntegerToken tok) :
    ∃ k, tokenValue tok = .ok k := by
  obtain ⟨sign, digits, rest, rfl, hsign, hne, hdig, hrest, hrange⟩ := h
  have hmin := INT_MIN_eq
  have hmax := INT_MAX_eq
  have htake := takeWhile_digits hdig hrest
  obtain ⟨d, ds, rfl⟩ : ∃ d ds, digits = d :: ds := by
    cases digits with
    | nil => exact absurd rfl hne
    | cons d ds => exact ⟨d, ds, rfl⟩
  have hd : d.isDigit = true := hdig d (List.mem_cons_self _ _)
  have hv0 : (0 : Int) ≤ (digitsValue (d :: ds) : Int) := Int.ofNat_nonneg _
  unfold tokenValue
  rcases hsign with hs | hs | hs
  · subst hs
    rw [List.nil_append, List.takeWhile_append_of_pos (fun a ha => isDigit_ne_slash (hdig a ha))]
    have hne0 : ¬ (([] : List Char) = ['-']) := by decide
    simp only [hne0, if_false] at hrange
    have hbody : ((d :: ds) ++ rest.takeWhile (fun c => c != '/')).dropWhile isspace =
        d :: (ds ++ rest.takeWhile (fun c => c != '/')) := by
      rw [List.cons_append, List.dropWhile_cons_of_neg (isDigit_not_isspace hd)]
    have hsg := isDigit_ne_sign hd
    refine ⟨(digitsValue (d :: ds) : Int), ?_⟩
    have hm : ∀ X : List Char,
        (match d :: X with
          | '-' :: r => (true, r)
          | '+' :: r => (false, r)
          | r => (false, r)) = (false, d :: X) := by
      intro X
      split
      · rename_i heq
        injection heq with h1 _
        exact absurd h1 hsg.1
      · rename_i heq
        injection heq with h1 _
        exact absurd h1 hsg.2
      · rfl
    unfold stoi
    rw [hbody]
    simp only [hm]
    rw [← List.cons_append, htake]
    simp only [List.isEmpty_cons, Bool.false_eq_true, if_false]
    unfold intResult
    rw [if_pos ⟨by omega, by omega⟩]
  · subst hs
    have hall : ∀ a ∈ ['-'] ++ (d :: ds), (a != '/') = true := by
      intro a ha
      rcases List.mem_append.mp ha with h1 | h1
      · rw [List.mem_singleton.mp h1]
        decide
      · exact isDigit_ne_slash (hdig a h1)
    rw [← List.append_assoc, List.takeWhile_append_of_pos hall]
    simp only [if_true] at hrange
    have hbody : ((['-'] ++ (d :: ds)) ++ rest.takeWhile (fun c => c != '/')).dropWhile isspace =
        '-' :: ((d :: ds) ++ rest.takeWhile (fun c => c != '/')) := by
      rw [List.append_assoc, List.singleton_append,
        List.dropWhile_cons_of_neg (by decide)]
    refine ⟨-(digitsValue (d :: ds) : Int), ?_⟩
    unfold stoi
    rw [hbody]
    simp only
    rw [htake]
    simp only [List.isEmpty_cons, Bool.false_eq_true, if_false, if_true]
    unfold intResult
    rw [if_pos ⟨by omega, by omega⟩]
  · subst hs
    have hall : ∀ a ∈ ['+'] ++ (d :: ds), (a != '/') = true := by
      intro a ha
      rcases List.mem_append.mp ha with h1 | h1
      · rw [List.mem_singleton.mp h1]
        decide
      · exact isDigit_ne_slash (hdig a h1)
    rw [← List.append_assoc, List.takeWhile_append_of_pos hall]
    have hne2 : ¬ (['+'] = ['-']) := by decide
    simp only [hne2, if_false] at hrange
    have hbody : ((['+'] ++ (d :: ds)) ++ rest.takeWhile (fun c => c != '/')).dropWhile isspace =
        '+' :: ((d :: ds) ++ rest.takeWhile (fun c => c != '/')) := by
      rw [List.append_assoc, List.singleton_append,
        List.dropWhile_cons_of_neg (by decide)]
    refine ⟨(digitsValue (d :: ds) : Int), ?_⟩
    unfold stoi
    rw [hbody]
    simp only
    rw [htake]
    simp only [List.isEmpty_cons, Bool.false_eq_true, if_false]
    unfold intResult
    rw [if_pos ⟨by omega, by omega⟩]

/-! ## C4: index tokens that are no integers -/

/-- C4, as stated, fails: the index tokens `a` and `/1` make `std::stoi` throw
`std::invalid_argument` and the token `99999999999` makes it throw
`std::out_of_range`; `loadObj` catches neither. -/
theorem loadObj_stoi_exception :
    loadObj originReader (some "v 0 0 0\nf a b c".toList) cubeGlobals =
      .error .invalidArgument ∧
    loadObj originReader (some "v 0 0 0\nf /1 2 3".toList) cubeGlobals =
      .error .invalidArgument ∧
    loadObj originReader (some "v 0 0 0\nf 1 2 99999999999".toList) cubeGlobals =
      .error .outOfRange :=
  ⟨rfl, rfl, rfl⟩

/-- C4, amended: on a file in which every index token of every `f` and `l` line
starts with an integer that fits in an `int` (an optional sign and decimal
digits, whatever follows them), `loadObj` raises neither of the two exceptions of
`std::stoi`. -/
theorem loadObj_no_stoi_exception (rv : List (List Char) → Point3D ℚ) (content : List Char)
    (g : Globals) (h : IndexTokensInteger (getlines content)) :
    loadObj rv (some content) g ≠ .error .invalidArgument ∧
      loadObj rv (some content) g ≠ .error .outOfRange := by
  have hnum : IndexTokensNumeric (getlines content) :=
    fun line hline tok htok => tokenValue_of_integerToken (h line hline tok htok)
  have key : ∀ e, loadObj rv (some content) g = .error e → e = .indexOutOfBounds := by
    intro e he
    cases hp : parseLines rv initialState (getlines content) with
    | error e1 =>
      rw [loadObj_some, hp] at he
      have e2 : e1 = e := by injection he
      subst e2
      exact parseLines_error rv _ _ _ hnum hp
    | ok st =>
      rcases loadObj_of_parse g hp with ⟨_, h1⟩ | ⟨_, _, h1⟩ | ⟨_, _, es, _, h1⟩ <;>
        (rw [h1] at he; cases he)
  constructor
  · intro he
    cases key _ he
  · intro he
    cases key _ he

/-- C4, amended, at a file whose index tokens carry `/` suffixes and a sign: the
tokens `1/2`, `-1` and `1//4` start with the integers 1, -1 and 1. -/
theorem loadObj_no_stoi_exception_witness :
    IndexTokensInteger (getlines "v 0 0 0\nf 1/2 -1 1//4".toList) ∧
    loadObj originReader (some "v 0 0 0\nf 1/2 -1 1//4".toList) cubeGlobals ≠
        .error .invalidArgument ∧
      loadObj originReader (some "v 0 0 0\nf 1/2 -1 1//4".toList) cubeGlobals ≠
        .error .outOfRange := by
  have hI : IndexTokensInteger (getlines "v 0 0 0\nf 1/2 -1 1//4".toList) := by
    have hl : getlines "v 0 0 0\nf 1/2 -1 1//4".toList =
        ["v 0 0 0".toList, "f 1/2 -1 1//4".toList] := rfl
    have l1 : indexTokens "v 0 0 0".toList = [] := rfl
    have l2 : indexTokens "f 1/2 -1 1//4".toList =
        [['1', '/', '2'], ['-', '1'], ['1', '/', '/', '4']] := rfl
    rw [hl]
    intro line hline tok htok
    rcases List.mem_cons.mp hline with e | hline
    · subst e
      rw [l1] at htok
      cases htok
    · rcases List.mem_cons.mp hline with e | hline
      · subst e
        rw [l2] at htok
        simp only [List.mem_cons, List.mem_singleton, List.not_mem_nil, or_false] at htok
        rcases htok with e | e | e
        · subst e
          exact ⟨[], ['1'], ['/', '2'], rfl, Or.inl rfl, by simp, by decide, by simp,
            by decide⟩
        · subst e
          exact ⟨['-'], ['1'], [], rfl, Or.inr (Or.inl rfl), by simp, by decide, by simp,
            by decide⟩
        · subst e
          exact ⟨[], ['1'], ['/', '/', '4'], rfl, Or.inl rfl, by simp, by decide, by simp,
            by decide⟩
      · cases hline
  exact ⟨hI, loadObj_no_stoi_exception originReader "v 0 0 0\nf 1/2 -1 1//4".toList
    cubeGlobals hI⟩

/-! ## C5: the edges derived from the faces -/

/-- C5: when the parse of a file ends with a vertex and without an edge from an `l`
line, `loadObj` succeeds and its edge list is the result of the loop over the
parsed faces; the list has no edge twice, every edge has its smaller index first,
and `(a, b)` is in it exactly when `a <= b` and some parsed face (each has three
or more indices) holds `a` and `b` at cyclically adjacent positions, in either
order. -/
theorem loadObj_edges_from_faces (rv : List (List Char) → Point3D ℚ) (content : List Char)
    (g : Globals) (st : LoadState)
    (hp : parseLines rv initialState (getlines content) = .ok st)
    (hv : st.model_vertices ≠ []) (he : st.model_edges = []) :
    ∃ es, edgesFromFaces st.faces = .ok es ∧
      loadObj rv (some content) g = .ok (true, ⟨normalize st.model_vertices, es⟩) ∧
      es.Nodup ∧ (∀ e ∈ es, e.1 ≤ e.2) ∧
      (∀ face ∈ st.faces, 3 ≤ face.length) ∧
      ∀ a b, (a, b) ∈ es ↔ a ≤ b ∧ ∃ face ∈ st.faces, AdjacentIn face a b := by
  obtain ⟨es, h1, _, h3, h4⟩ := edgesFromFaces_spec st.faces
  have h5 : loadObj rv (some content) g = .ok (true, ⟨normalize st.model_vertices, es⟩) := by
    rcases loadObj_of_parse g hp with ⟨k, _⟩ | ⟨_, k, _⟩ | ⟨_, _, es2, k1, k2⟩
    · exact absurd k hv
    · exact absurd he k
    · rw [h1] at k1
      injection k1 with k1
      subst k1
      exact k2
  refine ⟨es, h1, h5, h3, ?_, ?_, h4⟩
  · intro e hmem
    obtain ⟨a, b⟩ := e
    exact ((h4 a b).mp hmem).1
  · intro face hface
    rcases (parseLines_ok rv _ _ _ hp).2.2 face hface with k | k
    · simp [initialState] at k
    · exact k

/-- C5 at a file of two triangles that share the edge `(0, 2)`. -/
theorem loadObj_edges_from_faces_witness :
    ∃ es, edgesFromFaces [[0, 1, 2], [0, 2, 3]] = .ok es ∧
      loadObj originReader (some "v 0 0 0\nv 1 0 0\nv 1 1 0\nv 0 1 0\nf 1 2 3\nf 1 3 4".toList)
          cubeGlobals =
        .ok (true, ⟨normalize [⟨0, 0, 0⟩, ⟨0, 0, 0⟩, ⟨0, 0, 0⟩, ⟨0, 0, 0⟩], es⟩) ∧
      es.Nodup ∧ (∀ e ∈ es, e.1 ≤ e.2) ∧
      (∀ face ∈ ([[0, 1, 2], [0, 2, 3]] : List (List Int)), 3 ≤ face.length) ∧
      ∀ a b, (a, b) ∈ es ↔ a ≤ b ∧ ∃ face ∈ ([[0, 1, 2], [0, 2, 3]] : List (List Int)),
        AdjacentIn face a b := by
  have h := loadObj_edges_from_faces originReader
    "v 0 0 0\nv 1 0 0\nv 1 1 0\nv 0 1 0\nf 1 2 3\nf 1 3 4".toList cubeGlobals
    ⟨[⟨0, 0, 0⟩, ⟨0, 0, 0⟩, ⟨0, 0, 0⟩, ⟨0, 0, 0⟩], [], [[0, 1, 2], [0, 2, 3]]⟩ rfl
    (by simp) rfl
  exact h

/-! ## C6: one triangle, in every order of its indices -/

/-- C6: a file of three vertices and one triangular face over the indices 1, 2, 3,
in each of the six orders, is loaded with exactly the three edges `(0,1)`, `(0,2)`,
`(1,2)`, whatever the coordinates read for the vertices. -/
theorem loadObj_triangle (rv : List (List Char) → Point3D ℚ) (g : Globals) :
    (loadObj rv (some "v 0 0 0\nv 1 0 0\nv 0 1 0\nf 1 2 3".toList) g).map
        (fun r => (r.1, r.2.model_edges)) = .ok (true, [(0, 1), (0, 2), (1, 2)]) ∧
    (loadObj rv (some "v 0 0 0\nv 1 0 0\nv 0 1 0\nf 1 3 2".toList) g).map
        (fun r => (r.1, r.2.model_edges)) = .ok (true, [(0, 1), (0, 2), (1, 2)]) ∧
    (loadObj rv (some "v 0 0 0\nv 1 0 0\nv 0 1 0\nf 2 1 3".toList) g).map
        (fun r => (r.1, r.2.model_edges)) = .ok (true, [(0, 1), (0, 2), (1, 2)]) ∧
    (loadObj rv (some "v 0 0 0\nv 1 0 0\nv 0 1 0\nf 2 3 1".toList) g).map
        (fun r => (r.1, r.2.model_edges)) = .ok (true, [(0, 1), (0, 2), (1, 2)]) ∧
    (loadObj rv (some "v 0 0 0\nv 1 0 0\nv 0 1 0\nf 3 1 2".toList) g).map
        (fun r => (r.1, r.2.model_edges)) = .ok (true, [(0, 1), (0, 2), (1, 2)]) ∧
    (loadObj rv (some "v 0 0 0\nv 1 0 0\nv 0 1 0\nf 3 2 1".toList) g).map
        (fun r => (r.1, r.2.model_edges)) = .ok (true, [(0, 1), (0, 2), (1, 2)]) ∧
    ([(0, 1), (0, 2), (1, 2)] : List Edge).Nodup ∧
    ∀ e ∈ ([(0, 1), (0, 2), (1, 2)] : List Edge), e.1 ≠ e.2 := by
  refine ⟨rfl, rfl, rfl, rfl, rfl, rfl, by decide, by decide⟩

/-! ## C7: files with `l` lines -/

/-- C7, as stated, fails: in the file below the only `l` line carries one index, so
the `l` directives state no edge, and yet the loaded model has the three edges of
the face `f 1 2 3`. -/
theorem loadObj_single_index_directive :
    isLineDirective "l 1".toList = true ∧
    directiveEdges 0 (getlines "v 0 0 0\nv 1 0 0\nv 0 1 0\nl 1\nf 1 2 3".toList) = [] ∧
    (loadObj originReader (some "v 0 0 0\nv 1 0 0\nv 0 1 0\nl 1\nf 1 2 3".toList)
        cubeGlobals).map (fun r => (r.1, r.2.model_edges)) =
      .ok (true, [(0, 1), (0, 2), (1, 2)]) :=
  ⟨rfl, rfl, rfl⟩

/-- C7, amended: when `loadObj` succeeds on a file whose `l` directives state at
least one edge, `model_edges` is exactly the sequence of the consecutive index
pairs of the `l` directives, in the order of the file, and no face contributes;
when they state none, `model_edges` is the list derived from the parsed faces. -/
theorem loadObj_directive_edges (rv : List (List Char) → Point3D ℚ) (content : List Char)
    (g g1 : Globals) (h : loadObj rv (some content) g = .ok (true, g1)) :
    ∃ st, parseLines rv initialState (getlines content) = .ok st ∧
      (directiveEdges 0 (getlines content) ≠ [] →
        g1.model_edges = directiveEdges 0 (getlines content)) ∧
      (directiveEdges 0 (getlines content) = [] →
        edgesFromFaces st.faces = .ok g1.model_edges) := by
  cases hp : parseLines rv initialState (getlines content) with
  | error e =>
    rw [loadObj_some, hp] at h
    cases h
  | ok st =>
    have hd := (parseLines_ok rv _ _ _ hp).2.1
    simp only [initialState, List.nil_append, List.length_nil] at hd
    refine ⟨st, rfl, ?_⟩
    rcases loadObj_of_parse g hp with ⟨_, h1⟩ | ⟨_, hne, h1⟩ | ⟨_, hnil, es, hes, h1⟩
    · rw [h1] at h
      cases h
    · rw [h1] at h
      injection h with h
      injection h with _ h
      subst h
      exact ⟨fun _ => hd, fun k => absurd (hd.trans k) hne⟩
    · rw [h1] at h
      injection h with h
      injection h with _ h
      subst h
      exact ⟨fun k => absurd (hd.symm.trans hnil) k, fun _ => hes⟩

/-- C7, amended, at a file with a face and a polyline of three indices: the two
edges of the polyline are the edges of the model. -/
theorem loadObj_directive_edges_witness :
    loadObj originReader (some "v 0 0 0\nv 1 0 0\nv 0 1 0\nf 1 2 3\nl 1 2 -1".toList)
        cubeGlobals =
      .ok (true, ⟨normalize [⟨0, 0, 0⟩, ⟨0, 0, 0⟩, ⟨0, 0, 0⟩], [(0, 1), (1, 2)]⟩) ∧
    ([(0, 1), (1, 2)] : List Edge) =
      directiveEdges 0 (getlines "v 0 0 0\nv 1 0 0\nv 0 1 0\nf 1 2 3\nl 1 2 -1".toList) := by
  have hload : loadObj originReader
      (some "v 0 0 0\nv 1 0 0\nv 0 1 0\nf 1 2 3\nl 1 2 -1".toList) cubeGlobals =
      .ok (true, ⟨normalize [⟨0, 0, 0⟩, ⟨0, 0, 0⟩, ⟨0, 0, 0⟩], [(0, 1), (1, 2)]⟩) := rfl
  obtain ⟨_, _, h1, _⟩ := loadObj_directive_edges originReader
    "v 0 0 0\nv 1 0 0\nv 0 1 0\nf 1 2 3\nl 1 2 -1".toList cubeGlobals _ hload
  have hne : directiveEdges 0
      (getlines "v 0 0 0\nv 1 0 0\nv 0 1 0\nf 1 2 3\nl 1 2 -1".toList) ≠ [] := by
    rw [show directiveEdges 0
      (getlines "v 0 0 0\nv 1 0 0\nv 0 1 0\nf 1 2 3\nl 1 2 -1".toList) =
      [(0, 1), (1, 2)] from rfl]
    simp
  exact ⟨hload, h1 hne⟩

/-! ## C8: the vertex index stored for an index token -/

/-- C8, as stated, fails at one value: the token `-2147483648` reads as
`k = -2^31`, the `int` subtraction `k - 1` of the source wraps around to `2^31 - 1`,
which is not negative, and `2147483647` is stored where the claim has `n + k`. -/
theorem storedIndex_at_int_min :
    tokenValue "-2147483648".toList = .ok (-2147483648) ∧
    storedIndex 3 "-2147483648".toList = .ok 2147483647 ∧
    (3 : Int) + -2147483648 ≠ 2147483647 := by
  refine ⟨rfl, rfl, by decide⟩

/-- C8, amended: an index token whose part `s` before any `/` reads as the integer
`k`, parsed when `n` vertices have been read (`n` below `2^31`), is stored as
`k - 1` when `k >= 1` and as `n + k` when `-2^31 < k <= -1`, with or without a
`/...` suffix.  The count `n` is the one at the line: in the file of the last part
the face `f -1 -2 -1` follows two of the three `v` lines and its edges are those of
the indices `1, 0, 1`. -/
theorem storedIndex_spec :
    (∀ (n : Nat) (s suffix : List Char) (k : Int), '/' ∉ s → stoi s = .ok k →
      n < 2147483648 →
      (1 ≤ k → storedIndex n s = .ok (k - 1) ∧
        storedIndex n (s ++ '/' :: suffix) = .ok (k - 1)) ∧
      (k ≤ -1 → INT_MIN < k → storedIndex n s = .ok ((n : Int) + k) ∧
        storedIndex n (s ++ '/' :: suffix) = .ok ((n : Int) + k))) ∧
    (loadObj originReader (some "v 0 0 0\nv 1 0 0\nf -1 -2 -1\nv 0 1 0".toList)
        cubeGlobals).map (fun r => (r.1, r.2.model_vertices.length, r.2.model_edges)) =
      .ok (true, 3, [(0, 1), (1, 1)]) := by
  refine ⟨?_, rfl⟩
  intro n s suffix k hs hk hn
  have h1 : tokenValue s = .ok k := by
    unfold tokenValue
    have e : s.takeWhile (fun c => c != '/') = s := by
      rw [List.takeWhile_eq_self_iff]
      intro c hc
      have : c ≠ '/' := fun h => hs (h ▸ hc)
      simpa using this
    rw [e]
    exact hk
  have h2 : tokenValue (s ++ '/' :: suffix) = .ok k := by
    rw [tokenValue_suffix s suffix hs]
    exact h1
  constructor
  · intro hpos
    exact ⟨storedIndex_of_positive h1 hpos, storedIndex_of_positive h2 hpos⟩
  · intro hneg hlow
    exact ⟨storedIndex_of_nonpositive h1 (by omega) hlow hn,
      storedIndex_of_nonpositive h2 (by omega) hlow hn⟩

/-- C8, amended, at the tokens `-2` and `-2/7/1` with five vertices read, and at
`3` and `3/7/1`. -/
theorem storedIndex_spec_witness :
    (storedIndex 5 ['-', '2'] = .ok 3 ∧ storedIndex 5 ['-', '2', '/', '7', '/', '1'] = .ok 3) ∧
    (storedIndex 5 ['3'] = .ok 2 ∧ storedIndex 5 ['3', '/', '7', '/', '1'] = .ok 2) :=
  ⟨(storedIndex_spec.1 5 ['-', '2'] ['7', '/', '1'] (-2) (by decide) rfl (by decide)).2
      (by decide) (by decide),
    (storedIndex_spec.1 5 ['3'] ['7', '/', '1'] 3 (by decide) rfl (by decide)).1 (by decide)⟩

/-! ## C9: bounding-box normalisation -/

theorem foldMin_le (cs : List ℚ) :
    ∀ init : ℚ, foldMin init cs ≤ init ∧ ∀ c ∈ cs, foldMin init cs ≤ c := by
  induction cs with
  | nil => intro init; exact ⟨le_refl _, fun c hc => by cases hc⟩
  | cons a rest ih =>
    intro init
    have h := ih (min init a)
    have e : foldMin init (a :: rest) = foldMin (min init a) rest := rfl
    rw [e]
    refine ⟨le_trans h.1 (min_le_left _ _), ?_⟩
    intro c hc
    rcases List.mem_cons.mp hc with hc | hc
    · subst hc
      exact le_trans h.1 (min_le_right _ _)
    · exact h.2 c hc

theorem le_foldMax (cs : List ℚ) :
    ∀ init : ℚ, init ≤ foldMax init cs ∧ ∀ c ∈ cs, c ≤ foldMax init cs := by
  induction cs with
  | nil => intro init; exact ⟨le_refl _, fun c hc => by cases hc⟩
  | cons a rest ih =>
    intro init
    have h := ih (max init a)
    have e : foldMax init (a :: rest) = foldMax (max init a) rest := rfl
    rw [e]
    refine ⟨le_trans (le_max_left _ _) h.1, ?_⟩
    intro c hc
    rcases List.mem_cons.mp hc with hc | hc
    · subst hc
      exact le_trans (le_max_right _ _) h.1
    · exact h.2 c hc

theorem foldMin_map (f : ℚ → ℚ) (hf : Monotone f) (cs : List ℚ) :
    ∀ init : ℚ, foldMin (f init) (cs.map f) = f (foldMin init cs) := by
  induction cs with
  | nil => intro init; rfl
  | cons a rest ih =>
    intro init
    have e1 : foldMin (f init) ((a :: rest).map f) = foldMin (min (f init) (f a)) (rest.map f) :=
      rfl
    have e2 : foldMin init (a :: rest) = foldMin (min init a) rest := rfl
    rw [e1, e2, ← hf.map_min, ih]

theorem foldMax_map (f : ℚ → ℚ) (hf : Monotone f) (cs : List ℚ) :
    ∀ init : ℚ, foldMax (f init) (cs.map f) = f (foldMax init cs) := by
  induction cs with
  | nil => intro init; rfl
  | cons a rest ih =>
    intro init
    have e1 : foldMax (f init) ((a :: rest).map f) = foldMax (max (f init) (f a)) (rest.map f) :=
      rfl
    have e2 : foldMax init (a :: rest) = foldMax (max init a) rest := rfl
    rw [e1, e2, ← hf.map_max, ih]

theorem axisBounds_map (f : ℚ → ℚ) (hf : Monotone f) (cs : List ℚ) (hne : cs ≠ []) :
    axisBounds (cs.map f) = (f (axisBounds cs).1, f (axisBounds cs).2) := by
  cases cs with
  | nil => exact absurd rfl hne
  | cons a rest =>
    unfold axisBounds
    have e : ((a :: rest).map f).headD 0 = f ((a :: rest).headD 0) := rfl
    rw [e, foldMin_map f hf, foldMax_map f hf]

theorem axisBounds_le (cs : List ℚ) :
    (axisBounds cs).1 ≤ (axisBounds cs).2 ∧
      ∀ c ∈ cs, (axisBounds cs).1 ≤ c ∧ c ≤ (axisBounds cs).2 := by
  unfold axisBounds
  refine ⟨le_trans (foldMin_le cs _).1 (le_foldMax cs _).1, ?_⟩
  intro c hc
  exact ⟨(foldMin_le cs _).2 c hc, (le_foldMax cs _).2 c hc⟩

theorem maxSize_nonneg (vs : List (Point3D ℚ)) : 0 ≤ maxSize vs := by
  unfold maxSize
  have h := (axisBounds_le (vs.map Point3D.x)).1
  exact le_trans (sub_nonneg.mpr h) (le_trans (le_max_left _ _) (le_max_left _ _))

theorem shift_scale_monotone (m s : ℚ) (hs : 0 ≤ s) : Monotone (fun c : ℚ => (c - m) * s) := by
  intro a b hab
  exact mul_le_mul_of_nonneg_right (sub_le_sub_right hab m) hs

theorem map_coord_normalize (vs : List (Point3D ℚ)) (hne : vs ≠ []) :
    (normalize vs).map Point3D.x =
        (vs.map Point3D.x).map (fun c => (c - (center vs).x) * normScale vs) ∧
      (normalize vs).map Point3D.y =
        (vs.map Point3D.y).map (fun c => (c - (center vs).y) * normScale vs) ∧
      (normalize vs).map Point3D.z =
        (vs.map Point3D.z).map (fun c => (c - (center vs).z) * normScale vs) := by
  unfold normalize
  have h : ¬ vs.isEmpty = true := by simpa using hne
  rw [if_neg h]
  simp [List.map_map, Function.comp_def]

theorem normScale_of_pos (vs : List (Point3D ℚ)) (h : 0 < maxSize vs) :
    normScale vs = 4 / maxSize vs := by
  unfold normScale
  rw [if_pos h]
  ring

theorem normScale_of_not_pos (vs : List (Point3D ℚ)) (h : ¬ 0 < maxSize vs) :
    normScale vs = 2 := by
  unfold normScale
  rw [if_neg h]
  norm_num

theorem foldMin_const (c0 : ℚ) (cs : List ℚ) (h : ∀ c ∈ cs, c = c0) : foldMin c0 cs = c0 := by
  induction cs with
  | nil => rfl
  | cons a rest ih =>
    have e : foldMin c0 (a :: rest) = foldMin (min c0 a) rest := rfl
    rw [e, h a (List.mem_cons_self _ _), min_self]
    exact ih (fun c hc => h c (List.mem_cons_of_mem _ hc))

theorem foldMax_const (c0 : ℚ) (cs : List ℚ) (h : ∀ c ∈ cs, c = c0) : foldMax c0 cs = c0 := by
  induction cs with
  | nil => rfl
  | cons a rest ih =>
    have e : foldMax c0 (a :: rest) = foldMax (max c0 a) rest := rfl
    rw [e, h a (List.mem_cons_self _ _), max_self]
    exact ih (fun c hc => h c (List.mem_cons_of_mem _ hc))

theorem axisBounds_const (cs : List ℚ) (h : ∀ c ∈ cs, ∀ d ∈ cs, c = d) :
    (axisBounds cs).2 - (axisBounds cs).1 = 0 := by
  cases cs with
  | nil => simp [axisBounds, foldMin, foldMax]
  | cons a rest =>
    have hall : ∀ c ∈ a :: rest, c = a := fun c hc => h c hc a (List.mem_cons_self _ _)
    unfold axisBounds
    simp only [List.headD_cons]
    rw [foldMin_const a _ hall, foldMax_const a _ hall, sub_self]

theorem maxSize_of_coincide (vs : List (Point3D ℚ)) (h : ∀ v ∈ vs, ∀ w ∈ vs, v = w) :
    maxSize vs = 0 := by
  have hc : ∀ f : (Point3D ℚ) → ℚ, ∀ c ∈ vs.map f, ∀ d ∈ vs.map f, c = d := by
    intro f c hc d hd
    obtain ⟨v, hv, e1⟩ := List.mem_map.mp hc
    obtain ⟨w, hw, e2⟩ := List.mem_map.mp hd
    rw [← e1, ← e2, h v hv w hw]
  unfold maxSize
  simp only
  rw [axisBounds_const _ (hc Point3D.x), axisBounds_const _ (hc Point3D.y),
    axisBounds_const _ (hc Point3D.z)]
  simp

/-- C9: for a non-empty vertex list with a positive largest extent the normalised
list has a bounding box centred at the origin (`min + max = 0` on each axis) and a
largest extent of exactly 4, the scale being `4 / max_size`; the largest extent is
not positive exactly when all vertices coincide, and then the guard takes the
scale 2 without any division and every vertex is mapped to the origin. -/
theorem normalize_spec (vs : List (Point3D ℚ)) (hne : vs ≠ []) :
    (0 < maxSize vs →
      normScale vs = 4 / maxSize vs ∧
      (axisBounds ((normalize vs).map Point3D.x)).1 +
        (axisBounds ((normalize vs).map Point3D.x)).2 = 0 ∧
      (axisBounds ((normalize vs).map Point3D.y)).1 +
        (axisBounds ((normalize vs).map Point3D.y)).2 = 0 ∧
      (axisBounds ((normalize vs).map Point3D.z)).1 +
        (axisBounds ((normalize vs).map Point3D.z)).2 = 0 ∧
      maxSize (normalize vs) = 4) ∧
    ((¬ 0 < maxSize vs) ↔ ∀ v ∈ vs, ∀ w ∈ vs, v = w) ∧
    (¬ 0 < maxSize vs →
      normScale vs = 2 ∧ ∀ w ∈ normalize vs, w = ⟨0, 0, 0⟩) := by
  obtain ⟨mx, mY, mz⟩ := map_coord_normalize vs hne
  have nx : vs.map Point3D.x ≠ [] := by simpa using hne
  have nY : vs.map Point3D.y ≠ [] := by simpa using hne
  have nz : vs.map Point3D.z ≠ [] := by simpa using hne
  constructor
  · intro hpos
    have hs : normScale vs = 4 / maxSize vs := normScale_of_pos vs hpos
    have hs0 : 0 ≤ normScale vs := by
      rw [hs]
      exact div_nonneg (by norm_num) (le_of_lt hpos)
    have bx := axisBounds_map _ (shift_scale_monotone (center vs).x _ hs0) _ nx
    have bY := axisBounds_map _ (shift_scale_monotone (center vs).y _ hs0) _ nY
    have bz := axisBounds_map _ (shift_scale_monotone (center vs).z _ hs0) _ nz
    have cx : (center vs).x =
        ((axisBounds (vs.map Point3D.x)).1 + (axisBounds (vs.map Point3D.x)).2) / 2 := rfl
    have cY : (center vs).y =
        ((axisBounds (vs.map Point3D.y)).1 + (axisBounds (vs.map Point3D.y)).2) / 2 := rfl
    have cz : (center vs).z =
        ((axisBounds (vs.map Point3D.z)).1 + (axisBounds (vs.map Point3D.z)).2) / 2 := rfl
    refine ⟨hs, ?_, ?_, ?_, ?_⟩
    · rw [mx, bx]
      simp only
      rw [cx]
      ring
    · rw [mY, bY]
      simp only
      rw [cY]
      ring
    · rw [mz, bz]
      simp only
      rw [cz]
      ring
    · have e : maxSize (normalize vs) = maxSize vs * normScale vs := by
        have e1 : maxSize (normalize vs) =
            max (max
              ((axisBounds ((normalize vs).map Point3D.x)).2 -
                (axisBounds ((normalize vs).map Point3D.x)).1)
              ((axisBounds ((normalize vs).map Point3D.y)).2 -
                (axisBounds ((normalize vs).map Point3D.y)).1))
              ((axisBounds ((normalize vs).map Point3D.z)).2 -
                (axisBounds ((normalize vs).map Point3D.z)).1) := rfl
        have e2 : maxSize vs =
            max (max
              ((axisBounds (vs.map Point3D.x)).2 - (axisBounds (vs.map Point3D.x)).1)
              ((axisBounds (vs.map Point3D.y)).2 - (axisBounds (vs.map Point3D.y)).1))
              ((axisBounds (vs.map Point3D.z)).2 - (axisBounds (vs.map Point3D.z)).1) := rfl
        rw [e1, mx, mY, mz, bx, bY, bz]
        simp only
        rw [e2, max_mul_of_nonneg _ _ hs0, max_mul_of_nonneg _ _ hs0]
        congr 1
        · congr 1 <;> ring
        · ring
      rw [e, hs]
      field_simp
  have degenerate : ¬ 0 < maxSize vs →
      normScale vs = 2 ∧ (∀ v ∈ vs, ∀ w ∈ vs, v = w) ∧
        ∀ w ∈ normalize vs, w = ⟨0, 0, 0⟩ := by
    intro hnp
    have h0 : maxSize vs = 0 := le_antisymm (not_lt.mp hnp) (maxSize_nonneg vs)
    have e2 : maxSize vs =
        max (max
          ((axisBounds (vs.map Point3D.x)).2 - (axisBounds (vs.map Point3D.x)).1)
          ((axisBounds (vs.map Point3D.y)).2 - (axisBounds (vs.map Point3D.y)).1))
          ((axisBounds (vs.map Point3D.z)).2 - (axisBounds (vs.map Point3D.z)).1) := rfl
    have lx := axisBounds_le (vs.map Point3D.x)
    have lY := axisBounds_le (vs.map Point3D.y)
    have lz := axisBounds_le (vs.map Point3D.z)
    have hx : (axisBounds (vs.map Point3D.x)).2 - (axisBounds (vs.map Point3D.x)).1 ≤ 0 := by
      rw [← h0, e2]
      exact le_trans (le_max_left _ _) (le_max_left _ _)
    have hY : (axisBounds (vs.map Point3D.y)).2 - (axisBounds (vs.map Point3D.y)).1 ≤ 0 := by
      rw [← h0, e2]
      exact le_trans (le_max_right _ _) (le_max_left _ _)
    have hz : (axisBounds (vs.map Point3D.z)).2 - (axisBounds (vs.map Point3D.z)).1 ≤ 0 := by
      rw [← h0, e2]
      exact le_max_right _ _
    have coord : ∀ v ∈ vs,
        v.x = (axisBounds (vs.map Point3D.x)).1 ∧ v.x = (axisBounds (vs.map Point3D.x)).2 ∧
        v.y = (axisBounds (vs.map Point3D.y)).1 ∧ v.y = (axisBounds (vs.map Point3D.y)).2 ∧
        v.z = (axisBounds (vs.map Point3D.z)).1 ∧ v.z = (axisBounds (vs.map Point3D.z)).2 := by
      intro v hv
      have px := lx.2 v.x (List.mem_map_of_mem _ hv)
      have pY := lY.2 v.y (List.mem_map_of_mem _ hv)
      have pz := lz.2 v.z (List.mem_map_of_mem _ hv)
      refine ⟨?_, ?_, ?_, ?_, ?_, ?_⟩ <;> linarith [px.1, px.2, pY.1, pY.2, pz.1, pz.2]
    refine ⟨normScale_of_not_pos vs hnp, ?_, ?_⟩
    · intro v hv w hw
      have pv := coord v hv
      have pw := coord w hw
      cases v
      cases w
      simp only [Point3D.mk.injEq]
      simp only at pv pw
      exact ⟨by rw [pv.1, pw.1], by rw [pv.2.2.1, pw.2.2.1], by rw [pv.2.2.2.2.1, pw.2.2.2.2.1]⟩
    · intro w hw
      unfold normalize at hw
      have h : ¬ vs.isEmpty = true := by simpa using hne
      rw [if_neg h] at hw
      obtain ⟨v, hv, e⟩ := List.mem_map.mp hw
      have pv := coord v hv
      have cx : (center vs).x =
          ((axisBounds (vs.map Point3D.x)).1 + (axisBounds (vs.map Point3D.x)).2) / 2 := rfl
      have cY : (center vs).y =
          ((axisBounds (vs.map Point3D.y)).1 + (axisBounds (vs.map Point3D.y)).2) / 2 := rfl
      have cz : (center vs).z =
          ((axisBounds (vs.map Point3D.z)).1 + (axisBounds (vs.map Point3D.z)).2) / 2 := rfl
      rw [← e]
      have zx : v.x - (center vs).x = 0 := by rw [cx]; linarith [pv.1, pv.2.1]
      have zY : v.y - (center vs).y = 0 := by rw [cY]; linarith [pv.2.2.1, pv.2.2.2.1]
      have zz : v.z - (center vs).z = 0 := by rw [cz]; linarith [pv.2.2.2.2.1, pv.2.2.2.2.2]
      rw [zx, zY, zz]
      simp
  refine ⟨⟨fun hnp => (degenerate hnp).2.1, fun hco => ?_⟩,
    fun hnp => ⟨(degenerate hnp).1, (degenerate hnp).2.2⟩⟩
  rw [maxSize_of_coincide vs hco]
  exact lt_irrefl 0

/-- C9 at two vertices that span `[-5, 5]` on the x axis: the normalised vertices
span `[-2, 2]` there. -/
theorem normalize_spec_witness :
    normalize [⟨-5, 0, 0⟩, ⟨5, 1, 2⟩] = [⟨-2, -1 / 5, -2 / 5⟩, ⟨2, 1 / 5, 2 / 5⟩] ∧
    (normScale [⟨-5, 0, 0⟩, ⟨5, 1, 2⟩] = 4 / maxSize [⟨-5, 0, 0⟩, ⟨5, 1, 2⟩] ∧
      (axisBounds ((normalize [⟨-5, 0, 0⟩, ⟨5, 1, 2⟩]).map Point3D.x)).1 +
        (axisBounds ((normalize [⟨-5, 0, 0⟩, ⟨5, 1, 2⟩]).map Point3D.x)).2 = 0 ∧
      (axisBounds ((normalize [⟨-5, 0, 0⟩, ⟨5, 1, 2⟩]).map Point3D.y)).1 +
        (axisBounds ((normalize [⟨-5, 0, 0⟩, ⟨5, 1, 2⟩]).map Point3D.y)).2 = 0 ∧
      (axisBounds ((normalize [⟨-5, 0, 0⟩, ⟨5, 1, 2⟩]).map Point3D.z)).1 +
        (axisBounds ((normalize [⟨-5, 0, 0⟩, ⟨5, 1, 2⟩]).map Point3D.z)).2 = 0 ∧
      maxSize (normalize [⟨-5, 0, 0⟩, ⟨5, 1, 2⟩]) = 4) := by
  have hm : maxSize [⟨-5, 0, 0⟩, ⟨5, 1, 2⟩] = 10 := by
    norm_num [maxSize, axisBounds, foldMin, foldMax]
  refine ⟨?_, (normalize_spec [⟨-5, 0, 0⟩, ⟨5, 1, 2⟩] (by simp)).1 (by rw [hm]; norm_num)⟩
  have hs : normScale [⟨-5, 0, 0⟩, ⟨5, 1, 2⟩] = 2 / 5 := by
    unfold normScale
    rw [hm]
    norm_num
  have hc : center [⟨-5, 0, 0⟩, ⟨5, 1, 2⟩] = ⟨0, 1 / 2, 1⟩ := by
    norm_num [center, axisBounds, foldMin, foldMax]
  unfold normalize
  simp only [List.isEmpty_cons, Bool.false_eq_true, if_false, List.map_cons, List.map_nil, hs, hc]
  norm_num

/-! ## The rasteriser -/

/-- The loop over unbounded integers ends: with `rx` steps left along x and `ry`
along y (the error term being the one these distances give), the end point is
reached within `rx + ry + 1` iterations. -/
theorem linePoints_terminates (p2 : Point2d) (dx dy sx sy : Int) (hdx : 0 ≤ dx)
    (hdy : dy ≤ 0) :
    ∀ (fuel : Nat) (rx ry x y err : Int), 0 ≤ rx → rx ≤ dx → 0 ≤ ry → ry ≤ -dy →
      x = p2.x - sx * rx → y = p2.y - sy * ry → err = dx + dy - rx * dy - ry * dx →
      rx + ry < (fuel : Int) →
      ∃ pts, linePoints p2 dx dy sx sy fuel x y err = some pts := by
  intro fuel
  induction fuel with
  | zero =>
    intro rx ry x y err h1 _ h3 _ _ _ _ hf
    simp only [Nat.cast_zero] at hf
    omega
  | succ fuel ih =>
    intro rx ry x y err h1 h2 h3 h4 hx hy herr hf
    unfold linePoints
    by_cases hend : x = p2.x ∧ y = p2.y
    · rw [if_pos hend]
      exact ⟨_, rfl⟩
    · rw [if_neg hend]
      have hnz : rx ≠ 0 ∨ ry ≠ 0 := by
        by_contra hcon
        push_neg at hcon
        apply hend
        rw [hx, hy, hcon.1, hcon.2]
        simp
      have claimA : rx = 0 → ¬ (err * 2 ≥ dy) := by
        intro h0
        have hry : 1 ≤ ry := by omega
        have hp : 0 ≤ (ry - 1) * dx := mul_nonneg (by omega) hdx
        rw [herr, h0]
        nlinarith
      have claimB : ry = 0 → ¬ (err * 2 ≤ dx) := by
        intro h0
        have hrx : 1 ≤ rx := by omega
        have hp : 0 ≤ (rx - 1) * (-dy) := mul_nonneg (by omega) (by omega)
        rw [herr, h0]
        nlinarith
      have hcast : ((fuel + 1 : Nat) : Int) = (fuel : Int) + 1 := by push_cast; ring
      rw [hcast] at hf
      by_cases hsx2 : err * 2 ≥ dy
      · have hrx : 1 ≤ rx := by
          by_contra hcon
          exact claimA (by omega) hsx2
        by_cases hsy2 : err * 2 ≤ dx
        · have hry : 1 ≤ ry := by
            by_contra hcon
            exact claimB (by omega) hsy2
          simp only [hsx2, hsy2, if_true]
          obtain ⟨pts, hpts⟩ := ih (rx - 1) (ry - 1) (x + sx) (y + sy) (err + dy + dx)
            (by omega) (by omega) (by omega) (by omega)
            (by rw [hx]; ring) (by rw [hy]; ring) (by rw [herr]; ring) (by omega)
          exact ⟨_, by rw [hpts]; rfl⟩
        · simp only [hsx2, hsy2, if_true, if_false]
          obtain ⟨pts, hpts⟩ := ih (rx - 1) ry (x + sx) y (err + dy)
            (by omega) (by omega) h3 h4
            (by rw [hx]; ring) hy (by rw [herr]; ring) (by omega)
          exact ⟨_, by rw [hpts]; rfl⟩
      · by_cases hsy2 : err * 2 ≤ dx
        · have hry : 1 ≤ ry := by
            by_contra hcon
            exact claimB (by omega) hsy2
          simp only [hsx2, hsy2, if_true, if_false]
          obtain ⟨pts, hpts⟩ := ih rx (ry - 1) x (y + sy) (err + dx)
            h1 h2 (by omega) (by omega)
            hx (by rw [hy]; ring) (by rw [herr]; ring) (by omega)
          exact ⟨_, by rw [hpts]; rfl⟩
        · exfalso
          omega

theorem visited_some (p1 p2 : Point2d) : ∃ pts, visited p1 p2 = some pts := by
  unfold visited
  refine linePoints_terminates p2 _ _ _ _ (abs_nonneg _) (by simp) (lineFuel p1 p2)
    |p2.x - p1.x| |p2.y - p1.y| p1.x p1.y _ (abs_nonneg _) (le_refl _) (abs_nonneg _) (by simp)
    ?_ ?_ ?_ ?_
  · by_cases h : p1.x < p2.x
    · rw [if_pos h, abs_of_pos (by omega)]
      ring
    · rw [if_neg h, abs_of_nonpos (by omega)]
      ring
  · by_cases h : p1.y < p2.y
    · rw [if_pos h, abs_of_pos (by omega)]
      ring
    · rw [if_neg h, abs_of_nonpos (by omega)]
      ring
  · ring
  · unfold lineFuel
    push_cast
    linarith

/-! ### Cells of a buffer -/

theorem HEIGHT_toNat : HEIGHT.toNat = 40 := rfl

theorem WIDTH_toNat : WIDTH.toNat = 80 := rfl

theorem wellSized_blankScreen : WellSized blankScreen := by
  refine ⟨by simp [blankScreen], ?_⟩
  intro row hrow
  have h := List.eq_of_mem_replicate hrow
  rw [h]
  simp

theorem cellAt_of_wellSized {screen : Screen} (hs : WellSized screen) {a b : Nat}
    (ha : a < WIDTH.toNat) (hb : b < HEIGHT.toNat) :
    ∃ row cur, screen.get? b = some row ∧ row.length = WIDTH.toNat ∧
      row.get? a = some cur ∧ cellAt screen a b = some cur := by
  have hb2 : b < screen.length := by rw [hs.1]; exact hb
  have hrow : screen.get ⟨b, hb2⟩ ∈ screen := List.get_mem _ _ _
  have hlen := hs.2 _ hrow
  have ha2 : a < (screen.get ⟨b, hb2⟩).length := by rw [hlen]; exact ha
  refine ⟨screen.get ⟨b, hb2⟩, (screen.get ⟨b, hb2⟩).get ⟨a, ha2⟩, List.get?_eq_get hb2, hlen,
    List.get?_eq_get ha2, ?_⟩
  unfold cellAt
  rw [List.get?_eq_get hb2]
  exact List.get?_eq_get ha2

theorem wellSized_setCell {screen : Screen} (hs : WellSized screen) (x y : Nat) (c : Char)
    (hy : y < HEIGHT.toNat) : WellSized (setCell screen x y c) := by
  unfold setCell
  refine ⟨by rw [List.length_set]; exact hs.1, ?_⟩
  intro row hrow
  rcases List.mem_or_eq_of_mem_set hrow with h | h
  · exact hs.2 row h
  · rw [h, List.length_set]
    have hy2 : y < screen.length := by rw [hs.1]; exact hy
    rw [List.getD_eq_getElem _ _ hy2]
    exact hs.2 _ (List.getElem_mem hy2)

theorem cellAt_setCell {screen : Screen} (hs : WellSized screen) {x y a b : Nat} (c : Char)
    (hx : x < WIDTH.toNat) (hy : y < HEIGHT.toNat) (ha : a < WIDTH.toNat)
    (hb : b < HEIGHT.toNat) :
    cellAt (setCell screen x y c) a b =
      if a = x ∧ b = y then some c else cellAt screen a b := by
  have hy2 : y < screen.length := by rw [hs.1]; exact hy
  obtain ⟨row, cur, h1, h2, h3, h4⟩ := cellAt_of_wellSized hs hx hy
  have hrow : screen.getD y [] = row := by
    rw [List.getD_eq_getElem?_getD, ← List.get?_eq_getElem?, h1]
    rfl
  have h1b : screen[y]? = some row := by
    rw [← List.get?_eq_getElem?]
    exact h1
  have hx2 : x < row.length := by rw [h2]; exact hx
  unfold setCell
  rw [hrow]
  unfold cellAt
  simp only [List.get?_eq_getElem?, List.getElem?_set]
  by_cases hby : y = b
  · subst hby
    by_cases hax : x = a
    · subst hax
      simp [hy2, hx2]
    · have hax2 : ¬ a = x := fun h => hax h.symm
      simp [hy2, hax, hax2, h1b]
  · have hby2 : ¬ b = y := fun h => hby h.symm
    simp [hby, hby2]

theorem composite_idem (c cur : Char) : composite c (composite c cur) = composite c cur := by
  unfold composite
  by_cases h : cur = ' ' ∨ c > cur
  · rw [if_pos h]
    by_cases h2 : c = ' ' ∨ c > c
    · rw [if_pos h2]
    · rw [if_neg h2]
  · rw [if_neg h, if_neg h]

/-- One point composited into a buffer of the dimensions of the viewport, for a
viewport test that accepts no point beyond `[0, WIDTH) x [0, HEIGHT)`. -/
theorem plot_spec (view : Int → Int → Bool)
    (hview : ∀ x y, view x y = true → 0 ≤ x ∧ x < WIDTH ∧ 0 ≤ y ∧ y < HEIGHT)
    (c : Char) {screen : Screen} (hs : WellSized screen) (x y : Int) :
    ∃ screen1, plot view c screen x y = .ok screen1 ∧ WellSized screen1 ∧
      ∀ a b : Nat, a < WIDTH.toNat → b < HEIGHT.toNat →
        ∃ cur, cellAt screen a b = some cur ∧
          cellAt screen1 a b =
            some (if view x y = true ∧ (a : Int) = x ∧ (b : Int) = y then composite c cur
              else cur) := by
  unfold plot
  by_cases hv : view x y = true
  · rw [if_pos hv]
    obtain ⟨hx0, hx1, hy0, hy1⟩ := hview x y hv
    have hW : WIDTH = 80 := rfl
    have hH : HEIGHT = 40 := rfl
    have hx : x.toNat < WIDTH.toNat := by rw [WIDTH_toNat]; omega
    have hy : y.toNat < HEIGHT.toNat := by rw [HEIGHT_toNat]; omega
    obtain ⟨row, cur, _, _, _, hcur⟩ := cellAt_of_wellSized hs hx hy
    rw [hcur]
    simp only
    by_cases hw : cur = ' ' ∨ c > cur
    · rw [if_pos hw]
      refine ⟨_, rfl, wellSized_setCell hs _ _ c hy, ?_⟩
      intro a b ha hb
      obtain ⟨_, cur2, _, _, _, hcur2⟩ := cellAt_of_wellSized hs ha hb
      refine ⟨cur2, hcur2, ?_⟩
      rw [cellAt_setCell hs c hx hy ha hb]
      by_cases hab : a = x.toNat ∧ b = y.toNat
      · have hab2 : view x y = true ∧ (a : Int) = x ∧ (b : Int) = y := ⟨hv, by omega, by omega⟩
        rw [if_pos hab, if_pos hab2]
        have e : cur2 = cur := by
          rw [hab.1, hab.2, hcur] at hcur2
          injection hcur2 with h
          exact h.symm
        rw [e]
        unfold composite
        rw [if_pos hw]
      · have hab2 : ¬ (view x y = true ∧ (a : Int) = x ∧ (b : Int) = y) := by
          intro h
          apply hab
          omega
        rw [if_neg hab, if_neg hab2, hcur2]
    · rw [if_neg hw]
      refine ⟨screen, rfl, hs, ?_⟩
      intro a b ha hb
      obtain ⟨_, cur2, _, _, _, hcur2⟩ := cellAt_of_wellSized hs ha hb
      refine ⟨cur2, hcur2, ?_⟩
      rw [hcur2]
      by_cases hab2 : view x y = true ∧ (a : Int) = x ∧ (b : Int) = y
      · rw [if_pos hab2]
        have e : cur2 = cur := by
          have e1 : a = x.toNat := by omega
          have e2 : b = y.toNat := by omega
          rw [e1, e2, hcur] at hcur2
          injection hcur2 with h
          exact h.symm
        rw [e]
        unfold composite
        rw [if_neg hw]
      · rw [if_neg hab2]
  · rw [if_neg hv]
    refine ⟨screen, rfl, hs, ?_⟩
    intro a b ha hb
    obtain ⟨_, cur2, _, _, _, hcur2⟩ := cellAt_of_wellSized hs ha hb
    refine ⟨cur2, hcur2, ?_⟩
    have hab2 : ¬ (view x y = true ∧ (a : Int) = x ∧ (b : Int) = y) := fun h => hv h.1
    rw [if_neg hab2, hcur2]

/-- A list of points composited one after the other: a cell ends with the
composite of its content when one of the points is accepted at it, and keeps its
content otherwise. -/
theorem plotAll_spec (view : Int → Int → Bool)
    (hview : ∀ x y, view x y = true → 0 ≤ x ∧ x < WIDTH ∧ 0 ≤ y ∧ y < HEIGHT)
    (c : Char) :
    ∀ (pts : List (Int × Int)) (screen : Screen), WellSized screen →
      ∃ screen1, pts.foldlM (fun s p => plot view c s p.1 p.2) screen = .ok screen1 ∧
        WellSized screen1 ∧
        ∀ a b : Nat, a < WIDTH.toNat → b < HEIGHT.toNat →
          ∃ cur, cellAt screen a b = some cur ∧
            cellAt screen1 a b =
              some (if view a b = true ∧ ((a : Int), (b : Int)) ∈ pts then composite c cur
                else cur) := by
  intro pts
  induction pts with
  | nil =>
    intro screen hs
    refine ⟨screen, rfl, hs, ?_⟩
    intro a b ha hb
    obtain ⟨_, cur, _, _, _, hcur⟩ := cellAt_of_wellSized hs ha hb
    exact ⟨cur, hcur, by simp [hcur]⟩
  | cons p rest ih =>
    intro screen hs
    obtain ⟨s1, h1, hs1, hc1⟩ := plot_spec view hview c hs p.1 p.2
    obtain ⟨s2, h2, hs2, hc2⟩ := ih s1 hs1
    refine ⟨s2, ?_, hs2, ?_⟩
    · rw [List.foldlM_cons, h1]
      exact h2
    · intro a b ha hb
      obtain ⟨cur, k1, k2⟩ := hc1 a b ha hb
      obtain ⟨cur1, k3, k4⟩ := hc2 a b ha hb
      refine ⟨cur, k1, ?_⟩
      rw [k2] at k3
      injection k3 with k3
      rw [k4, ← k3]
      congr 1
      by_cases hp : (a : Int) = p.1 ∧ (b : Int) = p.2
      · have hpe : p = ((a : Int), (b : Int)) := Prod.ext hp.1.symm hp.2.symm
        subst hpe
        by_cases hv : view (a : Int) (b : Int) = true
        · simp only [hv, true_and, and_self, if_true, List.mem_cons, true_or]
          by_cases hr : ((a : Int), (b : Int)) ∈ rest
          · rw [if_pos hr]
            exact composite_idem c cur
          · rw [if_neg hr]
        · simp [hv]
      · have hpe : ((a : Int), (b : Int)) ≠ p := by
          intro h
          apply hp
          rw [← h]
          exact ⟨rfl, rfl⟩
        have hif : ¬ (view p.1 p.2 = true ∧ (a : Int) = p.1 ∧ (b : Int) = p.2) :=
          fun h => hp h.2
        rw [if_neg hif]
        simp only [List.mem_cons, hpe, false_or]

/-! ### The loop in the arithmetic of `int` -/

/-- The loop of `drawLine` on a buffer of the dimensions of the viewport
composites the points of `loopPoints` one after the other, and does not end
within `fuel` iterations when `loopPoints` has no value. -/
theorem drawLoop_eq_foldlM (view : Int → Int → Bool)
    (hview : ∀ x y, view x y = true → 0 ≤ x ∧ x < WIDTH ∧ 0 ≤ y ∧ y < HEIGHT)
    (c : Char) (p2 : Point2d) (dx dy sx sy : Int) :
    ∀ (fuel : Nat) (screen : Screen) (x y err : Int), WellSized screen →
      drawLoop view c p2 dx dy sx sy fuel screen x y err =
        match loopPoints p2 dx dy sx sy fuel x y err with
        | some pts => pts.foldlM (fun s p => plot view c s p.1 p.2) screen
        | none => .error .diverged := by
  intro fuel
  induction fuel with
  | zero =>
    intro screen x y err _
    rfl
  | succ fuel ih =>
    intro screen x y err hs
    obtain ⟨s1, hplot, hw1, _⟩ := plot_spec view hview c hs x y
    unfold drawLoop loopPoints
    rw [hplot]
    dsimp only
    by_cases hend : x = p2.x ∧ y = p2.y
    · rw [if_pos hend, if_pos hend]
      dsimp only
      rw [List.foldlM_cons, hplot]
      rfl
    · rw [if_neg hend, if_neg hend, ih s1 _ _ _ hw1]
      cases loopPoints p2 dx dy sx sy fuel
          (if wrapInt (err * 2) ≥ dy then wrapInt (x + sx) else x)
          (if wrapInt (err * 2) ≤ dx then wrapInt (y + sy) else y)
          (if wrapInt (err * 2) ≤ dx then
              wrapInt ((if wrapInt (err * 2) ≥ dy then wrapInt (err + dy) else err) + dx)
            else (if wrapInt (err * 2) ≥ dy then wrapInt (err + dy) else err)) with
      | none => rfl
      | some rest =>
        dsimp only [Option.map_some']
        rw [List.foldlM_cons, hplot]
        rfl

/-- More iterations do not change the points that the loop over unbounded
integers has visited when it ended. -/
theorem linePoints_mono (p2 : Point2d) (dx dy sx sy : Int) :
    ∀ (fuel fuel2 : Nat) (x y err : Int) (pts : List (Int × Int)),
      linePoints p2 dx dy sx sy fuel x y err = some pts → fuel ≤ fuel2 →
      linePoints p2 dx dy sx sy fuel2 x y err = some pts := by
  intro fuel
  induction fuel with
  | zero =>
    intro fuel2 x y err pts h
    cases h
  | succ fuel ih =>
    intro fuel2 x y err pts h hle
    obtain ⟨m, rfl⟩ : ∃ m, fuel2 = m + 1 := ⟨fuel2 - 1, by omega⟩
    unfold linePoints at h ⊢
    by_cases hend : x = p2.x ∧ y = p2.y
    · rw [if_pos hend] at h ⊢
      exact h
    · rw [if_neg hend] at h ⊢
      dsimp only at h ⊢
      cases hrec : linePoints p2 dx dy sx sy fuel
          (if err * 2 ≥ dy then x + sx else x) (if err * 2 ≤ dx then y + sy else y)
          (if err * 2 ≤ dx then (if err * 2 ≥ dy then err + dy else err) + dx
            else (if err * 2 ≥ dy then err + dy else err)) with
      | none =>
        rw [hrec] at h
        cases h
      | some rest =>
        rw [hrec] at h
        rw [ih m _ _ _ rest hrec (by omega)]
        exact h

/-- More iterations do not change the points that the loop of `drawLine` has
visited when it ended. -/
theorem loopPoints_mono (p2 : Point2d) (dx dy sx sy : Int) :
    ∀ (fuel fuel2 : Nat) (x y err : Int) (pts : List (Int × Int)),
      loopPoints p2 dx dy sx sy fuel x y err = some pts → fuel ≤ fuel2 →
      loopPoints p2 dx dy sx sy fuel2 x y err = some pts := by
  intro fuel
  induction fuel with
  | zero =>
    intro fuel2 x y err pts h
    cases h
  | succ fuel ih =>
    intro fuel2 x y err pts h hle
    obtain ⟨m, rfl⟩ : ∃ m, fuel2 = m + 1 := ⟨fuel2 - 1, by omega⟩
    unfold loopPoints at h ⊢
    by_cases hend : x = p2.x ∧ y = p2.y
    · rw [if_pos hend] at h ⊢
      exact h
    · rw [if_neg hend] at h ⊢
      dsimp only at h ⊢
      cases hrec : loopPoints p2 dx dy sx sy fuel
          (if wrapInt (err * 2) ≥ dy then wrapInt (x + sx) else x)
          (if wrapInt (err * 2) ≤ dx then wrapInt (y + sy) else y)
          (if wrapInt (err * 2) ≤ dx then
              wrapInt ((if wrapInt (err * 2) ≥ dy then wrapInt (err + dy) else err) + dx)
            else (if wrapInt (err * 2) ≥ dy then wrapInt (err + dy) else err)) with
      | none =>
        rw [hrec] at h
        cases h
      | some rest =>
        rw [hrec] at h
        rw [ih m _ _ _ rest hrec (by omega)]
        exact h

/-- While both extents are at most a third of `INT_MAX`, no sum or product of
the loop leaves the range of `int`: the loop of `drawLine` takes the same turns
as the loop over unbounded integers.  Twice the error term stays between `3 * dy`
and `3 * dx`. -/
theorem loopPoints_eq_linePoints (p2 : Point2d) (dx dy sx sy : Int) (hdx : 0 ≤ dx)
    (hdy : dy ≤ 0) (hbx : dx ≤ 715827882) (hby : -dy ≤ 715827882)
    (hX : ∀ r, 0 ≤ r → r ≤ dx → INT_MIN ≤ p2.x - sx * r ∧ p2.x - sx * r ≤ INT_MAX)
    (hY : ∀ r, 0 ≤ r → r ≤ -dy → INT_MIN ≤ p2.y - sy * r ∧ p2.y - sy * r ≤ INT_MAX) :
    ∀ (fuel : Nat) (rx ry x y err : Int), 0 ≤ rx → rx ≤ dx → 0 ≤ ry → ry ≤ -dy →
      x = p2.x - sx * rx → y = p2.y - sy * ry → err = dx + dy - rx * dy - ry * dx →
      dy * 3 ≤ err * 2 → err * 2 ≤ dx * 3 →
      loopPoints p2 dx dy sx sy fuel x y err = linePoints p2 dx dy sx sy fuel x y err := by
  have hmin := INT_MIN_eq
  have hmax := INT_MAX_eq
  intro fuel
  induction fuel with
  | zero =>
    intro rx ry x y err _ _ _ _ _ _ _ _ _
    rfl
  | succ fuel ih =>
    intro rx ry x y err h1 h2 h3 h4 hx hy herr hlo hhi
    unfold loopPoints linePoints
    by_cases hend : x = p2.x ∧ y = p2.y
    · rw [if_pos hend, if_pos hend]
    · rw [if_neg hend, if_neg hend]
      have hnz : rx ≠ 0 ∨ ry ≠ 0 := by
        by_contra hcon
        push_neg at hcon
        apply hend
        rw [hx, hy, hcon.1, hcon.2]
        simp
      have claimA : rx = 0 → ¬ (err * 2 ≥ dy) := by
        intro h0
        have hry : 1 ≤ ry := by omega
        have hp : 0 ≤ (ry - 1) * dx := mul_nonneg (by omega) hdx
        rw [herr, h0]
        nlinarith
      have claimB : ry = 0 → ¬ (err * 2 ≤ dx) := by
        intro h0
        have hrx : 1 ≤ rx := by omega
        have hp : 0 ≤ (rx - 1) * (-dy) := mul_nonneg (by omega) (by omega)
        rw [herr, h0]
        nlinarith
      have e2w : wrapInt (err * 2) = err * 2 := wrapInt_of_range (by omega) (by omega)
      dsimp only
      rw [e2w]
      by_cases hsx2 : err * 2 ≥ dy
      · have hrx : 1 ≤ rx := by
          by_contra hcon
          exact claimA (by omega) hsx2
        have exw : wrapInt (x + sx) = x + sx := by
          have hr := hX (rx - 1) (by omega) (by omega)
          have e : x + sx = p2.x - sx * (rx - 1) := by rw [hx]; ring
          rw [e]
          exact wrapInt_of_range hr.1 hr.2
        have e1w : wrapInt (err + dy) = err + dy := wrapInt_of_range (by omega) (by omega)
        by_cases hsy2 : err * 2 ≤ dx
        · have hry : 1 ≤ ry := by
            by_contra hcon
            exact claimB (by omega) hsy2
          have eyw : wrapInt (y + sy) = y + sy := by
            have hr := hY (ry - 1) (by omega) (by omega)
            have e : y + sy = p2.y - sy * (ry - 1) := by rw [hy]; ring
            rw [e]
            exact wrapInt_of_range hr.1 hr.2
          have e3w : wrapInt (err + dy + dx) = err + dy + dx :=
            wrapInt_of_range (by omega) (by omega)
          simp only [hsx2, hsy2, if_true, e1w, exw, eyw, e3w]
          rw [ih (rx - 1) (ry - 1) (x + sx) (y + sy) (err + dy + dx)
            (by omega) (by omega) (by omega) (by omega)
            (by rw [hx]; ring) (by rw [hy]; ring) (by rw [herr]; ring) (by omega) (by omega)]
        · simp only [hsx2, hsy2, if_true, if_false, e1w, exw]
          rw [ih (rx - 1) ry (x + sx) y (err + dy)
            (by omega) (by omega) h3 h4
            (by rw [hx]; ring) hy (by rw [herr]; ring) (by omega) (by omega)]
      · by_cases hsy2 : err * 2 ≤ dx
        · have hry : 1 ≤ ry := by
            by_contra hcon
            exact claimB (by omega) hsy2
          have eyw : wrapInt (y + sy) = y + sy := by
            have hr := hY (ry - 1) (by omega) (by omega)
            have e : y + sy = p2.y - sy * (ry - 1) := by rw [hy]; ring
            rw [e]
            exact wrapInt_of_range hr.1 hr.2
          have e3w : wrapInt (err + dx) = err + dx := wrapInt_of_range (by omega) (by omega)
          simp only [hsx2, hsy2, if_true, if_false, eyw, e3w]
          rw [ih rx (ry - 1) x (y + sy) (err + dx)
            h1 h2 (by omega) (by omega)
            hx (by rw [hy]; ring) (by rw [herr]; ring) (by omega) (by omega)]
        · exfalso
          omega

/-- Between two `int` points with extents of at most a third of `INT_MAX`, the
loop of `drawLine` visits the points that the loop over unbounded integers
visits. -/
theorem traced_eq_visited {p1 p2 : Point2d} (h : SmallExtent p1 p2) :
    traced p1 p2 = visited p1 p2 := by
  obtain ⟨⟨a1, a2⟩, ⟨b1, b2⟩, ⟨c1, c2⟩, ⟨d1, d2⟩, hx, hy⟩ := h
  have hmin := INT_MIN_eq
  have hmax := INT_MAX_eq
  have hax : (0 : Int) ≤ |p2.x - p1.x| := abs_nonneg _
  have hay : (0 : Int) ≤ |p2.y - p1.y| := abs_nonneg _
  have hx1 := abs_le.mp hx
  have hy1 := abs_le.mp hy
  have w1 : wrapInt (p2.x - p1.x) = p2.x - p1.x := wrapInt_of_range (by omega) (by omega)
  have w2 : wrapInt (p2.y - p1.y) = p2.y - p1.y := wrapInt_of_range (by omega) (by omega)
  have w3 : wrapInt |p2.x - p1.x| = |p2.x - p1.x| := wrapInt_of_range (by omega) (by omega)
  have w4 : wrapInt |p2.y - p1.y| = |p2.y - p1.y| := wrapInt_of_range (by omega) (by omega)
  have w5 : wrapInt (-|p2.y - p1.y|) = -|p2.y - p1.y| := wrapInt_of_range (by omega) (by omega)
  have w6 : wrapInt (|p2.x - p1.x| + -|p2.y - p1.y|) = |p2.x - p1.x| + -|p2.y - p1.y| :=
    wrapInt_of_range (by omega) (by omega)
  obtain ⟨pts, hpts⟩ := visited_some p1 p2
  rw [hpts]
  unfold visited at hpts
  unfold traced
  rw [w1, w2, w3, w4, w5, w6]
  have hx0 : p1.x = p2.x - (if p1.x < p2.x then (1 : Int) else -1) * |p2.x - p1.x| := by
    by_cases h : p1.x < p2.x
    · rw [if_pos h, abs_of_pos (by omega)]
      ring
    · rw [if_neg h, abs_of_nonpos (by omega)]
      ring
  have hy0 : p1.y = p2.y - (if p1.y < p2.y then (1 : Int) else -1) * |p2.y - p1.y| := by
    by_cases h : p1.y < p2.y
    · rw [if_pos h, abs_of_pos (by omega)]
      ring
    · rw [if_neg h, abs_of_nonpos (by omega)]
      ring
  have hX : ∀ r, 0 ≤ r → r ≤ |p2.x - p1.x| →
      INT_MIN ≤ p2.x - (if p1.x < p2.x then (1 : Int) else -1) * r ∧
        p2.x - (if p1.x < p2.x then (1 : Int) else -1) * r ≤ INT_MAX := by
    intro r hr0 hr1
    by_cases h : p1.x < p2.x
    · rw [if_pos h]
      rw [abs_of_pos (by omega)] at hr1
      omega
    · rw [if_neg h]
      rw [abs_of_nonpos (by omega)] at hr1
      omega
  have hY : ∀ r, 0 ≤ r → r ≤ - -|p2.y - p1.y| →
      INT_MIN ≤ p2.y - (if p1.y < p2.y then (1 : Int) else -1) * r ∧
        p2.y - (if p1.y < p2.y then (1 : Int) else -1) * r ≤ INT_MAX := by
    intro r hr0 hr1
    rw [neg_neg] at hr1
    by_cases h : p1.y < p2.y
    · rw [if_pos h]
      rw [abs_of_pos (by omega)] at hr1
      omega
    · rw [if_neg h]
      rw [abs_of_nonpos (by omega)] at hr1
      omega
  rw [loopPoints_eq_linePoints p2 _ _ _ _ hax (by omega) hx (by omega) hX hY loopFuel
    |p2.x - p1.x| |p2.y - p1.y| p1.x p1.y _ hax (le_refl _) hay (by omega) hx0 hy0 (by ring)
    (by omega) (by omega)]
  refine linePoints_mono p2 _ _ _ _ _ _ _ _ _ pts hpts ?_
  unfold lineFuel loopFuel
  omega

/-- Between two `int` points with extents of at most a third of `INT_MAX` the
loop of `drawLine` ends. -/
theorem traced_some {p1 p2 : Point2d} (h : SmallExtent p1 p2) :
    ∃ pts, traced p1 p2 = some pts ∧ visited p1 p2 = some pts := by
  obtain ⟨pts, hpts⟩ := visited_some p1 p2
  exact ⟨pts, by rw [traced_eq_visited h, hpts], hpts⟩

/-! ### The number of iterations allotted to the loop -/

theorem wrapInt_range (v : Int) : INT_MIN ≤ wrapInt v ∧ wrapInt v ≤ INT_MAX := by
  have hmin := INT_MIN_eq
  have hmax := INT_MAX_eq
  unfold wrapInt
  omega

theorem loopPoints_succ (p2 : Point2d) (dx dy sx sy : Int) (fuel : Nat) (x y err : Int) :
    loopPoints p2 dx dy sx sy (fuel + 1) x y err =
      if x = p2.x ∧ y = p2.y then some [(x, y)]
      else
        (loopPoints p2 dx dy sx sy fuel (loopStep dx dy sx sy (x, y, err)).1
          (loopStep dx dy sx sy (x, y, err)).2.1 (loopStep dx dy sx sy (x, y, err)).2.2).map
          (fun ps => (x, y) :: ps) := rfl

/-- The loop ends within `fuel` iterations exactly when one of the first `fuel`
states is at the end point. -/
theorem loopPoints_isSome_iff (p2 : Point2d) (dx dy sx sy : Int) :
    ∀ (fuel : Nat) (s : Int × Int × Int),
      (∃ pts, loopPoints p2 dx dy sx sy fuel s.1 s.2.1 s.2.2 = some pts) ↔
        ∃ k, k < fuel ∧ ((loopStep dx dy sx sy)^[k] s).1 = p2.x ∧
          ((loopStep dx dy sx sy)^[k] s).2.1 = p2.y := by
  intro fuel
  induction fuel with
  | zero =>
    intro s
    constructor
    · rintro ⟨pts, h⟩
      cases h
    · rintro ⟨k, hk, _⟩
      omega
  | succ fuel ih =>
    intro s
    rw [loopPoints_succ]
    by_cases hend : s.1 = p2.x ∧ s.2.1 = p2.y
    · rw [if_pos hend]
      exact ⟨fun _ => ⟨0, by omega, hend⟩, fun _ => ⟨_, rfl⟩⟩
    · rw [if_neg hend]
      constructor
      · rintro ⟨pts, h⟩
        cases hrec : loopPoints p2 dx dy sx sy fuel (loopStep dx dy sx sy (s.1, s.2.1, s.2.2)).1
            (loopStep dx dy sx sy (s.1, s.2.1, s.2.2)).2.1
            (loopStep dx dy sx sy (s.1, s.2.1, s.2.2)).2.2 with
        | none =>
          rw [hrec] at h
          cases h
        | some rest =>
          obtain ⟨k, hk, hk2⟩ := (ih (loopStep dx dy sx sy s)).mp ⟨rest, hrec⟩
          exact ⟨k + 1, by omega, by rw [Function.iterate_succ_apply]; exact hk2⟩
      · rintro ⟨k, hk, hk2⟩
        cases k with
        | zero => exact absurd hk2 hend
        | succ k =>
          rw [Function.iterate_succ_apply] at hk2
          obtain ⟨rest, hrest⟩ := (ih (loopStep dx dy sx sy s)).mpr ⟨k, by omega, hk2⟩
          have e : (s.1, s.2.1, s.2.2) = s := rfl
          rw [e, hrest]
          exact ⟨_, rfl⟩

/-- A turn of the loop leaves `int`s in the three variables. -/
theorem intState_loopStep (dx dy sx sy : Int) {s : Int × Int × Int} (h : IntState s) :
    IntState (loopStep dx dy sx sy s) := by
  obtain ⟨hx, hy, herr⟩ := h
  unfold loopStep IntState
  dsimp only
  refine ⟨?_, ?_, ?_⟩
  · split_ifs
    · exact wrapInt_range _
    · exact hx
  · split_ifs
    · exact wrapInt_range _
    · exact hy
  · split_ifs
    · exact wrapInt_range _
    · exact wrapInt_range _
    · exact wrapInt_range _
    · exact herr

theorem intState_iterate (dx dy sx sy : Int) {s : Int × Int × Int} (h : IntState s) :
    ∀ k : Nat, IntState ((loopStep dx dy sx sy)^[k] s) := by
  intro k
  induction k with
  | zero => exact h
  | succ k ih =>
    rw [Function.iterate_succ_apply']
    exact intState_loopStep dx dy sx sy ih

/-- The states of three `int`s are `2^96`. -/
theorem intStates_card : intStates.card = loopFuel := by
  have e : (INT_MAX + 1 - INT_MIN).toNat = 4294967296 := rfl
  unfold intStates
  rw [Finset.card_product, Finset.card_product, Int.card_Icc, e]
  rfl

/-- A state that is at the end point after some number of turns, all states being
in a finite set of `n` states, is at the end point after fewer than `n` turns:
among the first `n + 1` states two are the same, and the turns between them can
be left out. -/
theorem loopStep_reaches_early (p2 : Point2d) (dx dy sx sy : Int) {s : Int × Int × Int}
    (box : Finset (Int × Int × Int)) (hbox : ∀ k : Nat, (loopStep dx dy sx sy)^[k] s ∈ box)
    (n : Nat) (hn : box.card = n) :
    ∀ k : Nat, ((loopStep dx dy sx sy)^[k] s).1 = p2.x ∧
        ((loopStep dx dy sx sy)^[k] s).2.1 = p2.y →
      ∃ k2, k2 < n ∧ ((loopStep dx dy sx sy)^[k2] s).1 = p2.x ∧
        ((loopStep dx dy sx sy)^[k2] s).2.1 = p2.y := by
  intro k
  induction k using Nat.strong_induction_on with
  | _ k ih =>
    intro hk
    by_cases hlt : k < n
    · exact ⟨k, hlt, hk⟩
    · have hcard : box.card < (Finset.range (n + 1)).card := by
        rw [hn, Finset.card_range]
        omega
      obtain ⟨i, hi, j, hj, hne, heq⟩ :=
        @Finset.exists_ne_map_eq_of_card_lt_of_maps_to _ _ (Finset.range (n + 1)) box hcard
          (fun i => (loopStep dx dy sx sy)^[i] s) (fun i _ => hbox i)
      rw [Finset.mem_range] at hi hj
      have key : ∀ a b : Nat, a < b → b ≤ n →
          (loopStep dx dy sx sy)^[a] s = (loopStep dx dy sx sy)^[b] s →
          ∃ k2, k2 < n ∧ ((loopStep dx dy sx sy)^[k2] s).1 = p2.x ∧
            ((loopStep dx dy sx sy)^[k2] s).2.1 = p2.y := by
        intro a b hab hb hsame
        have e : (loopStep dx dy sx sy)^[k] s = (loopStep dx dy sx sy)^[k - b + a] s := by
          have e1 : k = (k - b) + b := by omega
          conv_lhs => rw [e1]
          rw [Function.iterate_add_apply, ← hsame, ← Function.iterate_add_apply]
        rw [e] at hk
        exact ih (k - b + a) (by omega) hk
      rcases Nat.lt_or_gt_of_ne hne with hij | hij
      · exact key i j hij (by omega) heq
      · exact key j i hij (by omega) heq.symm

/-- Every state that the loop reaches from a state of `int`s is one of the `2^96`
states of three `int`s. -/
theorem intState_mem_intStates (dx dy sx sy : Int) {s : Int × Int × Int} (hs : IntState s)
    (k : Nat) : (loopStep dx dy sx sy)^[k] s ∈ intStates := by
  have hi := intState_iterate dx dy sx sy hs k
  unfold IntState at hi
  unfold intStates
  simp only [Finset.mem_product, Finset.mem_Icc]
  exact hi

/-- The iterations allotted to the loop of `drawLine` are enough: from a state of
`int`s, a loop that ends within some number of iterations ends within `loopFuel`
of them. -/
theorem loopFuel_enough (p2 : Point2d) (dx dy sx sy : Int) {x y err : Int}
    (hs : IntState (x, y, err)) (fuel : Nat) (pts : List (Int × Int))
    (h : loopPoints p2 dx dy sx sy fuel x y err = some pts) :
    loopPoints p2 dx dy sx sy loopFuel x y err = some pts := by
  obtain ⟨k, _, hk⟩ := (loopPoints_isSome_iff p2 dx dy sx sy fuel (x, y, err)).mp ⟨pts, h⟩
  obtain ⟨k2, hk2, hend⟩ := loopStep_reaches_early p2 dx dy sx sy intStates
    (intState_mem_intStates dx dy sx sy hs) loopFuel intStates_card k hk
  obtain ⟨pts2, hpts2⟩ :=
    (loopPoints_isSome_iff p2 dx dy sx sy loopFuel (x, y, err)).mpr ⟨k2, hk2, hend⟩
  have hpts3 : loopPoints p2 dx dy sx sy loopFuel x y err = some pts2 := hpts2
  rcases Nat.le_total fuel loopFuel with hle | hle
  · exact loopPoints_mono p2 dx dy sx sy fuel loopFuel x y err pts h hle
  · have := loopPoints_mono p2 dx dy sx sy loopFuel fuel x y err pts2 hpts3 hle
    rw [h] at this
    rw [hpts3, this]

/-- Between two `int` points `drawLine` does not return exactly when its loop
ends within no number of iterations. -/
theorem traced_none_iff (p1 p2 : Point2d) (h1 : INT_MIN ≤ p1.x ∧ p1.x ≤ INT_MAX)
    (h2 : INT_MIN ≤ p1.y ∧ p1.y ≤ INT_MAX) :
    traced p1 p2 = none ↔
      ∀ fuel : Nat,
        loopPoints p2 (wrapInt |wrapInt (p2.x - p1.x)|)
          (wrapInt (-wrapInt |wrapInt (p2.y - p1.y)|))
          (if p1.x < p2.x then 1 else -1) (if p1.y < p2.y then 1 else -1) fuel p1.x p1.y
          (wrapInt (wrapInt |wrapInt (p2.x - p1.x)| +
            wrapInt (-wrapInt |wrapInt (p2.y - p1.y)|))) = none := by
  constructor
  · intro h fuel
    cases hf : loopPoints p2 (wrapInt |wrapInt (p2.x - p1.x)|)
        (wrapInt (-wrapInt |wrapInt (p2.y - p1.y)|))
        (if p1.x < p2.x then 1 else -1) (if p1.y < p2.y then 1 else -1) fuel p1.x p1.y
        (wrapInt (wrapInt |wrapInt (p2.x - p1.x)| +
          wrapInt (-wrapInt |wrapInt (p2.y - p1.y)|))) with
    | none => rfl
    | some pts =>
      have hs : IntState (p1.x, p1.y, wrapInt (wrapInt |wrapInt (p2.x - p1.x)| +
          wrapInt (-wrapInt |wrapInt (p2.y - p1.y)|))) := ⟨h1, h2, wrapInt_range _⟩
      have hl := loopFuel_enough p2 _ _ _ _ hs fuel pts hf
      unfold traced at h
      rw [h] at hl
      cases hl
  · intro h
    exact h loopFuel

/-! ### The viewport test -/

theorem inViewport_bounds (x y : Int) (h : inViewport x y = true) :
    0 ≤ x ∧ x < WIDTH ∧ 0 ≤ y ∧ y < HEIGHT := by
  unfold inViewport at h
  simp only [Bool.and_eq_true, decide_eq_true_eq] at h
  exact ⟨h.1.1.1, h.1.1.2, h.1.2, h.2⟩

theorem inViewport_of_lt {a b : Nat} (ha : a < WIDTH.toNat) (hb : b < HEIGHT.toNat) :
    inViewport (a : Int) (b : Int) = true := by
  have hW : WIDTH = 80 := rfl
  have hH : HEIGHT = 40 := rfl
  rw [WIDTH_toNat] at ha
  rw [HEIGHT_toNat] at hb
  unfold inViewport
  simp only [Bool.and_eq_true, decide_eq_true_eq]
  omega

/-! ## C20: the tables of the cube -/

/-- C20: the tables of `cube.cpp` and of `model_loader.cpp` are the same; the
vertices are 8 distinct points with every coordinate `-1` or `1`; the 12 edges have
both indices in `[0, 8)` and different, no unordered pair occurs twice, and two
different vertices are joined by an edge exactly when they differ in exactly one
coordinate. -/
theorem cube_tables_wellformed :
    Cube.cube_vertices = cube_vertices ∧ Cube.cube_edges = cube_edges ∧
    cube_vertices.length = 8 ∧ cube_vertices.Nodup ∧
    (∀ v ∈ cube_vertices,
      (v.x = -1 ∨ v.x = 1) ∧ (v.y = -1 ∨ v.y = 1) ∧ (v.z = -1 ∨ v.z = 1)) ∧
    cube_edges.length = 12 ∧
    (∀ e ∈ cube_edges, (0 ≤ e.1 ∧ e.1 < 8) ∧ (0 ≤ e.2 ∧ e.2 < 8) ∧ e.1 ≠ e.2) ∧
    (cube_edges.map (fun e => normEdge e.1 e.2)).Nodup ∧
    (∀ i ∈ List.range 8, ∀ j ∈ List.range 8, i ≠ j →
      (isCubeEdge i j = true ↔ coordsDiffering (cubeVertex i) (cubeVertex j) = 1)) := by
  refine ⟨rfl, rfl, rfl, ?_, ?_, rfl, ?_, ?_, ?_⟩
  · decide
  · decide
  · decide
  · decide
  · decide

/-! ## C17: the loop over the indices of an `l` directive -/

/-- C17, evaluated: a bare `l` line makes the bound `line_vertices.size() - 1` wrap
to `2^64 - 1`, and the first turn of the loop reads `line_vertices[0]` of the
empty vector, a fault; with one index or more the loop appends exactly the
consecutive pairs, `k - 1` of them, in order. -/
theorem lineLoop_bare_directive :
    lineBound 0 = 18446744073709551615 ∧
    (∀ (rv : List (List Char) → Point3D ℚ) (st : LoadState),
      processLine rv st ['l'] = .error .indexOutOfBounds) ∧
    (∀ (lv : List Int) (edges : List Edge),
      lineLoop lv (lv.length + 1) 0 edges =
        if lv = [] then .error .indexOutOfBounds else .ok (edges ++ lv.zip lv.tail)) ∧
    (∀ lv : List Int, (lv.zip lv.tail).length = lv.length - 1) := by
  refine ⟨rfl, fun _ _ => rfl, fun lv edges => lineLoop_spec lv edges, ?_⟩
  intro lv
  simp [List.length_zip]

/-! ## C18: the viewport test of `cube.cpp` -/

theorem roundToZero_of_nonneg {q : ℚ} (h : 0 ≤ q) : roundToZero q = ⌊q⌋ := by
  unfold roundToZero
  rw [Rat.floor_def, Int.tdiv_eq_ediv (Rat.num_nonneg.mpr h) (Int.ofNat_nonneg _)]

theorem truncToInt_eq (q : ℚ) :
    truncToInt q =
      if INT_MIN ≤ roundToZero q ∧ roundToZero q ≤ INT_MAX then roundToZero q else INT_MIN :=
  rfl

/-- The conversion to `int` yields an `int`. -/
theorem truncToInt_range (q : ℚ) : INT_MIN ≤ truncToInt q ∧ truncToInt q ≤ INT_MAX := by
  have hmin := INT_MIN_eq
  have hmax := INT_MAX_eq
  rw [truncToInt_eq]
  split_ifs with h
  · exact h
  · omega

theorem clamp_bounds (v lo hi : Int) (hlh : lo ≤ hi) :
    lo ≤ clamp v lo hi ∧ clamp v lo hi ≤ hi := by
  unfold clamp
  split_ifs <;> omega

theorem SHADES_length : (SHADES.length : Int) - 2 = 8 := rfl

theorem shadeIdx_bounds (p1 p2 : Point2d) : 0 ≤ shadeIdx p1 p2 ∧ shadeIdx p1 p2 ≤ 8 := by
  unfold shadeIdx
  simp only [SHADES_length]
  exact clamp_bounds _ 0 8 (by norm_num)

theorem cube_shadeIdx_bounds (p1 p2 : Point2d) :
    0 ≤ Cube.shadeIdx p1 p2 ∧ Cube.shadeIdx p1 p2 ≤ 8 := by
  unfold Cube.shadeIdx
  simp only [SHADES_length]
  exact clamp_bounds _ 0 8 (by norm_num)

/-- C14: over the real numbers, for all angles `aX`, `aY` and every vertex `v`,
`rotateX` by `aX` and then `rotateY` by `aY`, followed by `rotateY` by `-aY` and
then `rotateX` by `-aX`, give `v` again. -/
theorem rotate_round_trip (aX aY : ℝ) (v : Point3D ℝ) :
    rotateX
        (rotateY
          (rotateY (rotateX v (Real.cos aX) (Real.sin aX)) (Real.cos aY) (Real.sin aY))
          (Real.cos (-aY)) (Real.sin (-aY)))
        (Real.cos (-aX)) (Real.sin (-aX)) = v := by
  have hX := Real.sin_sq_add_cos_sq aX
  have hY := Real.sin_sq_add_cos_sq aY
  obtain ⟨x, y, z⟩ := v
  simp only [rotateX, rotateY, Real.cos_neg, Real.sin_neg, Point3D.mk.injEq]
  refine ⟨?_, ?_, ?_⟩
  · linear_combination x * hY
  · linear_combination ((y * Real.sin aX + z * Real.cos aX) * Real.sin aX) * hY + y * hX
  · linear_combination ((y * Real.sin aX + z * Real.cos aX) * Real.cos aX) * hY + z * hX

/-! ## C16: the points that the loop of `drawLine` visits -/

/-- Whatever the loop visits starts at the current point, ends at the end point,
and goes from each point to the same or a neighbouring one. -/
theorem linePoints_shape (p2 : Point2d) (dx dy sx sy : Int)
    (hsx : sx = 1 ∨ sx = -1) (hsy : sy = 1 ∨ sy = -1) :
    ∀ (fuel : Nat) (x y err : Int) (pts : List (Int × Int)),
      linePoints p2 dx dy sx sy fuel x y err = some pts →
      pts.head? = some (x, y) ∧ pts.getLast? = some (p2.x, p2.y) ∧
        List.Chain' Adjacent pts := by
  intro fuel
  induction fuel with
  | zero =>
    intro x y err pts h
    cases h
  | succ fuel ih =>
    intro x y err pts h
    unfold linePoints at h
    by_cases hend : x = p2.x ∧ y = p2.y
    · rw [if_pos hend] at h
      injection h with h
      subst h
      refine ⟨rfl, ?_, List.chain'_singleton _⟩
      rw [hend.1, hend.2]
      rfl
    · rw [if_neg hend] at h
      simp only at h
      cases hrec : linePoints p2 dx dy sx sy fuel
          (if err * 2 ≥ dy then x + sx else x) (if err * 2 ≤ dx then y + sy else y)
          (if err * 2 ≤ dx then (if err * 2 ≥ dy then err + dy else err) + dx
            else (if err * 2 ≥ dy then err + dy else err)) with
      | none =>
        rw [hrec] at h
        cases h
      | some rest =>
        rw [hrec] at h
        simp only [Option.map_some'] at h
        injection h with h
        subst h
        obtain ⟨h1, h2, h3⟩ := ih _ _ _ rest hrec
        refine ⟨rfl, ?_, ?_⟩
        · cases rest with
          | nil => cases h1
          | cons r rs =>
            rw [List.getLast?_cons_cons]
            exact h2
        · rw [List.chain'_cons']
          refine ⟨?_, h3⟩
          intro b hb
          rw [h1] at hb
          injection hb with hb
          subst hb
          unfold Adjacent
          simp only
          constructor
          · by_cases hc : err * 2 ≥ dy
            · rw [if_pos hc]
              rcases hsx with e | e <;> rw [e] <;> norm_num
            · rw [if_neg hc]
              norm_num
          · by_cases hc : err * 2 ≤ dx
            · rw [if_pos hc]
              rcases hsy with e | e <;> rw [e] <;> norm_num
            · rw [if_neg hc]
              norm_num

/-- When the extent along x is the larger one, every turn of the loop steps along
x, and the loop visits one point more than the steps left along x. -/
theorem linePoints_length_x (p2 : Point2d) (dx dy sx sy : Int) (hdx : 0 ≤ dx) (hdy : dy ≤ 0)
    (hsx : sx = 1 ∨ sx = -1) (hmajor : -dy ≤ dx) :
    ∀ (fuel : Nat) (rx ry x y err : Int) (pts : List (Int × Int)),
      0 ≤ rx → rx ≤ dx → 0 ≤ ry → ry ≤ -dy →
      x = p2.x - sx * rx → y = p2.y - sy * ry → err = dx + dy - rx * dy - ry * dx →
      dy ≤ err * 2 →
      linePoints p2 dx dy sx sy fuel x y err = some pts →
      (pts.length : Int) = rx + 1 := by
  intro fuel
  induction fuel with
  | zero =>
    intro rx ry x y err pts _ _ _ _ _ _ _ _ h
    cases h
  | succ fuel ih =>
    intro rx ry x y err pts h1 h2 h3 h4 hx hy herr hM h
    unfold linePoints at h
    by_cases hend : x = p2.x ∧ y = p2.y
    · rw [if_pos hend] at h
      injection h with h
      subst h
      have h0 : sx * rx = 0 := by
        have := hend.1
        rw [hx] at this
        omega
      have hrx : rx = 0 := by
        rcases hsx with e | e <;> rw [e] at h0 <;> omega
      rw [hrx]
      rfl
    · rw [if_neg hend] at h
      have hnz : rx ≠ 0 ∨ ry ≠ 0 := by
        by_contra hcon
        push_neg at hcon
        apply hend
        rw [hx, hy, hcon.1, hcon.2]
        simp
      have claimA : rx = 0 → ¬ (err * 2 ≥ dy) := by
        intro h0
        have hry : 1 ≤ ry := by omega
        have hp : 0 ≤ (ry - 1) * dx := mul_nonneg (by omega) hdx
        rw [herr, h0]
        nlinarith
      have claimB : ry = 0 → ¬ (err * 2 ≤ dx) := by
        intro h0
        have hrx : 1 ≤ rx := by omega
        have hp : 0 ≤ (rx - 1) * (-dy) := mul_nonneg (by omega) (by omega)
        rw [herr, h0]
        nlinarith
      have hstep : err * 2 ≥ dy := hM
      have hrx : 1 ≤ rx := by
        by_contra hcon
        exact claimA (by omega) hstep
      simp only [hstep, if_true] at h
      by_cases hsy2 : err * 2 ≤ dx
      · have hry : 1 ≤ ry := by
          by_contra hcon
          exact claimB (by omega) hsy2
        simp only [hsy2, if_true] at h
        cases hrec : linePoints p2 dx dy sx sy fuel (x + sx) (y + sy) (err + dy + dx) with
        | none => rw [hrec] at h; cases h
        | some rest =>
          rw [hrec] at h
          simp only [Option.map_some'] at h
          injection h with h
          subst h
          have := ih (rx - 1) (ry - 1) (x + sx) (y + sy) (err + dy + dx) rest
            (by omega) (by omega) (by omega) (by omega)
            (by rw [hx]; ring) (by rw [hy]; ring) (by rw [herr]; ring) (by omega) hrec
          rw [List.length_cons]
          push_cast
          omega
      · simp only [hsy2, if_false] at h
        cases hrec : linePoints p2 dx dy sx sy fuel (x + sx) y (err + dy) with
        | none => rw [hrec] at h; cases h
        | some rest =>
          rw [hrec] at h
          simp only [Option.map_some'] at h
          injection h with h
          subst h
          have := ih (rx - 1) ry (x + sx) y (err + dy) rest
            (by omega) (by omega) h3 h4
            (by rw [hx]; ring) hy (by rw [herr]; ring) (by omega) hrec
          rw [List.length_cons]
          push_cast
          omega

/-- When the extent along y is the larger one, every turn of the loop steps along
y, and the loop visits one point more than the steps left along y. -/
theorem linePoints_length_y (p2 : Point2d) (dx dy sx sy : Int) (hdx : 0 ≤ dx) (hdy : dy ≤ 0)
    (hsy : sy = 1 ∨ sy = -1) (hmajor : dx ≤ -dy) :
    ∀ (fuel : Nat) (rx ry x y err : Int) (pts : List (Int × Int)),
      0 ≤ rx → rx ≤ dx → 0 ≤ ry → ry ≤ -dy →
      x = p2.x - sx * rx → y = p2.y - sy * ry → err = dx + dy - rx * dy - ry * dx →
      err * 2 ≤ dx →
      linePoints p2 dx dy sx sy fuel x y err = some pts →
      (pts.length : Int) = ry + 1 := by
  intro fuel
  induction fuel with
  | zero =>
    intro rx ry x y err pts _ _ _ _ _ _ _ _ h
    cases h
  | succ fuel ih =>
    intro rx ry x y err pts h1 h2 h3 h4 hx hy herr hM h
    unfold linePoints at h
    by_cases hend : x = p2.x ∧ y = p2.y
    · rw [if_pos hend] at h
      injection h with h
      subst h
      have h0 : sy * ry = 0 := by
        have := hend.2
        rw [hy] at this
        omega
      have hry : ry = 0 := by
        rcases hsy with e | e <;> rw [e] at h0 <;> omega
      rw [hry]
      rfl
    · rw [if_neg hend] at h
      have hnz : rx ≠ 0 ∨ ry ≠ 0 := by
        by_contra hcon
        push_neg at hcon
        apply hend
        rw [hx, hy, hcon.1, hcon.2]
        simp
      have claimA : rx = 0 → ¬ (err * 2 ≥ dy) := by
        intro h0
        have hry : 1 ≤ ry := by omega
        have hp : 0 ≤ (ry - 1) * dx := mul_nonneg (by omega) hdx
        rw [herr, h0]
        nlinarith
      have claimB : ry = 0 → ¬ (err * 2 ≤ dx) := by
        intro h0
        have hrx : 1 ≤ rx := by omega
        have hp : 0 ≤ (rx - 1) * (-dy) := mul_nonneg (by omega) (by omega)
        rw [herr, h0]
        nlinarith
      have hstep : err * 2 ≤ dx := hM
      have hry : 1 ≤ ry := by
        by_contra hcon
        exact claimB (by omega) hstep
      by_cases hsx2 : err * 2 ≥ dy
      · have hrx : 1 ≤ rx := by
          by_contra hcon
          exact claimA (by omega) hsx2
        simp only [hsx2, hstep, if_true] at h
        cases hrec : linePoints p2 dx dy sx sy fuel (x + sx) (y + sy) (err + dy + dx) with
        | none => rw [hrec] at h; cases h
        | some rest =>
          rw [hrec] at h
          simp only [Option.map_some'] at h
          injection h with h
          subst h
          have := ih (rx - 1) (ry - 1) (x + sx) (y + sy) (err + dy + dx) rest
            (by omega) (by omega) (by omega) (by omega)
            (by rw [hx]; ring) (by rw [hy]; ring) (by rw [herr]; ring) (by omega) hrec
          rw [List.length_cons]
          push_cast
          omega
      · simp only [hsx2, hstep, if_true, if_false] at h
        cases hrec : linePoints p2 dx dy sx sy fuel x (y + sy) (err + dx) with
        | none => rw [hrec] at h; cases h
        | some rest =>
          rw [hrec] at h
          simp only [Option.map_some'] at h
          injection h with h
          subst h
          have := ih rx (ry - 1) x (y + sy) (err + dx) rest
            h1 h2 (by omega) (by omega)
            hx (by rw [hy]; ring) (by rw [herr]; ring) (by omega) hrec
          rw [List.length_cons]
          push_cast
          omega

/-- C16: for every pair of screen points the loop of `drawLine`, over unbounded
integers, ends (within the iterations allotted to it); it visits exactly
`max(|p2.x - p1.x|, |p2.y - p1.y|) + 1` points, the first is `p1`, the last is
`p2`, and consecutive points differ by at most 1 in x and at most 1 in y.  Between
`int` points with extents of at most a third of `INT_MAX`, the loop in the `int`
arithmetic of the source visits these same points. -/
theorem visited_spec (p1 p2 : Point2d) :
    ∃ pts, visited p1 p2 = some pts ∧
      (pts.length : Int) = max |p2.x - p1.x| |p2.y - p1.y| + 1 ∧
      pts.head? = some (p1.x, p1.y) ∧ pts.getLast? = some (p2.x, p2.y) ∧
      List.Chain' Adjacent pts ∧
      (SmallExtent p1 p2 → traced p1 p2 = some pts) := by
  obtain ⟨pts, hpts⟩ := visited_some p1 p2
  have htie : SmallExtent p1 p2 → traced p1 p2 = some pts := by
    intro hsmall
    rw [traced_eq_visited hsmall, hpts]
  have hsx : (if p1.x < p2.x then (1 : Int) else -1) = 1 ∨
      (if p1.x < p2.x then (1 : Int) else -1) = -1 := by
    by_cases h : p1.x < p2.x <;> simp [h]
  have hsy : (if p1.y < p2.y then (1 : Int) else -1) = 1 ∨
      (if p1.y < p2.y then (1 : Int) else -1) = -1 := by
    by_cases h : p1.y < p2.y <;> simp [h]
  have hx0 : p1.x = p2.x - (if p1.x < p2.x then (1 : Int) else -1) * |p2.x - p1.x| := by
    by_cases h : p1.x < p2.x
    · rw [if_pos h, abs_of_pos (by omega)]
      ring
    · rw [if_neg h, abs_of_nonpos (by omega)]
      ring
  have hy0 : p1.y = p2.y - (if p1.y < p2.y then (1 : Int) else -1) * |p2.y - p1.y| := by
    by_cases h : p1.y < p2.y
    · rw [if_pos h, abs_of_pos (by omega)]
      ring
    · rw [if_neg h, abs_of_nonpos (by omega)]
      ring
  have hax : (0 : Int) ≤ |p2.x - p1.x| := abs_nonneg _
  have hay : (0 : Int) ≤ |p2.y - p1.y| := abs_nonneg _
  refine ⟨pts, hpts, ?_, ?_⟩
  · unfold visited at hpts
    by_cases hmajor : |p2.y - p1.y| ≤ |p2.x - p1.x|
    · rw [max_eq_left hmajor]
      exact linePoints_length_x p2 _ _ _ _ hax (by omega) hsx (by omega) (lineFuel p1 p2)
        |p2.x - p1.x| |p2.y - p1.y| p1.x p1.y _ pts hax (le_refl _) hay (by omega)
        hx0 hy0 (by ring) (by omega) hpts
    · rw [max_eq_right (by omega)]
      exact linePoints_length_y p2 _ _ _ _ hax (by omega) hsy (by omega) (lineFuel p1 p2)
        |p2.x - p1.x| |p2.y - p1.y| p1.x p1.y _ pts hax (le_refl _) hay (by omega)
        hx0 hy0 (by ring) (by omega) hpts
  · unfold visited at hpts
    obtain ⟨k1, k2, k3⟩ := linePoints_shape p2 _ _ _ _ hsx hsy _ _ _ _ pts hpts
    exact ⟨k1, k2, k3, htie⟩

/-! ## Whole lines on a buffer of the dimensions of the viewport -/

/-- Two buffers of the dimensions of the viewport with the same cells are equal. -/
theorem screen_ext {s1 s2 : Screen} (h1 : WellSized s1) (h2 : WellSized s2)
    (h : ∀ a b : Nat, a < WIDTH.toNat → b < HEIGHT.toNat → cellAt s1 a b = cellAt s2 a b) :
    s1 = s2 := by
  apply List.ext_get?
  intro b
  by_cases hb : b < HEIGHT.toNat
  · have hZ : (0 : Nat) < WIDTH.toNat := by rw [WIDTH_toNat]; norm_num
    obtain ⟨r1, _, e1, l1, _, _⟩ := cellAt_of_wellSized h1 hZ hb
    obtain ⟨r2, _, e2, l2, _, _⟩ := cellAt_of_wellSized h2 hZ hb
    rw [e1, e2]
    congr 1
    apply List.ext_get?
    intro a
    by_cases ha : a < WIDTH.toNat
    · have := h a b ha hb
      unfold cellAt at this
      rw [e1, e2] at this
      exact this
    · rw [List.get?_eq_none.mpr (by omega), List.get?_eq_none.mpr (by omega)]
  · rw [List.get?_eq_none.mpr (by rw [h1.1]; omega),
      List.get?_eq_none.mpr (by rw [h2.1]; omega)]

/-- A whole line drawn with the viewport test `view` and the shade `c` into a
buffer of the dimensions of the viewport: the points at which the loop runs its
body are composited one after the other, and nothing is returned when the loop
does not end. -/
theorem drawLineWith_eq (view : Int → Int → Bool)
    (hview : ∀ x y, view x y = true → 0 ≤ x ∧ x < WIDTH ∧ 0 ≤ y ∧ y < HEIGHT)
    (c : Char) (screen : Screen) (p1 p2 : Point2d) (hs : WellSized screen) :
    drawLineWith view c screen p1 p2 =
      match traced p1 p2 with
      | some pts => pts.foldlM (fun s p => plot view c s p.1 p.2) screen
      | none => .error .diverged :=
  drawLoop_eq_foldlM view hview c p2 _ _ _ _ loopFuel screen p1.x p1.y _ hs

/-- A line whose loop does not end is not drawn: `drawLine` does not return. -/
theorem drawLineWith_diverged (view : Int → Int → Bool)
    (hview : ∀ x y, view x y = true → 0 ≤ x ∧ x < WIDTH ∧ 0 ≤ y ∧ y < HEIGHT)
    (c : Char) (screen : Screen) (p1 p2 : Point2d) (hs : WellSized screen)
    (h : traced p1 p2 = none) : drawLineWith view c screen p1 p2 = .error .diverged := by
  rw [drawLineWith_eq view hview c screen p1 p2 hs, h]

/-- A line whose loop ends, drawn into a buffer of the dimensions of the
viewport: a buffer is returned, the dimensions are kept, and a cell changes
exactly when the test accepts it and the loop visits it, to the composite of its
content. -/
theorem drawLineWith_spec (view : Int → Int → Bool)
    (hview : ∀ x y, view x y = true → 0 ≤ x ∧ x < WIDTH ∧ 0 ≤ y ∧ y < HEIGHT)
    (c : Char) (screen : Screen) (p1 p2 : Point2d) (hs : WellSized screen)
    (pts : List (Int × Int)) (hpts : traced p1 p2 = some pts) :
    ∃ screen1, drawLineWith view c screen p1 p2 = .ok screen1 ∧ WellSized screen1 ∧
      ∀ a b : Nat, a < WIDTH.toNat → b < HEIGHT.toNat →
        ∃ cur, cellAt screen a b = some cur ∧
          cellAt screen1 a b =
            some (if view a b = true ∧ ((a : Int), (b : Int)) ∈ pts then composite c cur
              else cur) := by
  obtain ⟨screen1, h1, h2, h3⟩ := plotAll_spec view hview c pts screen hs
  refine ⟨screen1, ?_, h2, h3⟩
  rw [drawLineWith_eq view hview c screen p1 p2 hs, hpts]
  exact h1

/-- No access of `drawLine` goes beyond a buffer of the dimensions of the
viewport, whatever the end points. -/
theorem drawLineWith_in_bounds (view : Int → Int → Bool)
    (hview : ∀ x y, view x y = true → 0 ≤ x ∧ x < WIDTH ∧ 0 ≤ y ∧ y < HEIGHT)
    (c : Char) (screen : Screen) (p1 p2 : Point2d) (hs : WellSized screen) :
    drawLineWith view c screen p1 p2 ≠ .error .indexOutOfBounds := by
  cases htr : traced p1 p2 with
  | none =>
    rw [drawLineWith_diverged view hview c screen p1 p2 hs htr]
    intro h
    cases h
  | some pts =>
    obtain ⟨s, hd, _, _⟩ := drawLineWith_spec view hview c screen p1 p2 hs pts htr
    rw [hd]
    intro h
    cases h

/-- Drawing the same line a second time, with the same test and shade, changes
nothing: the two calls in a row end as the first call alone. -/
theorem drawLineWith_twice (view : Int → Int → Bool)
    (hview : ∀ x y, view x y = true → 0 ≤ x ∧ x < WIDTH ∧ 0 ≤ y ∧ y < HEIGHT)
    (c : Char) (screen : Screen) (p1 p2 : Point2d) (hs : WellSized screen) :
    (drawLineWith view c screen p1 p2 >>= fun s => drawLineWith view c s p1 p2) =
      drawLineWith view c screen p1 p2 := by
  cases htr : traced p1 p2 with
  | none =>
    rw [drawLineWith_diverged view hview c screen p1 p2 hs htr]
    rfl
  | some pts =>
    obtain ⟨s1, hd, hw, hc⟩ := drawLineWith_spec view hview c screen p1 p2 hs pts htr
    obtain ⟨s2, hd2, hw2, hc2⟩ := drawLineWith_spec view hview c s1 p1 p2 hw pts htr
    rw [hd, ok_bind, hd2]
    congr 1
    apply screen_ext hw2 hw
    intro a b ha hb
    obtain ⟨cur, k1, k2⟩ := hc a b ha hb
    obtain ⟨cur1, k3, k4⟩ := hc2 a b ha hb
    rw [k2] at k3
    injection k3 with k3
    rw [k4, k2, ← k3]
    congr 1
    by_cases hm : view a b = true ∧ ((a : Int), (b : Int)) ∈ pts
    · simp only [hm, and_self, if_true]
      exact composite_idem c cur
    · simp only [hm, if_false]

theorem cube_inViewport_bounds (x y : Int) (h : Cube.inViewport x y = true) :
    0 ≤ x ∧ x < WIDTH ∧ 0 ≤ y ∧ y < HEIGHT := by
  unfold Cube.inViewport at h
  simp only [Bool.and_eq_true, decide_eq_true_eq] at h
  omega

theorem cube_inViewport_of_lt {a b : Nat} (ha : a < WIDTH.toNat) (hb : b < HEIGHT.toNat) :
    (Cube.inViewport (a : Int) (b : Int) = true) = (0 < a ∧ 0 < b) := by
  have hW : WIDTH = 80 := rfl
  have hH : HEIGHT = 40 := rfl
  rw [WIDTH_toNat] at ha
  rw [HEIGHT_toNat] at hb
  apply propext
  unfold Cube.inViewport
  simp only [Bool.and_eq_true, decide_eq_true_eq]
  omega

/-! ## A line that is never finished -/

/-- From the state `y = -5`, `err = -1389934592` of the line towards
`(1200000000, 0)`, every turn of the loop steps along x only: `err * 2` wraps to
`1515098112`, above `dx`, so `y` and `err` never change again. -/
theorem loopPoints_far_stuck :
    ∀ (fuel : Nat) (x : Int),
      loopPoints ⟨1200000000, 0, 3⟩ 1200000000 0 1 (-1) fuel x (-5) (-1389934592) = none := by
  intro fuel
  induction fuel with
  | zero =>
    intro x
    rfl
  | succ fuel ih =>
    intro x
    unfold loopPoints
    have hend : ¬ (x = (⟨1200000000, 0, 3⟩ : Point2d).x ∧
        (-5 : Int) = (⟨1200000000, 0, 3⟩ : Point2d).y) := by
      intro h
      have := h.2
      simp at this
    rw [if_neg hend]
    have e2 : wrapInt (-1389934592 * 2) = 1515098112 := by decide
    have e3 : wrapInt (-1389934592 + 0) = -1389934592 := by decide
    dsimp only
    rw [e2]
    simp only [ge_iff_le, Int.reduceLE, if_true, if_false, e3]
    rw [ih]
    rfl

/-- The first five turns of the loop from `(0, 0)` towards `(1200000000, 0)`:
`err * 2` wraps to a negative number in the first turn, and the loop steps along
y, away from the line. -/
theorem loopPoints_far_five (fuel : Nat) :
    loopPoints ⟨1200000000, 0, 3⟩ 1200000000 0 1 (-1) (fuel + 5) 0 0 1200000000 =
      (loopPoints ⟨1200000000, 0, 3⟩ 1200000000 0 1 (-1) fuel 2 (-5) (-1389934592)).map
        (fun ps => (0, 0) :: (0, -1) :: (1, -2) :: (1, -3) :: (2, -4) :: ps) := by
  have s : ∀ (n : Nat) (x y err : Int),
      loopPoints ⟨1200000000, 0, 3⟩ 1200000000 0 1 (-1) (n + 1) x y err =
        if x = 1200000000 ∧ y = 0 then some [(x, y)]
        else
          (loopPoints ⟨1200000000, 0, 3⟩ 1200000000 0 1 (-1) n
            (if wrapInt (err * 2) ≥ 0 then wrapInt (x + 1) else x)
            (if wrapInt (err * 2) ≤ 1200000000 then wrapInt (y + -1) else y)
            (if wrapInt (err * 2) ≤ 1200000000 then
              wrapInt ((if wrapInt (err * 2) ≥ 0 then wrapInt (err + 0) else err) + 1200000000)
            else (if wrapInt (err * 2) ≥ 0 then wrapInt (err + 0) else err))).map
            (fun ps => (x, y) :: ps) := fun _ _ _ _ => rfl
  rw [s, s, s, s, s]
  simp [wrapInt]
  rfl

/-- The loop from `(0, 0)` towards `(1200000000, 0)` does not end, however many
iterations it is given. -/
theorem loopPoints_far :
    ∀ fuel : Nat,
      loopPoints ⟨1200000000, 0, 3⟩ 1200000000 0 1 (-1) fuel 0 0 1200000000 = none := by
  intro fuel
  cases h : loopPoints ⟨1200000000, 0, 3⟩ 1200000000 0 1 (-1) fuel 0 0 1200000000 with
  | none => rfl
  | some pts =>
    have h5 := loopPoints_mono _ _ _ _ _ fuel (fuel + 5) _ _ _ pts h (by omega)
    rw [loopPoints_far_five, loopPoints_far_stuck] at h5
    cases h5

theorem traced_far : traced ⟨0, 0, 3⟩ ⟨1200000000, 0, 3⟩ = none :=
  loopPoints_far loopFuel

/-! ## C10: the compositing rule -/

/-- C10, as stated, fails: the cell of column 0, row 0 holds `.`, the first
character of the ramp, and the line through it has the shade `-`, the third
character of the ramp; the cell is in the viewport, is visited, and keeps `.`,
because `-` (code 45) is not greater than `.` (code 46) as a `char`. -/
theorem drawLine_keeps_fainter_shade :
    SHADES.get? 0 = some '.' ∧ SHADES.get? 2 = some '-' ∧
    shadeChar ⟨0, 0, 4⟩ ⟨0, 0, 4⟩ = '-' ∧
    visited ⟨0, 0, 4⟩ ⟨0, 0, 4⟩ = some [(0, 0)] ∧
    traced ⟨0, 0, 4⟩ ⟨0, 0, 4⟩ = some [(0, 0)] ∧
    cellAt dotScreen 0 0 = some '.' ∧
    drawLine dotScreen ⟨0, 0, 4⟩ ⟨0, 0, 4⟩ = .ok dotScreen := by
  have hc : shadeChar ⟨0, 0, 4⟩ ⟨0, 0, 4⟩ = '-' := by
    have hi : shadeIdx ⟨0, 0, 4⟩ ⟨0, 0, 4⟩ = 2 := by
      unfold shadeIdx CAM_DIST
      norm_num [truncToInt, clamp, SHADES, INT_MIN, INT_MAX]
    unfold shadeChar
    rw [hi]
    rfl
  refine ⟨rfl, rfl, hc, rfl, rfl, rfl, ?_⟩
  unfold drawLine
  rw [hc]
  rfl

/-- C10, amended: on a buffer of the dimensions of the viewport, whenever the
loop of `drawLine` ends, `drawLine` returns a buffer in which a cell is
overwritten with the shade character `c` of the line exactly when the viewport
test accepts the cell (every cell in `model_loader.cpp`, the cells with
`x > 0` and `y > 0` in `cube.cpp`), the loop visits it and it holds the
background `' '` or a character that is smaller than `c` in the order of `char`
values (character codes); every other cell keeps its content.  The loop ends
between any two `int` points with extents of at most a third of `INT_MAX`. -/
theorem drawLine_composite (screen : Screen) (p1 p2 : Point2d) (hs : WellSized screen) :
    (∀ pts, traced p1 p2 = some pts →
      (∃ screen1, drawLine screen p1 p2 = .ok screen1 ∧ WellSized screen1 ∧
        ∀ a b : Nat, a < WIDTH.toNat → b < HEIGHT.toNat →
          ∃ cur, cellAt screen a b = some cur ∧
            cellAt screen1 a b =
              some (if ((a : Int), (b : Int)) ∈ pts ∧ (cur = ' ' ∨ shadeChar p1 p2 > cur)
                then shadeChar p1 p2 else cur)) ∧
      (∃ screen1, Cube.drawLine screen p1 p2 = .ok screen1 ∧ WellSized screen1 ∧
        ∀ a b : Nat, a < WIDTH.toNat → b < HEIGHT.toNat →
          ∃ cur, cellAt screen a b = some cur ∧
            cellAt screen1 a b =
              some (if (0 < a ∧ 0 < b) ∧ ((a : Int), (b : Int)) ∈ pts ∧
                  (cur = ' ' ∨ Cube.shadeChar p1 p2 > cur)
                then Cube.shadeChar p1 p2 else cur))) ∧
    (SmallExtent p1 p2 → ∃ pts, traced p1 p2 = some pts ∧ visited p1 p2 = some pts) := by
  refine ⟨?_, traced_some⟩
  intro pts hpts
  constructor
  · obtain ⟨screen1, h1, h2, h3⟩ :=
      drawLineWith_spec inViewport inViewport_bounds (shadeChar p1 p2) screen p1 p2 hs pts hpts
    refine ⟨screen1, h1, h2, ?_⟩
    intro a b ha hb
    obtain ⟨cur, k1, k2⟩ := h3 a b ha hb
    refine ⟨cur, k1, ?_⟩
    rw [k2]
    congr 1
    simp only [inViewport_of_lt ha hb, true_and]
    unfold composite
    by_cases hm : ((a : Int), (b : Int)) ∈ pts
    · simp only [hm, if_true, true_and]
    · simp only [hm, if_false, false_and]
  · obtain ⟨screen1, h1, h2, h3⟩ :=
      drawLineWith_spec Cube.inViewport cube_inViewport_bounds (Cube.shadeChar p1 p2)
        screen p1 p2 hs pts hpts
    refine ⟨screen1, h1, h2, ?_⟩
    intro a b ha hb
    obtain ⟨cur, k1, k2⟩ := h3 a b ha hb
    refine ⟨cur, k1, ?_⟩
    rw [k2]
    congr 1
    simp only [cube_inViewport_of_lt ha hb]
    unfold composite
    by_cases hv : 0 < a ∧ 0 < b
    · by_cases hm : ((a : Int), (b : Int)) ∈ pts
      · simp only [hv, hm, and_self, if_true, true_and]
      · simp only [hv, hm, and_self, if_false, false_and, and_false]
    · simp only [hv, false_and, if_false]

/-- C10, amended, at a buffer that holds `.` (code 46) in column 0 and `#`
(code 35) in column 1 of row 0, and the line of shade `-` (code 45) from `(0, 0)`
to `(3, 0)`: the `.` is kept although it is earlier in the ramp, the `#` is
overwritten although it is later in the ramp, and the blank cells are written. -/
theorem drawLine_composite_witness :
    (cellAt rampScreen 0 0 = some '.' ∧ cellAt rampScreen 1 0 = some '#' ∧
      cellAt rampScreen 2 0 = some ' ') ∧
    shadeChar ⟨0, 0, 4⟩ ⟨3, 0, 4⟩ = '-' ∧
    traced ⟨0, 0, 4⟩ ⟨3, 0, 4⟩ = some [(0, 0), (1, 0), (2, 0), (3, 0)] ∧
    (∃ screen1, drawLine rampScreen ⟨0, 0, 4⟩ ⟨3, 0, 4⟩ = .ok screen1 ∧ WellSized screen1 ∧
      (∀ a b : Nat, a < WIDTH.toNat → b < HEIGHT.toNat →
        ∃ cur, cellAt rampScreen a b = some cur ∧
          cellAt screen1 a b =
            some (if ((a : Int), (b : Int)) ∈ [((0 : Int), (0 : Int)), (1, 0), (2, 0), (3, 0)] ∧
                (cur = ' ' ∨ shadeChar ⟨0, 0, 4⟩ ⟨3, 0, 4⟩ > cur)
              then shadeChar ⟨0, 0, 4⟩ ⟨3, 0, 4⟩ else cur)) ∧
      cellAt screen1 0 0 = some '.' ∧ cellAt screen1 1 0 = some '-' ∧
      cellAt screen1 2 0 = some '-') := by
  have hc : shadeChar ⟨0, 0, 4⟩ ⟨3, 0, 4⟩ = '-' := by
    have hi : shadeIdx ⟨0, 0, 4⟩ ⟨3, 0, 4⟩ = 2 := by
      unfold shadeIdx CAM_DIST
      norm_num [truncToInt, clamp, SHADES, INT_MIN, INT_MAX]
    unfold shadeChar
    rw [hi]
    rfl
  have hw : WellSized rampScreen :=
    wellSized_setCell (wellSized_setCell wellSized_blankScreen 0 0 '.' (by decide)) 1 0 '#'
      (by decide)
  have htr : traced ⟨0, 0, 4⟩ ⟨3, 0, 4⟩ = some [(0, 0), (1, 0), (2, 0), (3, 0)] := rfl
  obtain ⟨screen1, h1, h2, h3⟩ :=
    ((drawLine_composite rampScreen ⟨0, 0, 4⟩ ⟨3, 0, 4⟩ hw).1 _ htr).1
  refine ⟨⟨rfl, rfl, rfl⟩, hc, htr, screen1, h1, h2, h3, ?_, ?_, ?_⟩
  · obtain ⟨cur, k1, k2⟩ := h3 0 0 (by decide) (by decide)
    have e : cur = '.' := by
      have k0 : cellAt rampScreen 0 0 = some '.' := rfl
      rw [k0] at k1
      injection k1 with k1
      exact k1.symm
    rw [k2, e, hc]
    decide
  · obtain ⟨cur, k1, k2⟩ := h3 1 0 (by decide) (by decide)
    have e : cur = '#' := by
      have k0 : cellAt rampScreen 1 0 = some '#' := rfl
      rw [k0] at k1
      injection k1 with k1
      exact k1.symm
    rw [k2, e, hc]
    decide
  · obtain ⟨cur, k1, k2⟩ := h3 2 0 (by decide) (by decide)
    have e : cur = ' ' := by
      have k0 : cellAt rampScreen 2 0 = some ' ' := rfl
      rw [k0] at k1
      injection k1 with k1
      exact k1.symm
    rw [k2, e, hc]
    decide

/-! ## C12: drawing the same line twice -/

/-- C12, as stated, fails: between `(0, 0)` and `(1200000000, 0)` the loop of
`drawLine` does not end, so there is no buffer that `drawLine` returns for these
points, drawn once or twice, in neither file. -/
theorem drawLine_twice_far_end_point :
    traced ⟨0, 0, 3⟩ ⟨1200000000, 0, 3⟩ = none ∧
    (¬ ∃ s, drawLine blankScreen ⟨0, 0, 3⟩ ⟨1200000000, 0, 3⟩ = .ok s) ∧
    (¬ ∃ s, Cube.drawLine blankScreen ⟨0, 0, 3⟩ ⟨1200000000, 0, 3⟩ = .ok s) ∧
    (drawLine blankScreen ⟨0, 0, 3⟩ ⟨1200000000, 0, 3⟩ >>=
      fun s => drawLine s ⟨0, 0, 3⟩ ⟨1200000000, 0, 3⟩) = .error .diverged ∧
    (Cube.drawLine blankScreen ⟨0, 0, 3⟩ ⟨1200000000, 0, 3⟩ >>=
      fun s => Cube.drawLine s ⟨0, 0, 3⟩ ⟨1200000000, 0, 3⟩) = .error .diverged := by
  have h1 : drawLine blankScreen ⟨0, 0, 3⟩ ⟨1200000000, 0, 3⟩ = .error .diverged :=
    drawLineWith_diverged inViewport inViewport_bounds _ blankScreen _ _ wellSized_blankScreen
      traced_far
  have h2 : Cube.drawLine blankScreen ⟨0, 0, 3⟩ ⟨1200000000, 0, 3⟩ = .error .diverged :=
    drawLineWith_diverged Cube.inViewport cube_inViewport_bounds _ blankScreen _ _
      wellSized_blankScreen traced_far
  refine ⟨traced_far, ?_, ?_, ?_, ?_⟩
  · rintro ⟨s, hs⟩
    rw [h1] at hs
    cases hs
  · rintro ⟨s, hs⟩
    rw [h2] at hs
    cases hs
  · rw [h1]
    rfl
  · rw [h2]
    rfl

/-- C12, amended: for every buffer of the dimensions of the viewport and every two
screen points, `drawLine` followed by `drawLine` with the same points ends as
`drawLine` alone: with the same buffer, or, when the loop between the points does
not end, without a buffer; so does the `drawLine` of `cube.cpp`.  Between two `int`
points with extents of at most a third of `INT_MAX` the loop ends: `drawLine`
returns a buffer, and `drawLine` with the same points on that buffer returns it
unchanged. -/
theorem drawLine_idempotent (b : Screen) (p1 p2 : Point2d) (hb : WellSized b) :
    (drawLine b p1 p2 >>= fun s => drawLine s p1 p2) = drawLine b p1 p2 ∧
    (Cube.drawLine b p1 p2 >>= fun s => Cube.drawLine s p1 p2) = Cube.drawLine b p1 p2 ∧
    (SmallExtent p1 p2 →
      (∃ s, drawLine b p1 p2 = .ok s ∧ drawLine s p1 p2 = .ok s) ∧
      (∃ s, Cube.drawLine b p1 p2 = .ok s ∧ Cube.drawLine s p1 p2 = .ok s)) := by
  have t1 := drawLineWith_twice inViewport inViewport_bounds (shadeChar p1 p2) b p1 p2 hb
  have t2 := drawLineWith_twice Cube.inViewport cube_inViewport_bounds (Cube.shadeChar p1 p2)
    b p1 p2 hb
  refine ⟨t1, t2, ?_⟩
  intro hsmall
  obtain ⟨pts, hpts, _⟩ := traced_some hsmall
  obtain ⟨s, hd, _, _⟩ :=
    drawLineWith_spec inViewport inViewport_bounds (shadeChar p1 p2) b p1 p2 hb pts hpts
  obtain ⟨sc, hdc, _, _⟩ :=
    drawLineWith_spec Cube.inViewport cube_inViewport_bounds (Cube.shadeChar p1 p2)
      b p1 p2 hb pts hpts
  constructor
  · refine ⟨s, hd, ?_⟩
    rw [hd, ok_bind] at t1
    exact t1
  · refine ⟨sc, hdc, ?_⟩
    rw [hdc, ok_bind] at t2
    exact t2

/-- C12, amended, at the buffer with two marked cells and the line from `(0, 0)` to
`(70, 30)`, which passes through the two marked cells. -/
theorem drawLine_idempotent_witness :
    (drawLine rampScreen ⟨0, 0, 4⟩ ⟨70, 30, 2⟩ >>= fun s => drawLine s ⟨0, 0, 4⟩ ⟨70, 30, 2⟩) =
      drawLine rampScreen ⟨0, 0, 4⟩ ⟨70, 30, 2⟩ ∧
    (Cube.drawLine rampScreen ⟨0, 0, 4⟩ ⟨70, 30, 2⟩ >>=
        fun s => Cube.drawLine s ⟨0, 0, 4⟩ ⟨70, 30, 2⟩) =
      Cube.drawLine rampScreen ⟨0, 0, 4⟩ ⟨70, 30, 2⟩ ∧
    (∃ s, drawLine rampScreen ⟨0, 0, 4⟩ ⟨70, 30, 2⟩ = .ok s ∧
      drawLine s ⟨0, 0, 4⟩ ⟨70, 30, 2⟩ = .ok s) ∧
    (∃ s, Cube.drawLine rampScreen ⟨0, 0, 4⟩ ⟨70, 30, 2⟩ = .ok s ∧
      Cube.drawLine s ⟨0, 0, 4⟩ ⟨70, 30, 2⟩ = .ok s) := by
  have hw : WellSized rampScreen :=
    wellSized_setCell (wellSized_setCell wellSized_blankScreen 0 0 '.' (by decide)) 1 0 '#'
      (by decide)
  have h := drawLine_idempotent rampScreen ⟨0, 0, 4⟩ ⟨70, 30, 2⟩ hw
  have hsmall : SmallExtent ⟨0, 0, 4⟩ ⟨70, 30, 2⟩ := by
    unfold SmallExtent
    decide
  exact ⟨h.1, h.2.1, (h.2.2 hsmall).1, (h.2.2 hsmall).2⟩

/-! ## C13: silent clipping -/

/-- C13, as stated, fails: between `(0, 0)` and `(1200000000, 0)` the loop of
`drawLine` does not end, however many iterations it is given, so `drawLine`
returns no buffer, in neither file; the first turn computes `err * 2` beyond the
range of `int`. -/
theorem drawLine_far_end_point :
    (∀ fuel : Nat,
      loopPoints ⟨1200000000, 0, 3⟩ 1200000000 0 1 (-1) fuel 0 0 1200000000 = none) ∧
    traced ⟨0, 0, 3⟩ ⟨1200000000, 0, 3⟩ = none ∧
    drawLine blankScreen ⟨0, 0, 3⟩ ⟨1200000000, 0, 3⟩ = .error .diverged ∧
    Cube.drawLine blankScreen ⟨0, 0, 3⟩ ⟨1200000000, 0, 3⟩ = .error .diverged ∧
    wrapInt (1200000000 * 2) = -1894967296 :=
  ⟨loopPoints_far, traced_far,
    drawLineWith_diverged inViewport inViewport_bounds _ blankScreen _ _ wellSized_blankScreen
      traced_far,
    drawLineWith_diverged Cube.inViewport cube_inViewport_bounds _ blankScreen _ _
      wellSized_blankScreen traced_far,
    by decide⟩

/-- C13, amended: for every buffer of the dimensions of the viewport and every
two end points, however far outside, no access of `drawLine` goes beyond the
buffer, in neither file; whenever its loop ends, `drawLine` returns a buffer of
the same dimensions in which the visited cells that the viewport test accepts
(every cell of the viewport in `model_loader.cpp`, those with `x > 0` and
`y > 0` in `cube.cpp`) are composited and every other cell keeps its content, so
the points outside the viewport change nothing.  The loop ends, on the points of
the line over unbounded integers, between any two `int` points with extents of
at most a third of `INT_MAX`. -/
theorem drawLine_clips (screen : Screen) (p1 p2 : Point2d) (hs : WellSized screen) :
    drawLine screen p1 p2 ≠ .error .indexOutOfBounds ∧
    Cube.drawLine screen p1 p2 ≠ .error .indexOutOfBounds ∧
    (∀ pts, traced p1 p2 = some pts →
      ∃ s sc, drawLine screen p1 p2 = .ok s ∧ Cube.drawLine screen p1 p2 = .ok sc ∧
        (s.length = HEIGHT.toNat ∧ ∀ row ∈ s, row.length = WIDTH.toNat) ∧
        (sc.length = HEIGHT.toNat ∧ ∀ row ∈ sc, row.length = WIDTH.toNat) ∧
        ∀ a b : Nat, a < WIDTH.toNat → b < HEIGHT.toNat →
          ∃ cur, cellAt screen a b = some cur ∧
            cellAt s a b =
              some (if ((a : Int), (b : Int)) ∈ pts then composite (shadeChar p1 p2) cur
                else cur) ∧
            cellAt sc a b =
              some (if (0 < a ∧ 0 < b) ∧ ((a : Int), (b : Int)) ∈ pts
                then composite (Cube.shadeChar p1 p2) cur else cur)) ∧
    (SmallExtent p1 p2 → ∃ pts, traced p1 p2 = some pts ∧ visited p1 p2 = some pts) := by
  refine ⟨drawLineWith_in_bounds inViewport inViewport_bounds _ screen p1 p2 hs,
    drawLineWith_in_bounds Cube.inViewport cube_inViewport_bounds _ screen p1 p2 hs, ?_,
    traced_some⟩
  intro pts hpts
  obtain ⟨s, hd, hw, hc⟩ :=
    drawLineWith_spec inViewport inViewport_bounds (shadeChar p1 p2) screen p1 p2 hs pts hpts
  obtain ⟨sc, hd2, hw2, hc2⟩ :=
    drawLineWith_spec Cube.inViewport cube_inViewport_bounds (Cube.shadeChar p1 p2)
      screen p1 p2 hs pts hpts
  refine ⟨s, sc, hd, hd2, hw, hw2, ?_⟩
  intro a b ha hb
  obtain ⟨cur, k1, k2⟩ := hc a b ha hb
  obtain ⟨cur2, k3, k4⟩ := hc2 a b ha hb
  have e : cur2 = cur := by
    rw [k1] at k3
    injection k3 with k3
    exact k3.symm
  subst e
  refine ⟨cur2, k1, ?_, ?_⟩
  · rw [k2]
    simp only [inViewport_of_lt ha hb, true_and]
  · rw [k4]
    simp only [cube_inViewport_of_lt ha hb]

set_option maxRecDepth 100000 in
/-- C13, amended, at the buffer with two marked cells and the line of row 10 from
`(-20, 10)` to `(100, 10)`, both end points outside the viewport: the loop visits
the 121 points of the line, of which 80 are in the viewport, and the cells of
row 10 are composited, from column 0 in `model_loader.cpp` and from column 1 in
`cube.cpp`. -/
theorem drawLine_clips_witness :
    drawLine rampScreen ⟨-20, 10, 4⟩ ⟨100, 10, 4⟩ ≠ .error .indexOutOfBounds ∧
    Cube.drawLine rampScreen ⟨-20, 10, 4⟩ ⟨100, 10, 4⟩ ≠ .error .indexOutOfBounds ∧
    (∃ pts s sc, traced ⟨-20, 10, 4⟩ ⟨100, 10, 4⟩ = some pts ∧
      visited ⟨-20, 10, 4⟩ ⟨100, 10, 4⟩ = some pts ∧ pts.length = 121 ∧
      (pts.filter inViewportPt).length = 80 ∧
      drawLine rampScreen ⟨-20, 10, 4⟩ ⟨100, 10, 4⟩ = .ok s ∧
      Cube.drawLine rampScreen ⟨-20, 10, 4⟩ ⟨100, 10, 4⟩ = .ok sc ∧
      (s.length = HEIGHT.toNat ∧ ∀ row ∈ s, row.length = WIDTH.toNat) ∧
      (sc.length = HEIGHT.toNat ∧ ∀ row ∈ sc, row.length = WIDTH.toNat) ∧
      ∀ a b : Nat, a < WIDTH.toNat → b < HEIGHT.toNat →
        ∃ cur, cellAt rampScreen a b = some cur ∧
          cellAt s a b =
            some (if ((a : Int), (b : Int)) ∈ pts
              then composite (shadeChar ⟨-20, 10, 4⟩ ⟨100, 10, 4⟩) cur else cur) ∧
          cellAt sc a b =
            some (if (0 < a ∧ 0 < b) ∧ ((a : Int), (b : Int)) ∈ pts
              then composite (Cube.shadeChar ⟨-20, 10, 4⟩ ⟨100, 10, 4⟩) cur else cur)) := by
  have hw : WellSized rampScreen :=
    wellSized_setCell (wellSized_setCell wellSized_blankScreen 0 0 '.' (by decide)) 1 0 '#'
      (by decide)
  have h := drawLine_clips rampScreen ⟨-20, 10, 4⟩ ⟨100, 10, 4⟩ hw
  have hsmall : SmallExtent ⟨-20, 10, 4⟩ ⟨100, 10, 4⟩ := by
    unfold SmallExtent
    decide
  obtain ⟨pts, hpts, hv⟩ := h.2.2.2 hsmall
  obtain ⟨s, sc, k⟩ := h.2.2.1 pts hpts
  have hlen : pts.length = 121 ∧ (pts.filter inViewportPt).length = 80 := by
    have hv2 : (visited ⟨-20, 10, 4⟩ ⟨100, 10, 4⟩).map
        (fun l => (l.length, (l.filter inViewportPt).length)) = some (121, 80) := rfl
    rw [hv] at hv2
    injection hv2 with hv2
    injection hv2 with e1 e2
    exact ⟨e1, e2⟩
  exact ⟨h.1, h.2.1, pts, s, sc, hpts, hv, hlen.1, hlen.2, k⟩

/-! ## C19: the order in which two lines are drawn -/

theorem shadeChar_gt_space (p1 p2 : Point2d) : ' ' < shadeChar p1 p2 := by
  obtain ⟨h0, h8⟩ := shadeIdx_bounds p1 p2
  unfold shadeChar
  generalize shadeIdx p1 p2 = i at h0 h8
  interval_cases i <;> decide

theorem composite_eq_max {c : Char} (hc : ' ' < c) (cur : Char) :
    composite c cur = max cur c := by
  unfold composite
  by_cases h : cur = ' '
  · subst h
    simp only [true_or, if_true]
    exact (max_eq_right (le_of_lt hc)).symm
  · by_cases h2 : c > cur
    · simp only [h2, or_true, if_true]
      exact (max_eq_right (le_of_lt h2)).symm
    · simp only [h, h2, or_self, if_false]
      exact (max_eq_left (not_lt.mp h2)).symm

/-- Two lines whose loops end, drawn in either order into a buffer of the
dimensions of the viewport: both orders return the same buffer, in which every
cell holds the maximum of its content and of the shades of the lines that visit
it. -/
theorem drawLine_both_orders (b : Screen) (p1 p2 q1 q2 : Point2d) (hb : WellSized b)
    (ptsP ptsQ : List (Int × Int)) (hP : traced p1 p2 = some ptsP)
    (hQ : traced q1 q2 = some ptsQ) :
    ∃ s, (drawLine b p1 p2 >>= fun t => drawLine t q1 q2) = .ok s ∧
      (drawLine b q1 q2 >>= fun t => drawLine t p1 p2) = .ok s ∧
      ∀ x y : Nat, x < WIDTH.toNat → y < HEIGHT.toNat →
        ∃ cur, cellAt b x y = some cur ∧
          cellAt s x y =
            some (max (if ((x : Int), (y : Int)) ∈ ptsP then max cur (shadeChar p1 p2) else cur)
              (if ((x : Int), (y : Int)) ∈ ptsQ then shadeChar q1 q2 else cur)) := by
  obtain ⟨s1, hd1, hw1, hc1⟩ :=
    drawLineWith_spec inViewport inViewport_bounds (shadeChar p1 p2) b p1 p2 hb ptsP hP
  obtain ⟨s2, hd2, hw2, hc2⟩ :=
    drawLineWith_spec inViewport inViewport_bounds (shadeChar q1 q2) s1 q1 q2 hw1 ptsQ hQ
  obtain ⟨t1, he1, hv1, hk1⟩ :=
    drawLineWith_spec inViewport inViewport_bounds (shadeChar q1 q2) b q1 q2 hb ptsQ hQ
  obtain ⟨t2, he2, hv2, hk2⟩ :=
    drawLineWith_spec inViewport inViewport_bounds (shadeChar p1 p2) t1 p1 p2 hv1 ptsP hP
  have mP := composite_eq_max (shadeChar_gt_space p1 p2)
  have mQ := composite_eq_max (shadeChar_gt_space q1 q2)
  have cells : ∀ x y : Nat, x < WIDTH.toNat → y < HEIGHT.toNat →
      ∃ cur, cellAt b x y = some cur ∧
        cellAt s2 x y =
          some (max (if ((x : Int), (y : Int)) ∈ ptsP then max cur (shadeChar p1 p2) else cur)
            (if ((x : Int), (y : Int)) ∈ ptsQ then shadeChar q1 q2 else cur)) ∧
        cellAt t2 x y = cellAt s2 x y := by
    intro x y hx hy
    obtain ⟨cur, a1, a2⟩ := hc1 x y hx hy
    obtain ⟨cur1, a3, a4⟩ := hc2 x y hx hy
    obtain ⟨cur0, b1, b2⟩ := hk1 x y hx hy
    obtain ⟨cur2, b3, b4⟩ := hk2 x y hx hy
    rw [a2] at a3
    injection a3 with a3
    rw [a1] at b1
    injection b1 with b1
    rw [b2] at b3
    injection b3 with b3
    refine ⟨cur, a1, ?_, ?_⟩
    · rw [a4, ← a3]
      congr 1
      simp only [inViewport_of_lt hx hy, true_and, mP, mQ]
      by_cases hmP : ((x : Int), (y : Int)) ∈ ptsP <;>
        by_cases hmQ : ((x : Int), (y : Int)) ∈ ptsQ <;>
        simp only [hmP, hmQ, if_true, if_false, max_self]
      · exact (max_eq_left (le_max_left _ _)).symm
    · rw [b4, a4, ← a3, ← b3, ← b1]
      congr 1
      simp only [inViewport_of_lt hx hy, true_and, mP, mQ]
      by_cases hmP : ((x : Int), (y : Int)) ∈ ptsP <;>
        by_cases hmQ : ((x : Int), (y : Int)) ∈ ptsQ <;>
        simp only [hmP, hmQ, if_true, if_false]
      · exact sup_right_comm _ _ _
  have est : t2 = s2 := screen_ext hv2 hw2 (fun x y hx hy => (cells x y hx hy).choose_spec.2.2)
  refine ⟨s2, ?_, ?_, ?_⟩
  · show (drawLineWith inViewport (shadeChar p1 p2) b p1 p2 >>= fun t => drawLine t q1 q2) = _
    rw [hd1]
    exact hd2
  · show (drawLineWith inViewport (shadeChar q1 q2) b q1 q2 >>= fun t => drawLine t p1 p2) = _
    rw [he1, ← est]
    exact he2
  · intro x y hx hy
    obtain ⟨cur, c1, c2, _⟩ := cells x y hx hy
    exact ⟨cur, c1, c2⟩

/-- C19, as stated, fails: the segment from `(0, 0)` to `(1200000000, 0)` is never
finished, so neither order of drawing it and the segment from `(0, 0)` to `(5, 0)`
yields a buffer, although the short segment alone is drawn. -/
theorem drawLine_order_far_end_point :
    (∃ t, drawLine blankScreen ⟨0, 0, 3⟩ ⟨5, 0, 3⟩ = .ok t) ∧
    (¬ ∃ s, (drawLine blankScreen ⟨0, 0, 3⟩ ⟨1200000000, 0, 3⟩ >>=
      fun t => drawLine t ⟨0, 0, 3⟩ ⟨5, 0, 3⟩) = .ok s) ∧
    (¬ ∃ s, (drawLine blankScreen ⟨0, 0, 3⟩ ⟨5, 0, 3⟩ >>=
      fun t => drawLine t ⟨0, 0, 3⟩ ⟨1200000000, 0, 3⟩) = .ok s) := by
  have hfar : ∀ t, WellSized t →
      drawLine t ⟨0, 0, 3⟩ ⟨1200000000, 0, 3⟩ = .error .diverged :=
    fun t ht => drawLineWith_diverged inViewport inViewport_bounds _ t _ _ ht traced_far
  have htr : traced ⟨0, 0, 3⟩ ⟨5, 0, 3⟩ =
      some [(0, 0), (1, 0), (2, 0), (3, 0), (4, 0), (5, 0)] := rfl
  obtain ⟨t, ht, hw, _⟩ := drawLineWith_spec inViewport inViewport_bounds
    (shadeChar ⟨0, 0, 3⟩ ⟨5, 0, 3⟩) blankScreen ⟨0, 0, 3⟩ ⟨5, 0, 3⟩ wellSized_blankScreen _ htr
  have ht2 : drawLine blankScreen ⟨0, 0, 3⟩ ⟨5, 0, 3⟩ = .ok t := ht
  refine ⟨⟨t, ht2⟩, ?_, ?_⟩
  · rintro ⟨s, hs⟩
    rw [hfar blankScreen wellSized_blankScreen] at hs
    cases hs
  · rintro ⟨s, hs⟩
    rw [ht2, ok_bind, hfar t hw] at hs
    cases hs

/-- C19, amended: for every buffer of the dimensions of the viewport and any two
segments, drawing the first and then the second ends as drawing the second and
then the first: with the same buffer, or, when the loop of one of the segments does not
end, without a buffer.  When both loops end, a buffer is returned in which every
cell holds the maximum, in the order of `char` values, of its content and of the
shade characters of the lines that visit it; and both loops end between `int`
points with extents of at most a third of `INT_MAX`. -/
theorem drawLine_order_irrelevant (b : Screen) (p1 p2 q1 q2 : Point2d) (hb : WellSized b) :
    (drawLine b p1 p2 >>= fun t => drawLine t q1 q2) =
      (drawLine b q1 q2 >>= fun t => drawLine t p1 p2) ∧
    (∀ ptsP ptsQ, traced p1 p2 = some ptsP → traced q1 q2 = some ptsQ →
      ∃ s, (drawLine b p1 p2 >>= fun t => drawLine t q1 q2) = .ok s ∧
        (drawLine b q1 q2 >>= fun t => drawLine t p1 p2) = .ok s ∧
        ∀ x y : Nat, x < WIDTH.toNat → y < HEIGHT.toNat →
          ∃ cur, cellAt b x y = some cur ∧
            cellAt s x y =
              some (max
                (if ((x : Int), (y : Int)) ∈ ptsP then max cur (shadeChar p1 p2) else cur)
                (if ((x : Int), (y : Int)) ∈ ptsQ then shadeChar q1 q2 else cur))) ∧
    (SmallExtent p1 p2 → SmallExtent q1 q2 →
      ∃ ptsP ptsQ, (traced p1 p2 = some ptsP ∧ visited p1 p2 = some ptsP) ∧
        (traced q1 q2 = some ptsQ ∧ visited q1 q2 = some ptsQ)) := by
  refine ⟨?_, fun ptsP ptsQ hP hQ => drawLine_both_orders b p1 p2 q1 q2 hb ptsP ptsQ hP hQ, ?_⟩
  · have dP : ∀ t, WellSized t → traced p1 p2 = none → drawLine t p1 p2 = .error .diverged :=
      fun t ht h => drawLineWith_diverged inViewport inViewport_bounds _ t p1 p2 ht h
    have dQ : ∀ t, WellSized t → traced q1 q2 = none → drawLine t q1 q2 = .error .diverged :=
      fun t ht h => drawLineWith_diverged inViewport inViewport_bounds _ t q1 q2 ht h
    cases hP : traced p1 p2 with
    | none =>
      rw [dP b hb hP, error_bind]
      cases hQ : traced q1 q2 with
      | none => rw [dQ b hb hQ, error_bind]
      | some ptsQ =>
        obtain ⟨t1, he1, hv1, _⟩ :=
          drawLineWith_spec inViewport inViewport_bounds (shadeChar q1 q2) b q1 q2 hb ptsQ hQ
        have he1b : drawLine b q1 q2 = .ok t1 := he1
        rw [he1b, ok_bind, dP t1 hv1 hP]
    | some ptsP =>
      cases hQ : traced q1 q2 with
      | none =>
        obtain ⟨s1, hd1, hw1, _⟩ :=
          drawLineWith_spec inViewport inViewport_bounds (shadeChar p1 p2) b p1 p2 hb ptsP hP
        have hd1b : drawLine b p1 p2 = .ok s1 := hd1
        rw [hd1b, ok_bind, dQ s1 hw1 hQ, dQ b hb hQ, error_bind]
      | some ptsQ =>
        obtain ⟨s, h1, h2, _⟩ := drawLine_both_orders b p1 p2 q1 q2 hb ptsP ptsQ hP hQ
        rw [h1, h2]
  · intro h1 h2
    obtain ⟨ptsP, a1, a2⟩ := traced_some h1
    obtain ⟨ptsQ, b1, b2⟩ := traced_some h2
    exact ⟨ptsP, ptsQ, ⟨a1, a2⟩, ⟨b1, b2⟩⟩

/-- C19, amended, at the buffer with two marked cells and two lines of different
shades,
`.` along row 0 from `(0, 0)` to `(70, 0)` and `+` along column 1 from `(1, 0)` to
`(1, 30)`, that cross in the cell `(1, 0)`, which holds `#`. -/
theorem drawLine_order_irrelevant_witness :
    shadeChar ⟨0, 0, 3⟩ ⟨70, 0, 3⟩ = '.' ∧ shadeChar ⟨1, 0, 5⟩ ⟨1, 30, 5⟩ = '+' ∧
    cellAt rampScreen 1 0 = some '#' ∧
    (drawLine rampScreen ⟨0, 0, 3⟩ ⟨70, 0, 3⟩ >>=
        fun t => drawLine t ⟨1, 0, 5⟩ ⟨1, 30, 5⟩) =
      (drawLine rampScreen ⟨1, 0, 5⟩ ⟨1, 30, 5⟩ >>=
        fun t => drawLine t ⟨0, 0, 3⟩ ⟨70, 0, 3⟩) ∧
    (∃ ptsP ptsQ s, traced ⟨0, 0, 3⟩ ⟨70, 0, 3⟩ = some ptsP ∧
      traced ⟨1, 0, 5⟩ ⟨1, 30, 5⟩ = some ptsQ ∧
      ((1, 0) ∈ ptsP ∧ (1, 0) ∈ ptsQ) ∧
      (drawLine rampScreen ⟨0, 0, 3⟩ ⟨70, 0, 3⟩ >>=
        fun t => drawLine t ⟨1, 0, 5⟩ ⟨1, 30, 5⟩) = .ok s ∧
      (drawLine rampScreen ⟨1, 0, 5⟩ ⟨1, 30, 5⟩ >>=
        fun t => drawLine t ⟨0, 0, 3⟩ ⟨70, 0, 3⟩) = .ok s ∧
      ∀ x y : Nat, x < WIDTH.toNat → y < HEIGHT.toNat →
        ∃ cur, cellAt rampScreen x y = some cur ∧
          cellAt s x y =
            some (max
              (if ((x : Int), (y : Int)) ∈ ptsP
                then max cur (shadeChar ⟨0, 0, 3⟩ ⟨70, 0, 3⟩) else cur)
              (if ((x : Int), (y : Int)) ∈ ptsQ
                then shadeChar ⟨1, 0, 5⟩ ⟨1, 30, 5⟩ else cur))) := by
  have hw : WellSized rampScreen :=
    wellSized_setCell (wellSized_setCell wellSized_blankScreen 0 0 '.' (by decide)) 1 0 '#'
      (by decide)
  have hcP : shadeChar ⟨0, 0, 3⟩ ⟨70, 0, 3⟩ = '.' := by
    have hi : shadeIdx ⟨0, 0, 3⟩ ⟨70, 0, 3⟩ = 0 := by
      unfold shadeIdx CAM_DIST
      norm_num [truncToInt, clamp, SHADES, INT_MIN, INT_MAX]
    unfold shadeChar
    rw [hi]
    rfl
  have hcQ : shadeChar ⟨1, 0, 5⟩ ⟨1, 30, 5⟩ = '+' := by
    have hi : shadeIdx ⟨1, 0, 5⟩ ⟨1, 30, 5⟩ = 4 := by
      unfold shadeIdx CAM_DIST
      norm_num [truncToInt, clamp, SHADES, INT_MIN, INT_MAX]
    unfold shadeChar
    rw [hi]
    rfl
  have h := drawLine_order_irrelevant rampScreen ⟨0, 0, 3⟩ ⟨70, 0, 3⟩ ⟨1, 0, 5⟩ ⟨1, 30, 5⟩ hw
  have hs1 : SmallExtent ⟨0, 0, 3⟩ ⟨70, 0, 3⟩ := by
    unfold SmallExtent
    decide
  have hs2 : SmallExtent ⟨1, 0, 5⟩ ⟨1, 30, 5⟩ := by
    unfold SmallExtent
    decide
  obtain ⟨ptsP, ptsQ, ⟨a1, a2⟩, ⟨b1, b2⟩⟩ := h.2.2 hs1 hs2
  obtain ⟨s, k1, k2, k3⟩ := h.2.1 ptsP ptsQ a1 b1
  have hmP : ((1 : Int), (0 : Int)) ∈ ptsP := by
    have e : (visited ⟨0, 0, 3⟩ ⟨70, 0, 3⟩).map (fun l => l.contains ((1 : Int), (0 : Int))) =
        some true := rfl
    rw [a2] at e
    injection e with e
    simpa using e
  have hmQ : ((1 : Int), (0 : Int)) ∈ ptsQ := by
    have e : (visited ⟨1, 0, 5⟩ ⟨1, 30, 5⟩).map (fun l => l.contains ((1 : Int), (0 : Int))) =
        some true := rfl
    rw [b2] at e
    injection e with e
    simpa using e
  exact ⟨hcP, hcQ, rfl, h.1, ptsP, ptsQ, s, a1, b1, ⟨hmP, hmQ⟩, k1, k2, k3⟩

/-! ## C15: the frame of the cube at the angles 0 -/

theorem cube_shadeChar_ne_space (p1 p2 : Point2d) : Cube.shadeChar p1 p2 ≠ ' ' := by
  obtain ⟨h0, h8⟩ := cube_shadeIdx_bounds p1 p2
  unfold Cube.shadeChar
  generalize Cube.shadeIdx p1 p2 = i at h0 h8
  interval_cases i <;> decide

theorem composite_ne_space {c : Char} (hc : c ≠ ' ') (cur : Char) : composite c cur ≠ ' ' := by
  unfold composite
  by_cases h : cur = ' ' ∨ c > cur
  · rw [if_pos h]
    exact hc
  · rw [if_neg h]
    exact fun e => h (Or.inl e)

/-- A line whose loop ends, drawn with a shade that is not the background: the
cells that were marked stay marked, and the cells of the line that the viewport
test accepts are marked. -/
theorem drawLineWith_marks (view : Int → Int → Bool)
    (hview : ∀ x y, view x y = true → 0 ≤ x ∧ x < WIDTH ∧ 0 ≤ y ∧ y < HEIGHT)
    (c : Char) (hc : c ≠ ' ') (screen : Screen) (p1 p2 : Point2d) (hs : WellSized screen)
    (pts : List (Int × Int)) (hpts : traced p1 p2 = some pts) :
    ∃ screen1, drawLineWith view c screen p1 p2 = .ok screen1 ∧ WellSized screen1 ∧
      (∀ a b : Nat, a < WIDTH.toNat → b < HEIGHT.toNat →
        (∃ cur, cellAt screen a b = some cur ∧ cur ≠ ' ') →
        ∃ cur, cellAt screen1 a b = some cur ∧ cur ≠ ' ') ∧
      (∀ pt ∈ pts, view pt.1 pt.2 = true →
        ∃ cur, cellAt screen1 pt.1.toNat pt.2.toNat = some cur ∧ cur ≠ ' ') := by
  obtain ⟨s1, hd, hw, hcell⟩ := drawLineWith_spec view hview c screen p1 p2 hs pts hpts
  refine ⟨s1, hd, hw, ?_, ?_⟩
  · intro a b ha hb hmark
    obtain ⟨cur, k1, k2⟩ := hcell a b ha hb
    obtain ⟨cur0, m1, m2⟩ := hmark
    rw [k1] at m1
    injection m1 with m1
    subst m1
    refine ⟨_, k2, ?_⟩
    by_cases hm : view a b = true ∧ ((a : Int), (b : Int)) ∈ pts
    · rw [if_pos hm]
      exact composite_ne_space hc cur
    · rw [if_neg hm]
      exact m2
  · intro pt hpt hv
    obtain ⟨x0, x1, y0, y1⟩ := hview pt.1 pt.2 hv
    have hW : WIDTH = 80 := rfl
    have hH : HEIGHT = 40 := rfl
    have ha : pt.1.toNat < WIDTH.toNat := by rw [WIDTH_toNat]; omega
    have hb : pt.2.toNat < HEIGHT.toNat := by rw [HEIGHT_toNat]; omega
    obtain ⟨cur, _, k2⟩ := hcell _ _ ha hb
    have e1 : ((pt.1.toNat : Nat) : Int) = pt.1 := Int.toNat_of_nonneg x0
    have e2 : ((pt.2.toNat : Nat) : Int) = pt.2 := Int.toNat_of_nonneg y0
    refine ⟨_, k2, ?_⟩
    have hm : view (pt.1.toNat : Int) (pt.2.toNat : Int) = true ∧
        (((pt.1.toNat : Nat) : Int), ((pt.2.toNat : Nat) : Int)) ∈ pts := by
      rw [e1, e2]
      exact ⟨hv, hpt⟩
    rw [if_pos hm]
    exact composite_ne_space hc cur

/-- The edges of a model drawn one after the other, each with a shade that is not
the background, when every edge refers to projected points with extents of at
most a third of `INT_MAX`: the drawing ends without a fault, marked cells stay
marked, and every cell that a line of an edge visits and the viewport test
accepts is marked in the end. -/
theorem drawEdges_marks (view : Int → Int → Bool)
    (hview : ∀ x y, view x y = true → 0 ≤ x ∧ x < WIDTH ∧ 0 ≤ y ∧ y < HEIGHT)
    (shade : Point2d → Point2d → Char) (hshade : ∀ a b, shade a b ≠ ' ')
    (projected : List Point2d) :
    ∀ (edges : List Edge) (screen : Screen), WellSized screen →
      (∀ e ∈ edges, ∃ a b, pointAt projected e.1 = some a ∧ pointAt projected e.2 = some b ∧
        SmallExtent a b) →
      ∃ s, drawEdges (fun t a b => drawLineWith view (shade a b) t a b)
          projected edges screen = .ok s ∧ WellSized s ∧
        (∀ a b : Nat, a < WIDTH.toNat → b < HEIGHT.toNat →
          (∃ cur, cellAt screen a b = some cur ∧ cur ≠ ' ') →
          ∃ cur, cellAt s a b = some cur ∧ cur ≠ ' ') ∧
        ∀ e ∈ edges, ∀ a b pts, pointAt projected e.1 = some a →
          pointAt projected e.2 = some b → traced a b = some pts →
          ∀ pt ∈ pts, view pt.1 pt.2 = true →
            ∃ cur, cellAt s pt.1.toNat pt.2.toNat = some cur ∧ cur ≠ ' ' := by
  intro edges
  induction edges with
  | nil =>
    intro screen hs _
    exact ⟨screen, rfl, hs, fun _ _ _ _ h => h, fun e he => by cases he⟩
  | cons e rest ih =>
    intro screen hs hvalid
    obtain ⟨a, b, ha, hb, hsmall⟩ := hvalid e (List.mem_cons_self _ _)
    obtain ⟨pts, hp, _⟩ := traced_some hsmall
    obtain ⟨s1, hd, hw, hkeep, hmark⟩ :=
      drawLineWith_marks view hview (shade a b) (hshade a b) screen a b hs pts hp
    obtain ⟨s, hr, hws, hkeep2, hmark2⟩ :=
      ih s1 hw (fun e2 he2 => hvalid e2 (List.mem_cons_of_mem _ he2))
    refine ⟨s, ?_, hws, ?_, ?_⟩
    · unfold drawEdges
      rw [List.foldlM_cons, ha, hb]
      dsimp only
      rw [hd]
      exact hr
    · intro x y hx hy h
      exact hkeep2 x y hx hy (hkeep x y hx hy h)
    · intro e2 he2 a2 b2 pts2 ha2 hb2 hp2 pt hpt hv
      rcases List.mem_cons.mp he2 with h | h
      · subst h
        rw [ha] at ha2
        rw [hb] at hb2
        injection ha2 with ha2
        injection hb2 with hb2
        subst ha2 hb2
        rw [hp] at hp2
        injection hp2 with hp2
        subst hp2
        obtain ⟨x0, x1, y0, y1⟩ := hview pt.1 pt.2 hv
        have hW : WIDTH = 80 := rfl
        have hH : HEIGHT = 40 := rfl
        exact hkeep2 _ _ (by rw [WIDTH_toNat]; omega) (by rw [HEIGHT_toNat]; omega)
          (hmark pt hpt hv)
      · exact hmark2 e2 h a2 b2 pts2 ha2 hb2 hp2 pt hpt hv

theorem visited_head {p1 p2 : Point2d} {pts : List (Int × Int)}
    (h : visited p1 p2 = some pts) : (p1.x, p1.y) ∈ pts := by
  have hsx : (if p1.x < p2.x then (1 : Int) else -1) = 1 ∨
      (if p1.x < p2.x then (1 : Int) else -1) = -1 := by
    by_cases h : p1.x < p2.x <;> simp [h]
  have hsy : (if p1.y < p2.y then (1 : Int) else -1) = 1 ∨
      (if p1.y < p2.y then (1 : Int) else -1) = -1 := by
    by_cases h : p1.y < p2.y <;> simp [h]
  unfold visited at h
  have hh := (linePoints_shape p2 _ _ _ _ hsx hsy _ _ _ _ pts h).1
  cases pts with
  | nil => cases hh
  | cons q rest =>
    injection hh with hh
    rw [hh]
    exact List.mem_cons_self _ _

theorem pointAt_mem {projected : List Point2d} {i : Int} {a : Point2d}
    (h : pointAt projected i = some a) : a ∈ projected := by
  unfold pointAt at h
  by_cases hi : i < 0
  · rw [if_pos hi] at h
    cases h
  · rw [if_neg hi] at h
    exact List.get?_mem h

/-- A number between a non-negative `int` and its successor is converted to that
`int`. -/
theorem truncToInt_of_floor {q : ℚ} {n : Int} (h0 : 0 ≤ n) (hn : n ≤ INT_MAX)
    (h1 : (n : ℚ) ≤ q) (h2 : q < (n : ℚ) + 1) : truncToInt q = n := by
  have hq : 0 ≤ q := le_trans (by exact_mod_cast h0) h1
  have hr : roundToZero q = n := by
    rw [roundToZero_of_nonneg hq]
    exact Int.floor_eq_iff.mpr ⟨h1, h2⟩
  rw [truncToInt_eq, hr, if_pos ⟨by rw [INT_MIN_eq]; omega, hn⟩]

/-- With the field-of-view scale 1 the vertices of the cube at the angles 0 would
be projected to the points of `cubeProjected`. -/
theorem cube_rotated_projected :
    (Cube.cube_vertices.map (fun v => rotateY (rotateX v 1 0) 1 0)).map (project 1) =
      cubeProjected := by
  norm_num [Cube.cube_vertices, cubeProjected, project, rotateX, rotateY, truncToInt,
    WIDTH, HEIGHT, CAM_DIST, CUBE_SIZE, INT_MIN, INT_MAX]

/-- With a field-of-view scale between 1 and 21/20 the vertices of the cube at the
angles 0 are projected to the points of `cubeFrame`. -/
theorem cube_frame_projected (f : ℚ) (h1 : 1 < f) (h2 : f < 21 / 20) :
    (Cube.cube_vertices.map (fun v => rotateY (rotateX v 1 0) 1 0)).map (project f) =
      cubeFrame := by
  have hmax := INT_MAX_eq
  have t19 : truncToInt (40 - 20 * f) = 19 :=
    truncToInt_of_floor (by norm_num) (by omega) (by push_cast; linarith) (by push_cast; linarith)
  have t60 : truncToInt (40 + 20 * f) = 60 :=
    truncToInt_of_floor (by norm_num) (by omega) (by push_cast; linarith) (by push_cast; linarith)
  have t9 : truncToInt (20 - 10 * f) = 9 :=
    truncToInt_of_floor (by norm_num) (by omega) (by push_cast; linarith) (by push_cast; linarith)
  have t30 : truncToInt (20 + 10 * f) = 30 :=
    truncToInt_of_floor (by norm_num) (by omega) (by push_cast; linarith) (by push_cast; linarith)
  have t29 : truncToInt (40 - 10 * f) = 29 :=
    truncToInt_of_floor (by norm_num) (by omega) (by push_cast; linarith) (by push_cast; linarith)
  have t50 : truncToInt (40 + 10 * f) = 50 :=
    truncToInt_of_floor (by norm_num) (by omega) (by push_cast; linarith) (by push_cast; linarith)
  have t14 : truncToInt (20 - 5 * f) = 14 :=
    truncToInt_of_floor (by norm_num) (by omega) (by push_cast; linarith) (by push_cast; linarith)
  have t25 : truncToInt (20 + 5 * f) = 25 :=
    truncToInt_of_floor (by norm_num) (by omega) (by push_cast; linarith) (by push_cast; linarith)
  have e19 : (40 + -(f / 2 * 20 * 2) : ℚ) = 40 - 20 * f := by ring
  have e60 : (40 + f / 2 * 20 * 2 : ℚ) = 40 + 20 * f := by ring
  have e30 : (20 + f / 2 * 20 : ℚ) = 20 + 10 * f := by ring
  have e9 : (20 - f / 2 * 20 : ℚ) = 20 - 10 * f := by ring
  have e29 : (40 + -(f / 4 * 20 * 2) : ℚ) = 40 - 10 * f := by ring
  have e50 : (40 + f / 4 * 20 * 2 : ℚ) = 40 + 10 * f := by ring
  have e25 : (20 + f / 4 * 20 : ℚ) = 20 + 5 * f := by ring
  have e14 : (20 - f / 4 * 20 : ℚ) = 20 - 5 * f := by ring
  norm_num [Cube.cube_vertices, cubeFrame, project, rotateX, rotateY,
    WIDTH, HEIGHT, CAM_DIST, CUBE_SIZE]
  rw [e19, e60, e30, e9, e29, e50, e25, e14]
  exact ⟨⟨t19, t30⟩, ⟨t60, t30⟩, ⟨t60, t9⟩, ⟨t19, t9⟩, ⟨t29, t25⟩, ⟨t50, t25⟩, ⟨t50, t14⟩,
    t29, t14⟩

/-- Two points that a viewport test accepts have small extents. -/
theorem smallExtent_of_bounds {a b : Point2d}
    (ha : 0 ≤ a.x ∧ a.x < WIDTH ∧ 0 ≤ a.y ∧ a.y < HEIGHT)
    (hb : 0 ≤ b.x ∧ b.x < WIDTH ∧ 0 ≤ b.y ∧ b.y < HEIGHT) : SmallExtent a b := by
  have hW : WIDTH = 80 := rfl
  have hH : HEIGHT = 40 := rfl
  have hmin := INT_MIN_eq
  have hmax := INT_MAX_eq
  unfold SmallExtent
  refine ⟨by omega, by omega, by omega, by omega, ?_, ?_⟩
  · rw [abs_le]
    omega
  · rw [abs_le]
    omega

/-- The field-of-view scale `1 / tan(a)` lies strictly between 1 and 21/20 for an
angle `a` a little below a quarter of pi. -/
theorem inv_tan_bounds (a : ℝ) (h0 : 0 < a) (h1 : a < Real.pi / 4) (ha1 : a ≤ 1)
    (hnum : 20 / 21 * (1 - a ^ 2 / 2 + a ^ 4 * (5 / 96)) < a - a ^ 3 / 6 - a ^ 4 * (5 / 96)) :
    1 < 1 / Real.tan a ∧ 1 / Real.tan a < 21 / 20 := by
  have hpi := Real.pi_pos
  have habs : |a| ≤ 1 := by rw [abs_of_pos h0]; exact ha1
  have hcosb := abs_le.mp (Real.cos_bound habs)
  have hsinb := abs_le.mp (Real.sin_bound habs)
  rw [abs_of_pos h0] at hcosb hsinb
  have hcos : 0 < Real.cos a :=
    Real.cos_pos_of_mem_Ioo ⟨by linarith, by linarith⟩
  have htan1 : Real.tan a < 1 := by
    have := Real.tan_lt_tan_of_lt_of_lt_pi_div_two (by linarith : -(Real.pi / 2) < a)
      (by linarith : Real.pi / 4 < Real.pi / 2) h1
    rwa [Real.tan_pi_div_four] at this
  have htan2 : 20 / 21 < Real.tan a := by
    rw [Real.tan_eq_sin_div_cos, lt_div_iff₀ hcos]
    linarith [hcosb.2, hsinb.1]
  have htan0 : 0 < Real.tan a := by linarith
  constructor
  · exact one_lt_one_div htan0 htan1
  · have := one_div_lt_one_div_of_lt (by norm_num : (0 : ℝ) < 20 / 21) htan2
    have e : (1 : ℝ) / (20 / 21) = 21 / 20 := by norm_num
    rw [e] at this
    exact this

/-- The expressions of the two sources for the field-of-view scale have values
strictly between 1 and 21/20. -/
theorem fovScale_bounds :
    (1 < 1 / Real.tan (0.5 * 90 * 3.14128 / 180) ∧
      1 / Real.tan (0.5 * 90 * 3.14128 / 180) < 21 / 20) ∧
    (1 < 1 / Real.tan (0.5 * 90 * 3.14159 / 180) ∧
      1 / Real.tan (0.5 * 90 * 3.14159 / 180) < 21 / 20) := by
  have hpi := Real.pi_gt_d6
  constructor
  · apply inv_tan_bounds
    · norm_num
    · norm_num
      linarith
    · norm_num
    · norm_num
  · apply inv_tan_bounds
    · norm_num
    · norm_num
      linarith
    · norm_num
    · norm_num

/-- A frame of the cube at the angles 0, with a field-of-view scale between 1 and
21/20, for a `drawLine` with viewport test `view` and shades that are not the
background. -/
theorem cube_frame_marks (f : ℚ) (h1 : 1 < f) (h2 : f < 21 / 20) (view : Int → Int → Bool)
    (hview : ∀ x y, view x y = true → 0 ≤ x ∧ x < WIDTH ∧ 0 ≤ y ∧ y < HEIGHT)
    (hin : ∀ p ∈ cubeFrame, view p.x p.y = true)
    (shade : Point2d → Point2d → Char) (hshade : ∀ a b, shade a b ≠ ' ') :
    ∃ s, renderFrame (fun t a b => drawLineWith view (shade a b) t a b) f 1 0 1 0
        Cube.cube_vertices Cube.cube_edges = .ok s ∧
      ∀ e ∈ Cube.cube_edges, ∃ a b pts,
        pointAt cubeFrame e.1 = some a ∧ pointAt cubeFrame e.2 = some b ∧
        traced a b = some pts ∧ visited a b = some pts ∧
        (∃ pt ∈ pts, view pt.1 pt.2 = true) ∧
        ∀ pt ∈ pts, view pt.1 pt.2 = true →
          ∃ cur, cellAt s pt.1.toNat pt.2.toNat = some cur ∧ cur ≠ ' ' := by
  have hvalid : ∀ e ∈ Cube.cube_edges, ∃ a b,
      pointAt cubeFrame e.1 = some a ∧ pointAt cubeFrame e.2 = some b ∧ SmallExtent a b := by
    have h : ∀ e ∈ Cube.cube_edges,
        (pointAt cubeFrame e.1).isSome = true ∧ (pointAt cubeFrame e.2).isSome = true := by
      decide
    intro e he
    obtain ⟨k1, k2⟩ := h e he
    obtain ⟨a, ha⟩ := Option.isSome_iff_exists.mp k1
    obtain ⟨b, hb⟩ := Option.isSome_iff_exists.mp k2
    exact ⟨a, b, ha, hb,
      smallExtent_of_bounds (hview _ _ (hin a (pointAt_mem ha)))
        (hview _ _ (hin b (pointAt_mem hb)))⟩
  obtain ⟨s, hs, _, _, hmark⟩ :=
    drawEdges_marks view hview shade hshade cubeFrame Cube.cube_edges blankScreen
      wellSized_blankScreen hvalid
  refine ⟨s, ?_, ?_⟩
  · unfold renderFrame
    simp only [cube_frame_projected f h1 h2]
    exact hs
  · intro e he
    obtain ⟨a, b, ha, hb, hsmall⟩ := hvalid e he
    obtain ⟨pts, hpts, hvis⟩ := traced_some hsmall
    have hmem := visited_head hvis
    have hv : view a.x a.y = true := hin a (pointAt_mem ha)
    exact ⟨a, b, pts, ha, hb, hpts, hvis, ⟨(a.x, a.y), hmem, hv⟩,
      fun pt hpt hvpt => hmark e he a b pts ha hb hpts pt hpt hvpt⟩

/-- C15, as stated, fails: the expressions of the sources for the field-of-view
scale have values above 1, not 1, and with a scale above 1 (below 21/20) the
vertex `(-1, -1, -1)` of the front face is projected to x = 19, not 20, the vertex
`(1, 1, -1)` to y = 9, not 10, and the vertex `(-1, 1, 1)` of the back face to
`(29, 14)`, not `(30, 15)`; so it is for the scale `8389919/8388608`, which is the
`float` that `cube.cpp` computes, and for `8388619/8388608`. -/
theorem cube_frame_scale_above_one :
    1 < 1 / Real.tan (0.5 * 90 * 3.14128 / 180) ∧
    1 < 1 / Real.tan (0.5 * 90 * 3.14159 / 180) ∧
    (∀ f : ℚ, 1 < f → f < 21 / 20 →
      (Cube.cube_vertices.map (fun v => rotateY (rotateX v 1 0) 1 0)).map (project f) =
        cubeFrame) ∧
    project (8389919 / 8388608) ⟨-1, -1, -1⟩ = ⟨19, 30, 2⟩ ∧
    project (8389919 / 8388608) ⟨1, 1, -1⟩ = ⟨60, 9, 2⟩ ∧
    project (8389919 / 8388608) ⟨-1, 1, 1⟩ = ⟨29, 14, 4⟩ ∧
    project (8388619 / 8388608) ⟨-1, -1, -1⟩ = ⟨19, 30, 2⟩ ∧
    cubeFrame ≠ cubeProjected := by
  refine ⟨fovScale_bounds.1.1, fovScale_bounds.2.1, cube_frame_projected, ?_, ?_, ?_, ?_, ?_⟩
  · norm_num [project, truncToInt, WIDTH, HEIGHT, CAM_DIST, CUBE_SIZE, INT_MIN, INT_MAX]
    decide
  · norm_num [project, truncToInt, WIDTH, HEIGHT, CAM_DIST, CUBE_SIZE, INT_MIN, INT_MAX]
    decide
  · norm_num [project, truncToInt, WIDTH, HEIGHT, CAM_DIST, CUBE_SIZE, INT_MIN, INT_MAX]
    decide
  · norm_num [project, truncToInt, WIDTH, HEIGHT, CAM_DIST, CUBE_SIZE, INT_MIN, INT_MAX]
    decide
  · decide

/-- C15, amended: at the angles 0, with a field-of-view scale strictly between 1
and 21/20, where the expressions of both sources for it have their values, the
eight vertices of the cube are projected to the points of `cubeFrame` (the front
face to x in {19, 60}, y in {9, 30}, the back face to x in {29, 50}, y in
{14, 25}), all of them inside the viewport; the frame of `cube.cpp` (and the frame
of `model_loader.cpp` for the default cube) is drawn without a fault, and every
edge of the 12 has a cell on its rasterised path that the viewport test accepts,
and all such cells are not background in the frame. -/
theorem cube_frame_at_zero (f : ℚ) (h1 : 1 < f) (h2 : f < 21 / 20) :
    (Cube.cube_vertices.map (fun v => rotateY (rotateX v 1 0) 1 0)).map (project f) =
      cubeFrame ∧
    (cube_vertices.map (fun v => rotateY (rotateX v 1 0) 1 0)).map (project f) =
      cubeFrame ∧
    (∀ p ∈ cubeFrame, (0 ≤ p.x ∧ p.x < 80) ∧ (0 ≤ p.y ∧ p.y < 40)) ∧
    Cube.cube_edges.length = 12 ∧
    (∃ s, renderFrame Cube.drawLine f 1 0 1 0 Cube.cube_vertices Cube.cube_edges = .ok s ∧
      ∀ e ∈ Cube.cube_edges, ∃ a b pts,
        pointAt cubeFrame e.1 = some a ∧ pointAt cubeFrame e.2 = some b ∧
        traced a b = some pts ∧ visited a b = some pts ∧
        (∃ pt ∈ pts, Cube.inViewport pt.1 pt.2 = true) ∧
        ∀ pt ∈ pts, Cube.inViewport pt.1 pt.2 = true →
          ∃ cur, cellAt s pt.1.toNat pt.2.toNat = some cur ∧ cur ≠ ' ') ∧
    (∃ s, renderFrame drawLine f 1 0 1 0 cube_vertices cube_edges = .ok s ∧
      ∀ e ∈ cube_edges, ∃ a b pts,
        pointAt cubeFrame e.1 = some a ∧ pointAt cubeFrame e.2 = some b ∧
        traced a b = some pts ∧ visited a b = some pts ∧
        (∃ pt ∈ pts, inViewport pt.1 pt.2 = true) ∧
        ∀ pt ∈ pts, inViewport pt.1 pt.2 = true →
          ∃ cur, cellAt s pt.1.toNat pt.2.toNat = some cur ∧ cur ≠ ' ') ∧
    ((1 < 1 / Real.tan (0.5 * 90 * 3.14128 / 180) ∧
        1 / Real.tan (0.5 * 90 * 3.14128 / 180) < 21 / 20) ∧
      (1 < 1 / Real.tan (0.5 * 90 * 3.14159 / 180) ∧
        1 / Real.tan (0.5 * 90 * 3.14159 / 180) < 21 / 20)) := by
  refine ⟨cube_frame_projected f h1 h2, cube_frame_projected f h1 h2, by decide, rfl, ?_, ?_,
    fovScale_bounds⟩
  · exact cube_frame_marks f h1 h2 Cube.inViewport cube_inViewport_bounds (by decide)
      Cube.shadeChar cube_shadeChar_ne_space
  · exact cube_frame_marks f h1 h2 inViewport inViewport_bounds (by decide)
      shadeChar (fun a b => ne_of_gt (shadeChar_gt_space a b))

/-- C15, amended, at the scale `8389919/8388608`, the `float` that `cube.cpp`
computes for `1.0f/tan(0.5f * FOV * 3.14128/180)`. -/
theorem cube_frame_at_zero_witness :
    (Cube.cube_vertices.map (fun v => rotateY (rotateX v 1 0) 1 0)).map
        (project (8389919 / 8388608)) = cubeFrame ∧
    (∀ p ∈ cubeFrame, (0 ≤ p.x ∧ p.x < 80) ∧ (0 ≤ p.y ∧ p.y < 40)) ∧
    (∃ s, renderFrame Cube.drawLine (8389919 / 8388608) 1 0 1 0
        Cube.cube_vertices Cube.cube_edges = .ok s ∧
      ∀ e ∈ Cube.cube_edges, ∃ a b pts,
        pointAt cubeFrame e.1 = some a ∧ pointAt cubeFrame e.2 = some b ∧
        traced a b = some pts ∧ visited a b = some pts ∧
        (∃ pt ∈ pts, Cube.inViewport pt.1 pt.2 = true) ∧
        ∀ pt ∈ pts, Cube.inViewport pt.1 pt.2 = true →
          ∃ cur, cellAt s pt.1.toNat pt.2.toNat = some cur ∧ cur ≠ ' ') := by
  have h := cube_frame_at_zero (8389919 / 8388608) (by norm_num) (by norm_num)
  exact ⟨h.1, h.2.2.1, h.2.2.2.2.1⟩

end ProjectASCII
